import Mathlib

/-!
Verification of the `fgr` file-finder's predicate subsystem against its
specification.  Definitions are shallow embeddings of the Rust sources:
`src/parse/comparison.rs`, `src/evaluate/comparison_impl.rs`,
`src/parse/expression_node.rs`, `src/parse/size_unit.rs`,
`src/evaluate/traits.rs`, `src/parse/attribute_token.rs`,
`src/evaluate/filter_impl.rs`, `src/evaluate/nnf.rs`,
`src/evaluate/tseitin.rs`, `src/evaluate/execution_manager.rs`,
`src/parse/mod.rs`, `src/parse/primitives.rs`, `src/parse/util.rs`,
`src/config.rs` and `src/main.rs`.
-/

namespace Fgr

/-- The six comparison operators of `src/parse/comparison.rs` (`enum Comparison`). -/
inductive Comparison where
  | lt
  | gt
  | lte
  | gte
  | eq
  | neq
deriving DecidableEq, Repr

namespace Comparison

/-- `Comparison::negate` from `src/parse/comparison.rs`: maps each operator to
its logical complement. -/
def negate : Comparison → Comparison
  | .lt => .gte
  | .gt => .lte
  | .lte => .gt
  | .gte => .lt
  | .eq => .neq
  | .neq => .eq

/-- `Comparison::evaluate` from `src/evaluate/comparison_impl.rs`, instantiated
at natural-number operands (every `Filter` variant compares values of a
linearly ordered type: byte counts, depths, ids, timestamps, mode bits, or
booleans encoded as 0/1). -/
def evaluate (c : Comparison) (left right : Nat) : Bool :=
  match c with
  | .lt => left < right
  | .gt => left > right
  | .lte => left ≤ right
  | .gte => left ≥ right
  | .eq => left = right
  | .neq => left ≠ right

theorem negate_evaluate_cmp (c : Comparison) (l r : Nat) :
    (c.negate).evaluate l r = !(c.evaluate l r) := by
  cases c <;> simp only [negate, evaluate, ← decide_not] <;>
    exact decide_eq_decide.mpr (by omega)

theorem negate_negate (c : Comparison) : c.negate.negate = c := by
  cases c <;> rfl

end Comparison

/-- A leaf predicate of the expression tree (`enum Filter` in
`src/parse/filter.rs`).  Every source variant stores a typed value plus a
`Comparison`, and evaluates by `comparison.evaluate(entry_field, value)` over a
linearly ordered type; `atom` abstracts the pair (variant, stored value), so
that an entry determines the two operands fed to the comparison.
`Filter`'s `Not` impl (and the `filter.negate()` call in
`src/parse/expression_node.rs`) only negates the stored comparison. -/
structure Filter where
  atom : Nat
  comparison : Comparison
deriving DecidableEq, Repr

/-- `filter.negate()`: negate the stored comparison, keep the value. -/
def Filter.negate (f : Filter) : Filter :=
  { f with comparison := f.comparison.negate }

/-- Evaluation of a leaf filter against an entry.  The entry is abstracted by
the operand pair it supplies to each atom's comparison (for `Size`: the entry's
byte length and the stored byte count, and so on). -/
def Filter.evaluate (σ : Nat → Nat × Nat) (f : Filter) : Bool :=
  f.comparison.evaluate (σ f.atom).1 (σ f.atom).2

theorem Filter.negate_evaluate (σ : Nat → Nat × Nat) (f : Filter) :
    f.negate.evaluate σ = !(f.evaluate σ) := by
  simp [Filter.negate, Filter.evaluate, Comparison.negate_evaluate_cmp]

/-- `enum ExpressionNode` from `src/parse/expression_node.rs`: the binary
parse tree `Leaf(Filter) | And(L,R) | Or(L,R) | Not(E)`. -/
inductive ExpressionNode where
  | leaf (filter : Filter)
  | and (left right : ExpressionNode)
  | or (left right : ExpressionNode)
  | not (node : ExpressionNode)
deriving DecidableEq, Repr

namespace ExpressionNode

/-- Evaluation of an expression tree against an entry
(`impl Evaluate for ExpressionNode<Filter>` in
`src/evaluate/expression_node_impl.rs`): `And` is `&&`, `Or` is `||`,
`Not` is boolean negation, leaves dispatch to `Filter::evaluate`. -/
def evaluate (σ : Nat → Nat × Nat) : ExpressionNode → Bool
  | .leaf f => f.evaluate σ
  | .and l r => l.evaluate σ && r.evaluate σ
  | .or l r => l.evaluate σ || r.evaluate σ
  | .not e => !(e.evaluate σ)

/-- `ExpressionNode::negate` from `src/parse/expression_node.rs`:
De Morgan push of one negation. -/
def negate : ExpressionNode → ExpressionNode
  | .leaf f => .leaf f.negate
  | .and l r => .or l.negate r.negate
  | .or l r => .and l.negate r.negate
  | .not e => e

/-- Node count, used as the termination measure for `to_nnf`. -/
def size : ExpressionNode → Nat
  | .leaf _ => 1
  | .and l r => l.size + r.size + 1
  | .or l r => l.size + r.size + 1
  | .not e => e.size + 1

theorem size_pos (e : ExpressionNode) : 0 < e.size := by
  cases e <;> simp [size]

theorem size_negate (e : ExpressionNode) : e.negate.size ≤ e.size := by
  induction e with
  | leaf f => simp only [negate, size]; omega
  | and l r ihl ihr => simp only [negate, size]; omega
  | or l r ihl ihr => simp only [negate, size]; omega
  | not e ih => simp only [negate, size]; omega

/-- `ExpressionNode::to_nnf` from `src/parse/expression_node.rs`: push
negations down to the leaves (negating the leaf filters' comparisons),
eliminating every `Not` node. -/
def to_nnf : ExpressionNode → ExpressionNode
  | .leaf f => .leaf f
  | .and l r => .and l.to_nnf r.to_nnf
  | .or l r => .or l.to_nnf r.to_nnf
  | .not (.leaf f) => .leaf f.negate
  | .not (.and l r) => .or l.negate.to_nnf r.negate.to_nnf
  | .not (.or l r) => .and l.negate.to_nnf r.negate.to_nnf
  | .not (.not e) => e.to_nnf
termination_by e => e.size
decreasing_by
  · simp only [size]; omega
  · simp only [size]; omega
  · simp only [size]; omega
  · simp only [size]; omega
  · have := size_negate l; simp only [size]; omega
  · have := size_negate r; simp only [size]; omega
  · have := size_negate l; simp only [size]; omega
  · have := size_negate r; simp only [size]; omega
  · simp only [size]; omega

/-- The NNF structural invariant: no `Not` constructor anywhere in the tree. -/
def notFree : ExpressionNode → Bool
  | .leaf _ => true
  | .and l r => l.notFree && r.notFree
  | .or l r => l.notFree && r.notFree
  | .not _ => false

theorem evaluate_negate (σ : Nat → Nat × Nat) (e : ExpressionNode) :
    e.negate.evaluate σ = !(e.evaluate σ) := by
  induction e with
  | leaf f => simp [negate, evaluate, Filter.negate_evaluate]
  | and l r ihl ihr => simp [negate, evaluate, ihl, ihr]
  | or l r ihl ihr => simp [negate, evaluate, ihl, ihr]
  | not e _ => simp [negate, evaluate]

theorem evaluate_to_nnf (σ : Nat → Nat × Nat) (e : ExpressionNode) :
    e.to_nnf.evaluate σ = e.evaluate σ := by
  induction e using to_nnf.induct with
  | case1 f => simp [to_nnf]
  | case2 l r ihl ihr => simp [to_nnf, evaluate, ihl, ihr]
  | case3 l r ihl ihr => simp [to_nnf, evaluate, ihl, ihr]
  | case4 f => simp [to_nnf, evaluate, Filter.negate_evaluate]
  | case5 l r ihl ihr =>
    simp [to_nnf, evaluate, ihl, ihr, evaluate_negate]
  | case6 l r ihl ihr =>
    simp [to_nnf, evaluate, ihl, ihr, evaluate_negate]
  | case7 e ih => simp [to_nnf, evaluate, ih]

theorem notFree_to_nnf (e : ExpressionNode) : e.to_nnf.notFree = true := by
  induction e using to_nnf.induct with
  | case1 f => simp [to_nnf, notFree]
  | case2 l r ihl ihr => simp [to_nnf, notFree, ihl, ihr]
  | case3 l r ihl ihr => simp [to_nnf, notFree, ihl, ihr]
  | case4 f => simp [to_nnf, notFree]
  | case5 l r ihl ihr => simp [to_nnf, notFree, ihl, ihr]
  | case6 l r ihl ihr => simp [to_nnf, notFree, ihl, ihr]
  | case7 e ih => simpa [to_nnf] using ih

theorem to_nnf_of_notFree (e : ExpressionNode) (h : e.notFree = true) :
    e.to_nnf = e := by
  induction e with
  | leaf f => simp [to_nnf]
  | and l r ihl ihr =>
    simp [notFree] at h
    simp [to_nnf, ihl h.1, ihr h.2]
  | or l r ihl ihr =>
    simp [notFree] at h
    simp [to_nnf, ihl h.1, ihr h.2]
  | not e _ => simp [notFree] at h

theorem to_nnf_idem (e : ExpressionNode) : e.to_nnf.to_nnf = e.to_nnf :=
  to_nnf_of_notFree _ (notFree_to_nnf e)

/-- `ExpressionNode::distribute_or` from `src/parse/expression_node.rs`.
`Sum.inl` is the source's `Ok(rewritten)` (a rewrite fired), `Sum.inr` its
`Err(Or(left, right))` (nothing to distribute).  The source's two
argument-swapping cases (`(Or, And)` and `(Leaf, And)` recursing into
`distribute_or(right, left).unwrap()`) are written out with the result of
that one-step recursion. -/
def distribute_or : ExpressionNode → ExpressionNode →
    ExpressionNode ⊕ ExpressionNode
  | .and ll lr, .and rl rr =>
    .inl (.and (.and (.or ll rl) (.or ll rr)) (.and (.or lr rl) (.or lr rr)))
  | .and ll lr, .or rl rr =>
    .inl (.and (.or ll (.or rl rr)) (.or lr (.or rl rr)))
  | .and ll lr, .leaf f =>
    .inl (.and (.or ll (.leaf f)) (.or lr (.leaf f)))
  | .or l1 l2, .and rl rr =>
    .inl (.and (.or rl (.or l1 l2)) (.or rr (.or l1 l2)))
  | .leaf f, .and rl rr =>
    .inl (.and (.or rl (.leaf f)) (.or rr (.leaf f)))
  | .leaf f, .leaf g => .inr (.or (.leaf f) (.leaf g))
  | .leaf f, .or rl rr => .inr (.or (.leaf f) (.or rl rr))
  | .leaf f, .not n => .inr (.or (.leaf f) (.not n))
  | .or l1 l2, .leaf g => .inr (.or (.or l1 l2) (.leaf g))
  | .or l1 l2, .or rl rr => .inr (.or (.or l1 l2) (.or rl rr))
  | .or l1 l2, .not n => .inr (.or (.or l1 l2) (.not n))
  | .and ll lr, .not n => .inr (.or (.and ll lr) (.not n))
  | .not m, r => .inr (.or (.not m) r)

/-- One pass of `ExpressionNode::to_cnf_step`: recursively rebuild the tree,
attempting `distribute_or` at each `Or` node and counting fired rewrites
(the source threads a single `&mut u8` counter; here the pass returns the
total).  A `Not` node makes the source panic (`unimplemented!`), modelled as
`none`. -/
def to_cnf_step : ExpressionNode → Option (ExpressionNode × Nat)
  | .not _ => none
  | .leaf f => some (.leaf f, 0)
  | .and l r => do
    let (l', cl) ← l.to_cnf_step
    let (r', cr) ← r.to_cnf_step
    some (.and l' r', cl + cr)
  | .or l r => do
    let (l', cl) ← l.to_cnf_step
    let (r', cr) ← r.to_cnf_step
    match distribute_or l' r' with
    | .inl node => some (node, cl + cr + 1)
    | .inr node => some (node, cl + cr)

/-- Termination measure for the `to_cnf` fixed-point loop: leaves weigh 2,
`And` adds, `Or` multiplies.  Each fired distribution strictly decreases it. -/
def phi : ExpressionNode → Nat
  | .leaf _ => 2
  | .not e => e.phi + 2
  | .and l r => l.phi + r.phi + 1
  | .or l r => l.phi * r.phi

theorem two_le_phi (e : ExpressionNode) : 2 ≤ e.phi := by
  induction e with
  | leaf f => simp [phi]
  | not e ih => simp only [phi]; omega
  | and l r ihl ihr => simp only [phi]; omega
  | or l r ihl ihr => simp only [phi]; nlinarith

theorem distribute_or_inl_phi {l r n : ExpressionNode}
    (h : distribute_or l r = .inl n) : n.phi < l.phi * r.phi := by
  cases l <;> cases r <;> simp only [distribute_or, Sum.inl.injEq,
    reduceCtorEq] at h
  case leaf.and f rl rr =>
    subst h
    have h1 := two_le_phi rl; have h2 := two_le_phi rr
    simp only [phi]; nlinarith
  case and.leaf ll lr f =>
    subst h
    have h1 := two_le_phi ll; have h2 := two_le_phi lr
    simp only [phi]; nlinarith
  case and.and ll lr rl rr =>
    subst h
    have h1 := two_le_phi ll; have h2 := two_le_phi lr
    have h3 := two_le_phi rl; have h4 := two_le_phi rr
    simp only [phi]; nlinarith
  case and.or ll lr rl rr =>
    subst h
    have h1 := two_le_phi ll; have h2 := two_le_phi lr
    have h3 := two_le_phi rl; have h4 := two_le_phi rr
    simp only [phi]; nlinarith
  case or.and l1 l2 rl rr =>
    subst h
    have h1 := two_le_phi l1; have h2 := two_le_phi l2
    have h3 := two_le_phi rl; have h4 := two_le_phi rr
    simp only [phi]; nlinarith

theorem distribute_or_inr {l r n : ExpressionNode}
    (h : distribute_or l r = .inr n) : n = .or l r := by
  cases l <;> cases r <;> simp only [distribute_or] at h <;> cases h <;> rfl

theorem to_cnf_step_phi {e e' : ExpressionNode} {c : Nat}
    (h : e.to_cnf_step = some (e', c)) :
    e'.phi ≤ e.phi ∧ (0 < c → e'.phi < e.phi) := by
  induction e generalizing e' c with
  | leaf f => simp [to_cnf_step] at h; simp [h]
  | not e ih => simp [to_cnf_step] at h
  | and l r ihl ihr =>
    simp only [to_cnf_step, Option.bind_eq_bind, Option.bind_eq_some] at h
    obtain ⟨⟨l', cl⟩, hl, ⟨r', cr⟩, hr, he⟩ := h
    cases he
    obtain ⟨hl1, hl2⟩ := ihl hl
    obtain ⟨hr1, hr2⟩ := ihr hr
    constructor
    · simp only [phi]; omega
    · intro hc
      rcases (show 0 < cl ∨ 0 < cr by omega) with h0 | h0 <;> simp only [phi]
      · have := hl2 h0; omega
      · have := hr2 h0; omega
  | or l r ihl ihr =>
    simp only [to_cnf_step, Option.bind_eq_bind, Option.bind_eq_some] at h
    obtain ⟨⟨l', cl⟩, hl, ⟨r', cr⟩, hr, he⟩ := h
    obtain ⟨hl1, hl2⟩ := ihl hl
    obtain ⟨hr1, hr2⟩ := ihr hr
    have hlpos := two_le_phi l'
    have hrpos := two_le_phi r'
    have hmul : l'.phi * r'.phi ≤ l.phi * r.phi :=
      Nat.mul_le_mul hl1 hr1
    cases hd : distribute_or l' r' with
    | inl node =>
      rw [hd] at he
      cases he
      have h1 := distribute_or_inl_phi hd
      constructor
      · simp only [phi]; exact le_of_lt (lt_of_lt_of_le h1 hmul)
      · intro _; simp only [phi]; exact lt_of_lt_of_le h1 hmul
    | inr node =>
      rw [hd] at he
      cases he
      have hnode := distribute_or_inr hd
      subst hnode
      constructor
      · simp only [phi]; exact hmul
      · intro hc
        rcases (show 0 < cl ∨ 0 < cr by omega) with h0 | h0 <;>
          simp only [phi]
        · nlinarith [hl2 h0, hr1, two_le_phi r']
        · nlinarith [hr2 h0, hl1, two_le_phi l', two_le_phi r]

/-- `ExpressionNode::to_cnf` from `src/parse/expression_node.rs`: iterate
`to_cnf_step` until a pass fires no rewrite.  The source tests a `u8`
counter (`while count > 0`), which in release mode wraps on overflow, hence
the `% 256` in the loop condition. -/
def to_cnf (e : ExpressionNode) : Option ExpressionNode :=
  match h : e.to_cnf_step with
  | none => none
  | some (e', c) => if 0 < c % 256 then to_cnf e' else some e'
termination_by e.phi
decreasing_by
  have h2 := (to_cnf_step_phi h).2
  exact h2 (by omega)

theorem bool_or_and_and (a b c d : Bool) :
    (((a || c) && (a || d)) && ((b || c) && (b || d))) = (a && b || c && d) := by
  revert a b c d; decide

theorem bool_or_and_or (a b c d : Bool) :
    ((a || (c || d)) && (b || (c || d))) = (a && b || (c || d)) := by
  revert a b c d; decide

theorem bool_or_and_leaf (a b c : Bool) :
    ((a || c) && (b || c)) = (a && b || c) := by
  revert a b c; decide

theorem distribute_or_evaluate (σ : Nat → Nat × Nat) {l r : ExpressionNode}
    {n : ExpressionNode} (h : distribute_or l r = .inl n) :
    n.evaluate σ = (ExpressionNode.or l r).evaluate σ := by
  cases l <;> cases r <;> simp only [distribute_or] at h <;> cases h <;>
    simp only [evaluate] <;>
    first
    | (rw [bool_or_and_and]; done)
    | (rw [bool_or_and_or]; done)
    | (rw [bool_or_and_leaf]; done)
    | (rw [bool_or_and_leaf]; exact Bool.or_comm _ _)
    | (rw [bool_or_and_or]; exact Bool.or_comm _ _)

theorem to_cnf_step_evaluate (σ : Nat → Nat × Nat) {e e' : ExpressionNode}
    {c : Nat} (h : e.to_cnf_step = some (e', c)) :
    e'.evaluate σ = e.evaluate σ := by
  induction e generalizing e' c with
  | leaf f => simp [to_cnf_step] at h; simp [h]
  | not e ih => simp [to_cnf_step] at h
  | and l r ihl ihr =>
    simp only [to_cnf_step, Option.bind_eq_bind, Option.bind_eq_some] at h
    obtain ⟨⟨l', cl⟩, hl, ⟨r', cr⟩, hr, he⟩ := h
    cases he
    simp only [evaluate, ihl hl, ihr hr]
  | or l r ihl ihr =>
    simp only [to_cnf_step, Option.bind_eq_bind, Option.bind_eq_some] at h
    obtain ⟨⟨l', cl⟩, hl, ⟨r', cr⟩, hr, he⟩ := h
    cases hd : distribute_or l' r' with
    | inl node =>
      rw [hd] at he; cases he
      rw [distribute_or_evaluate σ hd]
      simp only [evaluate, ihl hl, ihr hr]
    | inr node =>
      rw [hd] at he; cases he
      rw [distribute_or_inr hd]
      simp only [evaluate, ihl hl, ihr hr]

theorem distribute_or_inl_notFree {l r n : ExpressionNode}
    (hl : l.notFree = true) (hr : r.notFree = true)
    (h : distribute_or l r = .inl n) : n.notFree = true := by
  cases l <;> cases r <;> simp only [distribute_or, Sum.inl.injEq,
    reduceCtorEq] at h
  all_goals (subst h; simp_all [notFree])

theorem to_cnf_step_notFree {e e' : ExpressionNode} {c : Nat}
    (hf : e.notFree = true) (h : e.to_cnf_step = some (e', c)) :
    e'.notFree = true := by
  induction e generalizing e' c with
  | leaf f =>
    simp only [to_cnf_step, Option.some.injEq, Prod.mk.injEq] at h
    obtain ⟨h1, h2⟩ := h
    subst h1
    rfl
  | not e ih => simp [notFree] at hf
  | and l r ihl ihr =>
    simp only [notFree, Bool.and_eq_true] at hf
    simp only [to_cnf_step, Option.bind_eq_bind, Option.bind_eq_some] at h
    obtain ⟨⟨l', cl⟩, hl, ⟨r', cr⟩, hr, he⟩ := h
    cases he
    simp only [notFree, ihl hf.1 hl, ihr hf.2 hr, Bool.and_self]
  | or l r ihl ihr =>
    simp only [notFree, Bool.and_eq_true] at hf
    simp only [to_cnf_step, Option.bind_eq_bind, Option.bind_eq_some] at h
    obtain ⟨⟨l', cl⟩, hl, ⟨r', cr⟩, hr, he⟩ := h
    have hl' := ihl hf.1 hl
    have hr' := ihr hf.2 hr
    cases hd : distribute_or l' r' with
    | inl node =>
      rw [hd] at he; cases he
      exact distribute_or_inl_notFree hl' hr' hd
    | inr node =>
      rw [hd] at he; cases he
      rw [distribute_or_inr hd]
      simp [notFree, hl', hr']

theorem to_cnf_step_isSome {e : ExpressionNode} (hf : e.notFree = true) :
    ∃ e' c, e.to_cnf_step = some (e', c) := by
  induction e with
  | leaf f => exact ⟨_, _, rfl⟩
  | not e ih => simp [notFree] at hf
  | and l r ihl ihr =>
    simp only [notFree, Bool.and_eq_true] at hf
    obtain ⟨l', cl, hl⟩ := ihl hf.1
    obtain ⟨r', cr, hr⟩ := ihr hf.2
    exact ⟨.and l' r', cl + cr, by simp [to_cnf_step, hl, hr]⟩
  | or l r ihl ihr =>
    simp only [notFree, Bool.and_eq_true] at hf
    obtain ⟨l', cl, hl⟩ := ihl hf.1
    obtain ⟨r', cr, hr⟩ := ihr hf.2
    cases hd : distribute_or l' r' with
    | inl node =>
      exact ⟨node, cl + cr + 1, by simp [to_cnf_step, hl, hr, hd]⟩
    | inr node =>
      exact ⟨node, cl + cr, by simp [to_cnf_step, hl, hr, hd]⟩

theorem to_cnf_step_zero_fixed {e e' : ExpressionNode}
    (h : e.to_cnf_step = some (e', 0)) : e' = e := by
  induction e generalizing e' with
  | leaf f => simp [to_cnf_step] at h; simp [h]
  | not e ih => simp [to_cnf_step] at h
  | and l r ihl ihr =>
    simp only [to_cnf_step, Option.bind_eq_bind, Option.bind_eq_some] at h
    obtain ⟨⟨l', cl⟩, hl, ⟨r', cr⟩, hr, he⟩ := h
    simp only [Option.some.injEq, Prod.mk.injEq] at he
    obtain ⟨he1, he2⟩ := he
    have hcl : cl = 0 := by omega
    have hcr : cr = 0 := by omega
    subst hcl; subst hcr
    rw [← he1, ihl hl, ihr hr]
  | or l r ihl ihr =>
    simp only [to_cnf_step, Option.bind_eq_bind, Option.bind_eq_some] at h
    obtain ⟨⟨l', cl⟩, hl, ⟨r', cr⟩, hr, he⟩ := h
    cases hd : distribute_or l' r' with
    | inl node =>
      rw [hd] at he
      simp only [Option.some.injEq, Prod.mk.injEq] at he
      omega
    | inr node =>
      rw [hd] at he
      simp only [Option.some.injEq, Prod.mk.injEq] at he
      obtain ⟨he1, he2⟩ := he
      have hcl : cl = 0 := by omega
      have hcr : cr = 0 := by omega
      subst hcl; subst hcr
      rw [← he1, distribute_or_inr hd, ihl hl, ihr hr]

theorem to_cnf_evaluate (σ : Nat → Nat × Nat) {e C : ExpressionNode}
    (h : e.to_cnf = some C) : C.evaluate σ = e.evaluate σ := by
  induction e using to_cnf.induct with
  | case1 e hstep => rw [to_cnf, hstep] at h; cases h
  | case2 e e' c hstep hc ih =>
    rw [to_cnf, hstep] at h
    simp only [if_pos hc] at h
    rw [ih h, to_cnf_step_evaluate σ hstep]
  | case3 e e' c hstep hc =>
    rw [to_cnf, hstep] at h
    simp only [if_neg hc] at h
    cases h
    exact to_cnf_step_evaluate σ hstep

theorem to_cnf_isSome {e : ExpressionNode} (hf : e.notFree = true) :
    ∃ C, e.to_cnf = some C := by
  induction e using to_cnf.induct with
  | case1 e hstep =>
    obtain ⟨e', c, h⟩ := to_cnf_step_isSome hf
    rw [h] at hstep; cases hstep
  | case2 e e' c hstep hc ih =>
    obtain ⟨C, hC⟩ := ih (to_cnf_step_notFree hf hstep)
    exact ⟨C, by rw [to_cnf, hstep]; simp [hc, hC]⟩
  | case3 e e' c hstep hc =>
    exact ⟨e', by rw [to_cnf, hstep]; simp [hc]⟩

end ExpressionNode

end Fgr

/-- C3: for every expression tree and every assignment of operand values to
its leaf filters, converting the NNF to CNF by iterated `Or`-over-`And`
distribution preserves the evaluation result; and the fixed-point loop stops
exactly when a pass fired no rewrite, in which case the pass returned its
input unchanged. -/
theorem C3_to_cnf_equiv (e : Fgr.ExpressionNode) :
    (∃ C, e.to_nnf.to_cnf = some C ∧
      ∀ σ : Nat → Nat × Nat, C.evaluate σ = e.evaluate σ) ∧
    (∀ p p' : Fgr.ExpressionNode,
      p.to_cnf_step = some (p', 0) → p' = p) := by
  constructor
  · obtain ⟨C, hC⟩ :=
      Fgr.ExpressionNode.to_cnf_isSome (Fgr.ExpressionNode.notFree_to_nnf e)
    refine ⟨C, hC, fun σ => ?_⟩
    rw [Fgr.ExpressionNode.to_cnf_evaluate σ hC,
      Fgr.ExpressionNode.evaluate_to_nnf σ e]
  · exact fun p p' h => Fgr.ExpressionNode.to_cnf_step_zero_fixed h

namespace Fgr

/-- Result of a `nom` parser over a character list.  `ok` carries the
remaining input and the parsed value; `err` is `nom::Err::Error` (recoverable,
`alt` tries the next branch); `fail` is `nom::Err::Failure` (unrecoverable,
`alt` aborts). -/
inductive PRes (α : Type) where
  | ok (rest : List Char) (val : α)
  | err
  | fail

/-- The characters matched by `nom`'s `multispace0`. -/
def isMultispaceChar (c : Char) : Bool :=
  c = ' ' || c = '\t' || c = '\r' || c = '\n'

/-- Consume leading whitespace (`multispace0`). -/
def dropMultispace (input : List Char) : List Char :=
  input.dropWhile isMultispaceChar

/-- `str::strip_prefix` over character lists. -/
def stripPrefixChars : List Char → List Char → Option (List Char)
  | [], input => some input
  | _ :: _, [] => none
  | p :: ps, c :: cs => if p = c then stripPrefixChars ps cs else none

/-- `split_by_longest_alias` from `src/parse/util.rs`: walk the alias table
(given in the `BTreeMap::iter().rev()` order, i.e. descending by alias), strip
the first alias that prefixes the input; reject the match when the next
character is alphanumeric, otherwise return the suffix and the canonical
name.  (Rust's Unicode `is_alphanumeric` is modelled on the ASCII range; all
aliases and operators of the grammar are ASCII.) -/
def splitByLongestAlias (idents : List (String × String)) (input : List Char) :
    Option (List Char × String) :=
  match idents with
  | [] => none
  | (al, canonical) :: rest =>
    match stripPrefixChars al.toList input with
    | some suffix =>
      match suffix with
      | [] => some ([], canonical)
      | c :: _ => if c.isAlphanum then none else some (suffix, canonical)
    | none => splitByLongestAlias rest input

/-- `enum SizeUnit` from `src/parse/size_unit.rs`.  The source has exactly
these four variants: there is no `Gigabyte`. -/
inductive SizeUnit where
  | byte
  | kilobyte
  | megabyte
  | terabyte
deriving DecidableEq, Repr

/-- `SizeUnit::to_bytes` from `src/parse/size_unit.rs`.  Note the source
multiplies `Terabyte` by `1000 * 1000 * 1000`. -/
def SizeUnit.to_bytes : SizeUnit → Nat → Nat
  | .byte, v => v
  | .kilobyte, v => v * 1000
  | .megabyte, v => v * 1000 * 1000
  | .terabyte, v => v * 1000 * 1000 * 1000

/-- The `SizeUnit` alias table of `get_aliases` in `src/parse/size_unit.rs`,
listed in the descending (reverse `BTreeMap`) order used by
`split_by_longest_alias`; uppercase ASCII sorts before lowercase. -/
def sizeUnitAliasTable : List (String × String) :=
  [("kilobyte", "Kilobyte"), ("bytes", "Byte"), ("byte", "Byte"),
   ("Tb", "Terabyte"), ("Mb", "Megabyte"), ("Kb", "Kilobyte"), ("B", "Byte")]

/-- `SizeUnit::from_str` (derived `EnumString`): accepts the variant names. -/
def sizeUnitFromStr : String → Option SizeUnit
  | "Byte" => some .byte
  | "Kilobyte" => some .kilobyte
  | "Megabyte" => some .megabyte
  | "Terabyte" => some .terabyte
  | _ => none

/-- `parse_size_unit` from `src/parse/primitives.rs`:
`map_res(ws(parse_enum_alias::<SizeUnit>()), SizeUnit::from_str)`. -/
def parseSizeUnit (input : List Char) : PRes SizeUnit :=
  match splitByLongestAlias sizeUnitAliasTable (dropMultispace input) with
  | some (suf, canon) =>
    match sizeUnitFromStr canon with
    | some u => .ok (dropMultispace suf) u
    | none => .err
  | none => .err

/-- `enum TimeUnit` from `src/parse/time_unit.rs`. -/
inductive TimeUnit where
  | second
  | minute
  | hour
  | day
deriving DecidableEq, Repr

/-- `TimeUnit::to_duration` from `src/parse/time_unit.rs`, with `chrono`
durations represented by their signed millisecond count. -/
def TimeUnit.to_duration : TimeUnit → Int → Int
  | .second, v => v * 1000
  | .minute, v => v * 60 * 1000
  | .hour, v => v * 60 * 60 * 1000
  | .day, v => v * 24 * 60 * 60 * 1000

/-- The `TimeUnit` alias table, descending. -/
def timeUnitAliasTable : List (String × String) :=
  [("secs", "Second"), ("s", "Second"), ("minute", "Minute"),
   ("mins", "Minute"), ("min", "Minute"), ("m", "Minute"),
   ("h", "Hour"), ("d", "Day")]

/-- `TimeUnit::from_str` (derived `EnumString`). -/
def timeUnitFromStr : String → Option TimeUnit
  | "Second" => some .second
  | "Minute" => some .minute
  | "Hour" => some .hour
  | "Day" => some .day
  | _ => none

/-- `parse_time_unit` from `src/parse/primitives.rs`. -/
def parseTimeUnit (input : List Char) : PRes TimeUnit :=
  match splitByLongestAlias timeUnitAliasTable (dropMultispace input) with
  | some (suf, canon) =>
    match timeUnitFromStr canon with
    | some u => .ok (dropMultispace suf) u
    | none => .err
  | none => .err

theorem length_dropWhile_le (p : Char → Bool) (l : List Char) :
    (l.dropWhile p).length ≤ l.length := by
  induction l with
  | nil => simp
  | cons c cs ih =>
    by_cases h : p c
    · simp [List.dropWhile, h]; omega
    · simp [List.dropWhile, h]

/-- The consumed/remaining split of `parse_decimal`'s
`many1(terminated(one_of("0123456789"), many0(char('_'))))` from
`src/parse/primitives.rs`: when the input starts with a digit the
alternation consumes exactly the maximal prefix of digits and underscores
(each iteration takes one digit and the underscores after it, and stops
when the next character is not a digit); otherwise it consumes nothing. -/
def decimalRun (input : List Char) : List Char × List Char :=
  match input with
  | c :: _ =>
    if c.isDigit then
      (input.takeWhile (fun ch => ch.isDigit || ch = '_'),
       input.dropWhile (fun ch => ch.isDigit || ch = '_'))
    else ([], input)
  | [] => ([], input)

/-- `parse_decimal`: at least one digit must be consumed. -/
def parseDecimal (input : List Char) : PRes (List Char) :=
  match decimalRun input with
  | ([], _) => .err
  | (tok, rem) => .ok rem tok

/-- Numeric value of an underscore-free digit string. -/
def natFromDigits (cs : List Char) : Nat :=
  cs.foldl (fun acc c => acc * 10 + (c.toNat - '0'.toNat)) 0

/-- `parse_positive_number` from `src/parse/primitives.rs`: optional `+`,
digits with underscores, `usize` parse (which fails above `usize::MAX`). -/
def parsePositiveNumber (input : List Char) : PRes Nat :=
  let input1 := match input with
    | '+' :: rest => rest
    | _ => input
  match parseDecimal input1 with
  | .ok rem tok =>
    let v := natFromDigits (tok.filter (fun c => c ≠ '_'))
    if v < 2 ^ 64 then .ok rem v else .err
  | .err => .err
  | .fail => .fail

/-- `parse_comparison` from `src/parse/primitives.rs`: whitespace-wrapped
longest-first alternation of the six operator tokens. -/
def parseComparison (input : List Char) : PRes Comparison :=
  match dropMultispace input with
  | '<' :: '=' :: rest => .ok (dropMultispace rest) .lte
  | '>' :: '=' :: rest => .ok (dropMultispace rest) .gte
  | '!' :: '=' :: rest => .ok (dropMultispace rest) .neq
  | '<' :: rest => .ok (dropMultispace rest) .lt
  | '>' :: rest => .ok (dropMultispace rest) .gt
  | '=' :: rest => .ok (dropMultispace rest) .eq
  | _ => .err

/-- `Comparison::evaluate` instantiated at `SystemTime` operands, modelled as
integer timestamps. -/
def Comparison.evaluateInt (c : Comparison) (left right : Int) : Bool :=
  match c with
  | .lt => left < right
  | .gt => left > right
  | .lte => left ≤ right
  | .gte => left ≥ right
  | .eq => left = right
  | .neq => left ≠ right

/-- `Comparison::evaluate` instantiated at `bool` operands
(`false < true`). -/
def Comparison.evaluateBool (c : Comparison) (left right : Bool) : Bool :=
  match c with
  | .lt => !left && right
  | .gt => left && !right
  | .lte => !left || right
  | .gte => left || !right
  | .eq => left = right
  | .neq => left ≠ right

/-- `DurationOffsetExt::add_to` from `src/evaluate/traits.rs`, with `chrono`
durations and `SystemTime` both as integer milliseconds.  For a negative
duration the source computes `absolute_time - (-duration)`; otherwise it
computes `absolute_time - duration`. -/
def addTo (duration : Int) (absolute_time : Int) : Int :=
  if duration < 0 then absolute_time - (-duration) else absolute_time - duration

/-- `parse_signed_delta` from `src/parse/primitives.rs`: sign, positive
number, time unit.  The `number as i64` cast wraps values at `2^63`. -/
def parseSignedDelta (input : List Char) : PRes Int :=
  match dropMultispace input with
  | c :: rest =>
    if c = '+' || c = '-' then
      match parsePositiveNumber (dropMultispace rest) with
      | .ok rem n =>
        match parseTimeUnit rem with
        | .ok rem2 u =>
          let iv : Int := if n < 2 ^ 63 then (n : Int) else (n : Int) - 2 ^ 64
          let d := u.to_duration iv
          .ok rem2 (if c = '-' then -d else d)
        | .err => .err
        | .fail => .fail
      | .err => .err
      | .fail => .fail
    else .err
  | [] => .err

/-- `parse_duration` from `src/parse/primitives.rs`: the literal `now`,
then an optional signed delta; without a delta the duration is zero. -/
def parseDuration (input : List Char) : PRes Int :=
  match stripPrefixChars "now".toList (dropMultispace input) with
  | none => .err
  | some rest0 =>
    let rest := dropMultispace rest0
    match parseSignedDelta rest with
    | .ok rem d => .ok rem d
    | .err => .ok rest 0
    | .fail => .fail

/-- `enum FileType` from `src/parse/file_type.rs`. -/
inductive FileType where
  | app
  | archive
  | audio
  | book
  | doc
  | font
  | image
  | text
  | video
  | custom
deriving DecidableEq, Repr

/-- The `FileType` alias table, descending. -/
def fileTypeAliasTable : List (String × String) :=
  [("video", "Video"), ("vid", "Video"), ("text", "Text"), ("t", "Text"),
   ("img", "Image"), ("image", "Image"), ("font", "Font"), ("doc", "Doc"),
   ("custom", "Custom"), ("book", "Book"), ("audio", "Audio"),
   ("archive", "Archive"), ("app", "App")]

/-- `FileType::from_str` (derived `EnumString`). -/
def fileTypeFromStr : String → Option FileType
  | "App" => some .app
  | "Archive" => some .archive
  | "Audio" => some .audio
  | "Book" => some .book
  | "Doc" => some .doc
  | "Font" => some .font
  | "Image" => some .image
  | "Text" => some .text
  | "Video" => some .video
  | "Custom" => some .custom
  | _ => none

/-- `parse_file_type` from `src/parse/primitives.rs`. -/
def parseFileType (input : List Char) : PRes FileType :=
  match splitByLongestAlias fileTypeAliasTable (dropMultispace input) with
  | some (suf, canon) =>
    match fileTypeFromStr canon with
    | some u => .ok (dropMultispace suf) u
    | none => .err
  | none => .err

/-- `enum AttributeToken` from `src/parse/attribute_token.rs`. -/
inductive AttributeToken where
  | name
  | modificationTime
  | accessTime
  | size
  | extension
  | contains
  | depth
  | permissions
  | group
  | user
  | type_
deriving DecidableEq, Repr

/-- The `AttributeToken` alias table, descending. -/
def attrAliasTable : List (String × String) :=
  [("user", "User"), ("type", "Type"), ("size", "Size"),
   ("perms", "Permissions"), ("permissions", "Permissions"),
   ("perm", "Permissions"), ("name", "Name"), ("mtime", "ModificationTime"),
   ("group", "Group"), ("extension", "Extension"), ("ext", "Extension"),
   ("depth", "Depth"), ("contains", "Contains"), ("atime", "AccessTime")]

/-- `AttributeToken::from_str` (derived `EnumString`). -/
def attributeTokenFromStr : String → Option AttributeToken
  | "Name" => some .name
  | "ModificationTime" => some .modificationTime
  | "AccessTime" => some .accessTime
  | "Size" => some .size
  | "Extension" => some .extension
  | "Contains" => some .contains
  | "Depth" => some .depth
  | "Permissions" => some .permissions
  | "Group" => some .group
  | "User" => some .user
  | "Type" => some .type_
  | _ => none

/-- `parse_attribute_name` from `src/parse/primitives.rs`. -/
def parseAttributeName (input : List Char) : PRes AttributeToken :=
  match splitByLongestAlias attrAliasTable (dropMultispace input) with
  | some (suf, canon) =>
    match attributeTokenFromStr canon with
    | some t => .ok (dropMultispace suf) t
    | none => .err
  | none => .err

/-- A compiled `MatchPattern` (glob or regex), abstracted to its observable
operation `is_match` (`src/parse/match_pattern.rs`). -/
structure Matcher where
  isMatch : List Char → Bool

/-- External collaborators of the parser: the `globset`/`regex` compilers
(which may reject a pattern source) and the host name-service lookups used
for `user=`/`group=` values (`src/parse/attribute_token.rs`). -/
structure ParserEnv where
  globBuild : List Char → Bool → Option Matcher
  regexBuild : List Char → Bool → Option Matcher
  resolveUser : List Char → Option Nat
  resolveGroup : List Char → Option Nat

/-- `parse_first_non_escaped_quote` from `src/parse/primitives.rs`: scan
adjacent character pairs for the first quote not preceded by a backslash;
return (remainder starting at that quote, consumed part); when no such pair
exists the whole input is consumed. -/
def fneqAux (quote : Char) : List Char → Option (List Char × List Char)
  | a :: b :: rest =>
    if b = quote && a ≠ '\\' then some ([a], b :: rest)
    else
      match fneqAux quote (b :: rest) with
      | some (p, r) => some (a :: p, r)
      | none => none
  | _ => none

def firstNonEscapedQuote (quote : Char) (input : List Char) :
    List Char × List Char :=
  match fneqAux quote input with
  | some (consumed, rem) => (rem, consumed)
  | none => ([], input)

/-- One branch of `parse_quote_escaped_string`: `delimited(char(q),
parse_first_non_escaped_quote(q), char(q))`. -/
def quoteDelimited (qc : Char) (input : List Char) : PRes (List Char) :=
  match input with
  | c :: rest =>
    if c = qc then
      let (rem, consumed) := firstNonEscapedQuote qc rest
      match rem with
      | c2 :: rest2 => if c2 = qc then .ok rest2 consumed else .err
      | [] => .err
    else .err
  | [] => .err

/-- `parse_quote_escaped_string` from `src/parse/primitives.rs`: a single- or
double-quoted string with escaped quotes of the matching kind. -/
def parseQuoteEscapedString (input : List Char) : PRes (List Char) :=
  match quoteDelimited '\'' input with
  | .ok rem s => .ok rem s
  | .fail => .fail
  | .err => quoteDelimited '"' input

/-- `parse_ignore_case_quote_escaped_string`: optional `i` flag, then a
quoted string. -/
def parseIgnoreCaseQuoted (input : List Char) : PRes (Bool × List Char) :=
  match input with
  | 'i' :: rest =>
    match parseQuoteEscapedString rest with
    | .ok rem s => .ok rem (true, s)
    | .err => .err
    | .fail => .fail
  | _ =>
    match parseQuoteEscapedString input with
    | .ok rem s => .ok rem (false, s)
    | .err => .err
    | .fail => .fail

/-- `parse_pattern_till_first_space`: a bare token up to whitespace or a
parenthesis; always succeeds. -/
def parseTillFirstSpace (input : List Char) : List Char × List Char :=
  (input.dropWhile (fun c => !(c.isWhitespace || c = '(' || c = ')')),
   input.takeWhile (fun c => !(c.isWhitespace || c = '(' || c = ')')))

/-- `parse_glob_pattern` from `src/parse/primitives.rs`. -/
def parseGlobPattern (env : ParserEnv) (input : List Char) : PRes Matcher :=
  let (rem, ic, pat) :=
    match parseIgnoreCaseQuoted input with
    | .ok rem (ic, pat) => (rem, ic, pat)
    | _ =>
      let (rem, pat) := parseTillFirstSpace input
      (rem, false, pat)
  match env.globBuild pat ic with
  | some m => .ok rem m
  | none => .err

/-- `parse_regex_pattern` from `src/parse/primitives.rs`: `r` followed by an
optionally case-insensitive quoted string, compiled as a regex. -/
def parseRegexPattern (env : ParserEnv) (input : List Char) : PRes Matcher :=
  match input with
  | 'r' :: rest =>
    match parseIgnoreCaseQuoted rest with
    | .ok rem (ic, pat) =>
      match env.regexBuild pat ic with
      | some m => .ok rem m
      | none => .err
    | .err => .err
    | .fail => .fail
  | _ => .err

/-- `parse_pattern`: regex first, then glob. -/
def parsePattern (env : ParserEnv) (input : List Char) : PRes Matcher :=
  match parseRegexPattern env input with
  | .ok rem m => .ok rem m
  | .fail => .fail
  | .err => parseGlobPattern env input

/-- `enum Filter` from `src/parse/filter.rs` with the payloads the parser
actually constructs: byte counts, depths, signed millisecond durations,
compiled patterns, numeric ids and POSIX modes, each with a comparison. -/
inductive ParsedFilter where
  | size (value : Nat) (comparison : Comparison)
  | depth (value : Nat) (comparison : Comparison)
  | type_ (value : FileType) (comparison : Comparison)
  | accessTime (value : Int) (comparison : Comparison)
  | modificationTime (value : Int) (comparison : Comparison)
  | name (pattern : Matcher) (comparison : Comparison)
  | extension (pattern : Matcher) (comparison : Comparison)
  | contains (pattern : Matcher) (comparison : Comparison)
  | user (value : Nat) (comparison : Comparison)
  | group (value : Nat) (comparison : Comparison)
  | permissions (value : Nat) (comparison : Comparison)

/-- `filter_eq_neq` from `src/parse/attribute_token.rs`: any comparison other
than `=` / `!=` is a hard failure (`nom::Err::Failure`). -/
def filterEqNeq (comparison : Comparison) : PRes Comparison :=
  if comparison ≠ .eq && comparison ≠ .neq then .fail
  else .ok [] comparison

/-- `nom`'s `alphanumeric1` (ASCII range). -/
def alphanumeric1 (input : List Char) : PRes (List Char) :=
  match input.takeWhile Char.isAlphanum with
  | [] => .err
  | tok => .ok (input.dropWhile Char.isAlphanum) tok

/-- `parse_user_or_group` from `src/parse/attribute_token.rs`: a positive
number (cast `as u32`, truncating) or an alphanumeric name resolved through
the name service. -/
def parseUserOrGroup (resolve : List Char → Option Nat) (input : List Char) :
    PRes Nat :=
  match parsePositiveNumber input with
  | .ok rem n => .ok rem (n % 2 ^ 32)
  | .fail => .fail
  | .err =>
    match alphanumeric1 input with
    | .ok rem tok =>
      match resolve tok with
      | some v => .ok rem v
      | none => .err
    | .err => .err
    | .fail => .fail

/-- `digit1` of `nom`: one or more ASCII digits. -/
def digit1 (input : List Char) : PRes (List Char) :=
  match input.takeWhile Char.isDigit with
  | [] => .err
  | tok => .ok (input.dropWhile Char.isDigit) tok

/-- `u32::from_str_radix(s, 8)`: every digit must be octal and the value must
fit in 32 bits. -/
def octalFromDigits (cs : List Char) : Option Nat :=
  if cs.all (fun c => c.isDigit && c.toNat - '0'.toNat < 8) then
    let v := cs.foldl (fun acc c => acc * 8 + (c.toNat - '0'.toNat)) 0
    if v < 2 ^ 32 then some v else none
  else none

/-- `GenericParser::parse for AttributeToken` from
`src/parse/attribute_token.rs`: dispatch on the attribute and parse the
value grammar.  Note the `Group` arm of the source constructs
`Filter::User { comparison, value }`. -/
def parseAttrValue (env : ParserEnv) (tok : AttributeToken)
    (input : List Char) : PRes ParsedFilter :=
  match tok with
  | .name =>
    match parseComparison input with
    | .ok rem cmp =>
      match parsePattern env rem with
      | .ok rem2 pat =>
        match filterEqNeq cmp with
        | .ok _ cmp2 => .ok rem2 (.name pat cmp2)
        | .err => .err
        | .fail => .fail
      | .err => .err
      | .fail => .fail
    | .err => .err
    | .fail => .fail
  | .extension =>
    match parseComparison input with
    | .ok rem cmp =>
      match parsePattern env rem with
      | .ok rem2 pat =>
        match filterEqNeq cmp with
        | .ok _ cmp2 => .ok rem2 (.extension pat cmp2)
        | .err => .err
        | .fail => .fail
      | .err => .err
      | .fail => .fail
    | .err => .err
    | .fail => .fail
  | .contains =>
    match parseComparison input with
    | .ok rem cmp =>
      match parsePattern env rem with
      | .ok rem2 pat =>
        match filterEqNeq cmp with
        | .ok _ cmp2 => .ok rem2 (.contains pat cmp2)
        | .err => .err
        | .fail => .fail
      | .err => .err
      | .fail => .fail
    | .err => .err
    | .fail => .fail
  | .group =>
    match parseComparison input with
    | .ok rem cmp =>
      match parseUserOrGroup env.resolveGroup rem with
      | .ok rem2 v => .ok rem2 (.user v cmp)
      | .err => .err
      | .fail => .fail
    | .err => .err
    | .fail => .fail
  | .user =>
    match parseComparison input with
    | .ok rem cmp =>
      match parseUserOrGroup env.resolveUser rem with
      | .ok rem2 v => .ok rem2 (.user v cmp)
      | .err => .err
      | .fail => .fail
    | .err => .err
    | .fail => .fail
  | .accessTime =>
    match parseComparison input with
    | .ok rem cmp =>
      match parseDuration rem with
      | .ok rem2 d => .ok rem2 (.accessTime d cmp)
      | .err => .err
      | .fail => .fail
    | .err => .err
    | .fail => .fail
  | .modificationTime =>
    match parseComparison input with
    | .ok rem cmp =>
      match parseDuration rem with
      | .ok rem2 d => .ok rem2 (.modificationTime d cmp)
      | .err => .err
      | .fail => .fail
    | .err => .err
    | .fail => .fail
  | .size =>
    match parseComparison input with
    | .ok rem cmp =>
      match parsePositiveNumber rem with
      | .ok rem2 n =>
        match parseSizeUnit (dropMultispace rem2) with
        | .ok rem3 u => .ok rem3 (.size (u.to_bytes n) cmp)
        | .err => .err
        | .fail => .fail
      | .err => .err
      | .fail => .fail
    | .err => .err
    | .fail => .fail
  | .depth =>
    match parseComparison input with
    | .ok rem cmp =>
      match parsePositiveNumber (dropMultispace rem) with
      | .ok rem2 n => .ok (dropMultispace rem2) (.depth n cmp)
      | .err => .err
      | .fail => .fail
    | .err => .err
    | .fail => .fail
  | .permissions =>
    match parseComparison input with
    | .ok rem cmp =>
      match digit1 (dropMultispace rem) with
      | .ok rem2 ds =>
        match octalFromDigits ds with
        | some mode => .ok (dropMultispace rem2) (.permissions mode cmp)
        | none => .err
      | .err => .err
      | .fail => .fail
    | .err => .err
    | .fail => .fail
  | .type_ =>
    match parseComparison input with
    | .ok rem cmp =>
      match parseFileType rem with
      | .ok rem2 ft => .ok (dropMultispace rem2) (.type_ ft cmp)
      | .err => .err
      | .fail => .fail
    | .err => .err
    | .fail => .fail

/-- The directory-entry attributes consumed by the pure filter arms of
`src/evaluate/filter_impl.rs`: the final path component, walk depth, owner
ids, timestamps (integer milliseconds) and POSIX mode.  (Fallible metadata
accessors are modelled as present values; the `Size`, `Type` and `Contains`
arms perform file IO and are outside these claims.) -/
structure Entry where
  name : List Char
  depth : Nat
  uid : Nat
  gid : Nat
  atime : Int
  mtime : Int
  permissions : Nat

/-- `Path::extension` of the Rust standard library, applied to the final
path component: the portion after the last `.`, absent when there is no dot,
when the only dot is the leading character, or for the special name `..`. -/
def rustExtension (cs : List Char) : Option (List Char) :=
  if cs = ['.', '.'] then none
  else
    match cs.reverse.dropWhile (fun c => c ≠ '.') with
    | [] => none
    | [_] => none
    | _ :: _ :: _ => some (cs.reverse.takeWhile (fun c => c ≠ '.')).reverse

/-- `impl Evaluate for Filter` from `src/evaluate/filter_impl.rs`, for the
IO-free arms (`none` marks the three arms that read file contents or
metadata-sniff and are not modelled): `Depth` compares the walk depth,
`AccessTime`/`ModificationTime` compare the entry timestamp against
`add_to(NOW)`, `Name` matches the final component, `Extension` matches
`path.extension()`, `User`/`Group` compare uid/gid, `Permissions` compares
mode bits below the value's highest set bit. -/
def evalFilter (now : Int) (e : Entry) : ParsedFilter → Option Bool
  | .depth v cmp => some (cmp.evaluate e.depth v)
  | .accessTime v cmp => some (cmp.evaluateInt e.atime (addTo v now))
  | .modificationTime v cmp => some (cmp.evaluateInt e.mtime (addTo v now))
  | .name p cmp => some (cmp.evaluateBool (p.isMatch e.name) true)
  | .extension p cmp =>
    some (match rustExtension e.name with
      | some ext => cmp.evaluateBool (p.isMatch ext) true
      | none => cmp.evaluateBool false true)
  | .user v cmp => some (cmp.evaluate e.uid v)
  | .group v cmp => some (cmp.evaluate e.gid v)
  | .permissions v cmp =>
    let msb := if v = 0 then 0 else Nat.log2 v + 1
    let mask := 2 ^ msb - 1
    some (cmp.evaluate (e.permissions.land mask) (v.land mask))
  | .size _ _ => none
  | .type_ _ _ => none
  | .contains _ _ => none

/-- A parser environment whose pattern compilers match the pattern source
literally and whose name service resolves nothing; used to exercise the
parser at concrete inputs. -/
def noEnv : ParserEnv where
  globBuild := fun src _ => some ⟨fun text => text == src⟩
  regexBuild := fun src _ => some ⟨fun text => text == src⟩
  resolveUser := fun _ => none
  resolveGroup := fun _ => none

/-- The extension semantics asserted by the spec for the `Extension` filter:
the text after the first `.` of the final component, with `false` for an
absent extension. -/
def specExtensionAfterFirstDot (cs : List Char) : Option (List Char) :=
  match cs.dropWhile (fun c => c ≠ '.') with
  | [] => none
  | _ :: rest => some rest

/-- The `Extension` filter evaluation the claim describes: match the pattern
against the text after the first dot; absent extension evaluates to false. -/
def specClaimExtensionEval (e : Entry) (p : Matcher) (cmp : Comparison) :
    Bool :=
  match specExtensionAfterFirstDot e.name with
  | some t => cmp.evaluateBool (p.isMatch t) true
  | none => false

end Fgr

/-- The entry used for the time-filter claim: its mtime is one second before
`NOW`. -/
def entryC5 : Fgr.Entry :=
  { name := [], depth := 0, uid := 0, gid := 0,
    atime := 999999000, mtime := 999999000, permissions := 0 }

/-- The entry used for the group-filter claim: uid 0 (root), gid 5. -/
def entryC6 : Fgr.Entry :=
  { name := [], depth := 0, uid := 0, gid := 5,
    atime := 0, mtime := 0, permissions := 0 }

/-- An entry named `a.tar.gz`. -/
def entryC7 : Fgr.Entry :=
  { name := "a.tar.gz".toList, depth := 0, uid := 0, gid := 0,
    atime := 0, mtime := 0, permissions := 0 }

/-- An entry named `sample` (no extension). -/
def entryW7 : Fgr.Entry :=
  { name := "sample".toList, depth := 0, uid := 0, gid := 0,
    atime := 0, mtime := 0, permissions := 0 }

/-- A pattern matching exactly the text `tar.gz`. -/
def patC7 : Fgr.Matcher := ⟨fun text => text == "tar.gz".toList⟩

/-- C4: the code evaluated where the claim fails.  The claimed alias `K`
does not exist (`SizeUnit` has aliases `B/byte/bytes`, `Kb/kilobyte`, `Mb`,
`Tb` only), so `size = 100K` is a parse error rather than 100000 bytes; the
`Kilobyte`/`Megabyte` scales are 1000-based as claimed, but the source has no
`Gigabyte` variant at all and scales `Terabyte` by `10^9`, not `10^12`.
(The repo's own test `test_simple_expression` in
`src/evaluate/execution_manager.rs` parses `size >= 100K` and would panic.) -/
theorem C4_size_unit_code_bug :
    Fgr.parseAttrValue Fgr.noEnv .size ("= 100K".toList) = Fgr.PRes.err ∧
    Fgr.parseAttrValue Fgr.noEnv .size ("= 100Kb".toList) =
      Fgr.PRes.ok [] (.size 100000 .eq) ∧
    Fgr.SizeUnit.to_bytes .kilobyte 100 = 100000 ∧
    Fgr.SizeUnit.to_bytes .megabyte 1 = 1000000 ∧
    Fgr.SizeUnit.to_bytes .terabyte 1 = 1000000000 ∧
    Fgr.splitByLongestAlias Fgr.sizeUnitAliasTable ("K".toList) = none ∧
    Fgr.sizeUnitFromStr "Gigabyte" = none :=
  ⟨rfl, rfl, rfl, rfl, rfl, rfl, rfl⟩

/-- C5: the code evaluated where the claim fails.  `now + 1h` parses to the
duration +3600000 ms, but `add_to` subtracts a non-negative duration from
`NOW` instead of adding it, so the filter compares against `NOW - 1h`; only
the negative-delta half of the claim (`now - 1d` = one day before `NOW`)
holds.  Concretely, an entry modified one second before `NOW` satisfies
`mtime > now + 1h` under the code although its mtime is not in the future. -/
theorem C5_time_filter_code_bug :
    Fgr.parseDuration ("now + 1h".toList) = Fgr.PRes.ok [] 3600000 ∧
    Fgr.addTo 3600000 1000000000 = 1000000000 - 3600000 ∧
    Fgr.parseDuration ("now - 1d".toList) = Fgr.PRes.ok [] (-86400000) ∧
    Fgr.addTo (-86400000) 1000000000 = 1000000000 - 86400000 ∧
    Fgr.evalFilter 1000000000 entryC5 (.modificationTime 3600000 .gt) =
      some true :=
  ⟨rfl, rfl, rfl, rfl, rfl⟩

/-- C6: the code evaluated where the claim fails.  The `Group` arm of
`AttributeToken::parse` constructs `Filter::User { comparison, value }`, so
`group = 5` yields a *user* filter, and evaluation compares the entry's uid
(not gid) against 5: an entry with uid 0 and gid 5 does not match, although
the claim (and `Filter::Group`'s own evaluation, also shown) says it
should. -/
theorem C6_group_filter_code_bug :
    Fgr.parseAttrValue Fgr.noEnv .group ("= 5".toList) =
      Fgr.PRes.ok [] (.user 5 .eq) ∧
    Fgr.evalFilter 0 entryC6 (.user 5 .eq) = some false ∧
    Fgr.evalFilter 0 entryC6 (.group 5 .eq) = some true :=
  ⟨rfl, rfl, rfl⟩

/-- C7 counterexample: for the entry `a.tar.gz` and a pattern matching
exactly `tar.gz`, the claim predicts a match (the text after the *first* dot
is `tar.gz`), but the code matches `Path::extension()` — the text after the
*last* dot, `gz` — and evaluates to false. -/
theorem C7_counterexample_first_dot :
    Fgr.evalFilter 0 entryC7 (.extension patC7 .eq) = some false ∧
    Fgr.specClaimExtensionEval entryC7 patC7 .eq = true :=
  ⟨rfl, rfl⟩

theorem takeWhile_middle {p : Char → Bool} {l1 l2 : List Char} {x : Char}
    (h1 : ∀ c ∈ l1, p c = true) (h2 : p x = false) :
    (l1 ++ x :: l2).takeWhile p = l1 := by
  induction l1 with
  | nil => simp [List.takeWhile, h2]
  | cons a as ih =>
    have ha : p a = true := h1 a (by simp)
    simp [List.takeWhile_cons, ha, ih (fun c hc => h1 c (by simp [hc]))]

theorem dropWhile_middle {p : Char → Bool} {l1 l2 : List Char} {x : Char}
    (h1 : ∀ c ∈ l1, p c = true) (h2 : p x = false) :
    (l1 ++ x :: l2).dropWhile p = x :: l2 := by
  induction l1 with
  | nil => simp [List.dropWhile, h2]
  | cons a as ih =>
    have ha : p a = true := h1 a (by simp)
    simp only [List.cons_append, List.dropWhile_cons, ha]
    exact ih (fun c hc => h1 c (by simp [hc]))

theorem dropWhile_head_false {p : Char → Bool} {l : List Char} {c : Char}
    {cs : List Char} (h : l.dropWhile p = c :: cs) : p c = false := by
  induction l with
  | nil => simp [List.dropWhile] at h
  | cons a as ih =>
    by_cases ha : p a
    · exact ih (by simpa [List.dropWhile, ha] using h)
    · simp only [List.dropWhile, ha] at h
      cases h
      simpa using ha

theorem mem_takeWhile_true {p : Char → Bool} {l : List Char} {c : Char}
    (h : c ∈ l.takeWhile p) : p c = true := by
  induction l with
  | nil => simp [List.takeWhile] at h
  | cons a as ih =>
    by_cases ha : p a
    · simp only [List.takeWhile, ha] at h
      rcases List.mem_cons.mp h with h1 | h1
      · exact h1 ▸ ha
      · exact ih h1
    · simp [List.takeWhile, ha] at h

/-- C7 (amended): the `Extension` filter pattern-matches `Path::extension()`
of the final component — the text after the **last** dot, which exists
exactly when the name is not `..` and splits as `s ++ "." ++ t` with `s`
nonempty and `t` dot-free — and an absent extension evaluates as
`comparison.evaluate(false, true)`: false under `=`, true under `!=`. -/
theorem C7_extension_amended :
    (∀ cs t : List Char, Fgr.rustExtension cs = some t ↔
      (cs ≠ ['.', '.'] ∧
        ∃ s, s ≠ [] ∧ cs = s ++ '.' :: t ∧ ∀ c ∈ t, c ≠ '.')) ∧
    (∀ (now : Int) (e : Fgr.Entry) (p : Fgr.Matcher) (cmp : Fgr.Comparison),
      Fgr.evalFilter now e (.extension p cmp) =
        some (match Fgr.rustExtension e.name with
          | some ext => cmp.evaluateBool (p.isMatch ext) true
          | none => cmp.evaluateBool false true)) ∧
    (∀ (now : Int) (e : Fgr.Entry) (p : Fgr.Matcher),
      Fgr.rustExtension e.name = none →
        Fgr.evalFilter now e (.extension p .eq) = some false ∧
        Fgr.evalFilter now e (.extension p .neq) = some true) := by
  refine ⟨fun cs t => ?_, fun now e p cmp => rfl, fun now e p h => ?_⟩
  · constructor
    · intro h
      unfold Fgr.rustExtension at h
      by_cases hdd : cs = ['.', '.']
      · simp [hdd] at h
      · simp only [if_neg hdd] at h
        refine ⟨hdd, ?_⟩
        cases hdrop : cs.reverse.dropWhile (fun c => c ≠ '.') with
        | nil => rw [hdrop] at h; simp at h
        | cons d1 tail =>
          cases tail with
          | nil => rw [hdrop] at h; simp at h
          | cons d2 ds =>
            rw [hdrop] at h
            simp only [Option.some.injEq] at h
            have hd1 : d1 = '.' := by
              have := dropWhile_head_false hdrop
              simpa using this
            have hsplit :
                cs.reverse.takeWhile (fun c => c ≠ '.') ++ (d1 :: d2 :: ds) =
                  cs.reverse := by
              rw [← hdrop]; exact List.takeWhile_append_dropWhile _ _
            refine ⟨(d2 :: ds).reverse, by simp, ?_, ?_⟩
            · have hcs : cs = (cs.reverse).reverse := by simp
              rw [hcs, ← hsplit, hd1]
              rw [← h]
              simp [List.reverse_append]
            · intro c hc
              rw [← h] at hc
              simp only [List.mem_reverse] at hc
              simpa using mem_takeWhile_true hc
    · rintro ⟨hdd, s, hs, rfl, ht⟩
      unfold Fgr.rustExtension
      rw [if_neg hdd]
      have h1 : ∀ c ∈ t.reverse, (fun c => decide (c ≠ '.')) c = true := by
        intro c hc
        simpa using ht c (List.mem_reverse.mp hc)
      have h2 : (fun c => decide (c ≠ '.')) '.' = false := by simp
      have hrev : (s ++ '.' :: t).reverse = t.reverse ++ '.' :: s.reverse := by
        simp [List.reverse_append]
      rw [hrev, dropWhile_middle h1 h2, takeWhile_middle h1 h2]
      cases hsr : s.reverse with
      | nil => exact absurd (by simpa using hsr) hs
      | cons a as => simp
  · constructor <;>
      simp [Fgr.evalFilter, h, Fgr.Comparison.evaluateBool]

/-- Witness for the amended C7 theorem at the concrete entry `sample`. -/
theorem C7_amended_witness :
    Fgr.rustExtension ("sample".toList) = none ∧
    (Fgr.evalFilter 0 entryW7 (.extension patC7 .eq) = some false ∧
     Fgr.evalFilter 0 entryW7 (.extension patC7 .neq) = some true) :=
  ⟨rfl, C7_extension_amended.2.2 0 entryW7 patC7 rfl⟩

namespace Fgr

/-- `Config::build` from `src/config.rs`: the starting directories are the
positional arguments when given, else the current working directory. -/
def configStartDirs (args : Option (List String)) (cwd : String) :
    List String :=
  match args with
  | some dirs => dirs
  | none => [cwd]

/-- The directory roots `main` hands to the walker (`src/main.rs`): it takes
`start_dirs.iter().next().unwrap()` (a panic on an empty list, modelled as
`none`), builds the `WalkBuilder` on that first path alone, and never reads
the rest of the iterator — `WalkBuilder::add` is never called. -/
def walkedRoots (startDirs : List String) : Option (List String) :=
  match startDirs with
  | [] => none
  | first :: _ => some [first]

end Fgr

/-- C10: the code evaluated where the claim fails.  The default (no
positional arguments → current directory) behaves as claimed, but when two
starting directories are supplied, `main` walks only the first: the walker is
built from `start_dirs[0]` and the remaining roots are dropped, so entries
under the second root are never evaluated. -/
theorem C10_only_first_root_walked :
    Fgr.configStartDirs none "/cwd" = ["/cwd"] ∧
    Fgr.configStartDirs (some ["/home", "/bin"]) "/cwd" = ["/home", "/bin"] ∧
    Fgr.walkedRoots ["/home", "/bin"] = some ["/home"] :=
  ⟨rfl, rfl, rfl⟩

namespace Fgr

/-- `enum FilterVar` from `src/evaluate/execution_manager.rs`: either a slot
of a real filter (`Var { id, weight }`) or a Tseitin auxiliary (`Aux(id)`). -/
inductive FilterVar where
  | var (id : Nat) (weight : Nat)
  | aux (id : Nat)
deriving DecidableEq, Repr

/-- The `PartialOrd`/`Ord` implementation for `FilterVar` in
`src/evaluate/execution_manager.rs`: two real variables compare by
`(weight, id)`; a real variable is `Greater` than any auxiliary; auxiliaries
compare by id. -/
def FilterVar.cmp : FilterVar → FilterVar → Ordering
  | .var lid lw, .var rid rw => (compare lw rw).then (compare lid rid)
  | .var _ _, .aux _ => .gt
  | .aux _, .var _ _ => .lt
  | .aux l, .aux r => compare l r

theorem Ordering.then_eq_eq {o p : Ordering} :
    o.then p = .eq ↔ o = .eq ∧ p = .eq := by
  cases o <;> simp [Ordering.then]

theorem Ordering.then_eq_lt {o p : Ordering} :
    o.then p = .lt ↔ o = .lt ∨ (o = .eq ∧ p = .lt) := by
  cases o <;> simp [Ordering.then]

theorem Ordering.then_eq_gt {o p : Ordering} :
    o.then p = .gt ↔ o = .gt ∨ (o = .eq ∧ p = .gt) := by
  cases o <;> simp [Ordering.then]

theorem FilterVar.cmp_eq_iff {v w : FilterVar} :
    FilterVar.cmp v w = .eq ↔ v = w := by
  cases v <;> cases w <;>
    simp [FilterVar.cmp, Ordering.then_eq_eq, Nat.compare_eq_eq, and_comm]

theorem FilterVar.cmp_swap (v w : FilterVar) :
    FilterVar.cmp v w = (FilterVar.cmp w v).swap := by
  cases v <;> cases w <;> simp only [FilterVar.cmp, Ordering.swap]
  case var.var lid lw rid rw =>
    rcases Nat.lt_trichotomy lw rw with h | h | h
    · simp [Nat.compare_eq_lt.mpr h, Nat.compare_eq_gt.mpr h, Ordering.then,
        Ordering.swap]
    · subst h
      simp only [Nat.compare_eq_eq.mpr rfl, Ordering.then]
      rcases Nat.lt_trichotomy lid rid with h2 | h2 | h2
      · simp [Nat.compare_eq_lt.mpr h2, Nat.compare_eq_gt.mpr h2,
          Ordering.swap]
      · subst h2; simp [Nat.compare_eq_eq.mpr rfl, Ordering.swap]
      · simp [Nat.compare_eq_lt.mpr h2, Nat.compare_eq_gt.mpr h2,
          Ordering.swap]
    · simp [Nat.compare_eq_lt.mpr h, Nat.compare_eq_gt.mpr h, Ordering.then,
        Ordering.swap]
  case aux.aux l r =>
    rcases Nat.lt_trichotomy l r with h | h | h
    · simp [Nat.compare_eq_lt.mpr h, Nat.compare_eq_gt.mpr h, Ordering.swap]
    · subst h; simp [Nat.compare_eq_eq.mpr rfl, Ordering.swap]
    · simp [Nat.compare_eq_lt.mpr h, Nat.compare_eq_gt.mpr h, Ordering.swap]

theorem FilterVar.cmp_lt_char {v w : FilterVar} :
    FilterVar.cmp v w = .lt ↔
      (match v, w with
        | .var lid lw, .var rid rw => lw < rw ∨ (lw = rw ∧ lid < rid)
        | .var _ _, .aux _ => False
        | .aux _, .var _ _ => True
        | .aux l, .aux r => l < r) := by
  cases v <;> cases w <;>
    simp [FilterVar.cmp, Ordering.then_eq_lt, Nat.compare_eq_lt,
      Nat.compare_eq_eq]

theorem FilterVar.cmp_trans {u v w : FilterVar}
    (h1 : FilterVar.cmp u v = .lt) (h2 : FilterVar.cmp v w = .lt) :
    FilterVar.cmp u w = .lt := by
  cases u <;> cases v <;> cases w <;>
    simp only [FilterVar.cmp_lt_char] at h1 h2 ⊢ <;> first | trivial | omega

/-- `enum Nnf<V>` from `src/evaluate/nnf.rs` instantiated at
`V = FilterVar` (the program's instantiation in
`src/evaluate/execution_manager.rs`): a literal with polarity, or an `And` /
`Or` over a `BTreeSet` of children.  The `BTreeSet` is modelled as its
sorted, duplicate-free element list (in `compareNnf` order). -/
inductive Nnf where
  | var (v : FilterVar) (b : Bool)
  | and (children : List Nnf)
  | or (children : List Nnf)

/-- `bool`'s `Ord`: `false < true`. -/
def cmpBool : Bool → Bool → Ordering
  | false, false => .eq
  | false, true => .lt
  | true, false => .gt
  | true, true => .eq

mutual

/-- The derived `Ord` of `Nnf<V>`: variants compare `Var < And < Or`; `Var`
fields compare lexicographically (`V`, then polarity); `BTreeSet` children
compare as their sorted sequences, lexicographically with shorter-is-less. -/
def compareNnf : Nnf → Nnf → Ordering
  | .var v b, .var w c => (FilterVar.cmp v w).then (cmpBool b c)
  | .var _ _, .and _ => .lt
  | .var _ _, .or _ => .lt
  | .and _, .var _ _ => .gt
  | .and xs, .and ys => compareNnfList xs ys
  | .and _, .or _ => .lt
  | .or _, .var _ _ => .gt
  | .or _, .and _ => .gt
  | .or xs, .or ys => compareNnfList xs ys

def compareNnfList : List Nnf → List Nnf → Ordering
  | [], [] => .eq
  | [], _ :: _ => .lt
  | _ :: _, [] => .gt
  | x :: xs, y :: ys => (compareNnf x y).then (compareNnfList xs ys)

end

theorem cmpBool_eq_iff {b c : Bool} : cmpBool b c = .eq ↔ b = c := by
  cases b <;> cases c <;> simp [cmpBool]

theorem cmpBool_swap (b c : Bool) : cmpBool b c = (cmpBool c b).swap := by
  cases b <;> cases c <;> simp [cmpBool, Ordering.swap]

theorem cmpBool_trans {a b c : Bool} (h1 : cmpBool a b = .lt)
    (h2 : cmpBool b c = .lt) : cmpBool a c = .lt := by
  cases a <;> cases b <;> cases c <;> simp_all [cmpBool]

mutual

theorem compareNnf_eq_iff : ∀ {a b : Nnf}, compareNnf a b = .eq ↔ a = b
  | .var v vb, .var w wb => by
    simp [compareNnf, Ordering.then_eq_eq, FilterVar.cmp_eq_iff,
      cmpBool_eq_iff]
  | .var _ _, .and _ => by simp [compareNnf]
  | .var _ _, .or _ => by simp [compareNnf]
  | .and _, .var _ _ => by simp [compareNnf]
  | .and xs, .and ys => by
    simp [compareNnf, compareNnfList_eq_iff]
  | .and _, .or _ => by simp [compareNnf]
  | .or _, .var _ _ => by simp [compareNnf]
  | .or _, .and _ => by simp [compareNnf]
  | .or xs, .or ys => by
    simp [compareNnf, compareNnfList_eq_iff]

theorem compareNnfList_eq_iff : ∀ {xs ys : List Nnf},
    compareNnfList xs ys = .eq ↔ xs = ys
  | [], [] => by simp [compareNnfList]
  | [], _ :: _ => by simp [compareNnfList]
  | _ :: _, [] => by simp [compareNnfList]
  | x :: xs, y :: ys => by
    simp [compareNnfList, Ordering.then_eq_eq, compareNnf_eq_iff,
      compareNnfList_eq_iff]

end

mutual

theorem compareNnf_swap : ∀ (a b : Nnf),
    compareNnf a b = (compareNnf b a).swap
  | .var v vb, .var w wb => by
    simp only [compareNnf]
    rw [FilterVar.cmp_swap, cmpBool_swap]
    cases FilterVar.cmp w v <;> cases cmpBool wb vb <;>
      simp [Ordering.then, Ordering.swap]
  | .var _ _, .and _ => by simp [compareNnf, Ordering.swap]
  | .var _ _, .or _ => by simp [compareNnf, Ordering.swap]
  | .and _, .var _ _ => by simp [compareNnf, Ordering.swap]
  | .and xs, .and ys => by
    simp only [compareNnf]; exact compareNnfList_swap xs ys
  | .and _, .or _ => by simp [compareNnf, Ordering.swap]
  | .or _, .var _ _ => by simp [compareNnf, Ordering.swap]
  | .or _, .and _ => by simp [compareNnf, Ordering.swap]
  | .or xs, .or ys => by
    simp only [compareNnf]; exact compareNnfList_swap xs ys

theorem compareNnfList_swap : ∀ (xs ys : List Nnf),
    compareNnfList xs ys = (compareNnfList ys xs).swap
  | [], [] => by simp [compareNnfList, Ordering.swap]
  | [], _ :: _ => by simp [compareNnfList, Ordering.swap]
  | _ :: _, [] => by simp [compareNnfList, Ordering.swap]
  | x :: xs, y :: ys => by
    simp only [compareNnfList]
    rw [compareNnf_swap x y, compareNnfList_swap xs ys]
    cases compareNnf y x <;> cases compareNnfList ys xs <;>
      simp [Ordering.then, Ordering.swap]

end

mutual

theorem compareNnf_trans : ∀ {a b c : Nnf}, compareNnf a b = .lt →
    compareNnf b c = .lt → compareNnf a c = .lt
  | .var u ub, .var v vb, .var w wb => by
    simp only [compareNnf, Ordering.then_eq_lt]
    rintro (h1 | ⟨h1, h1b⟩) (h2 | ⟨h2, h2b⟩)
    · exact Or.inl (FilterVar.cmp_trans h1 h2)
    · exact Or.inl (FilterVar.cmp_eq_iff.mp h2 ▸ h1)
    · exact Or.inl (FilterVar.cmp_eq_iff.mp h1 ▸ h2)
    · exact Or.inr ⟨FilterVar.cmp_eq_iff.mp h1 ▸ h2,
        cmpBool_trans h1b h2b⟩
  | .var _ _, .var _ _, .and _ => by intro _ _; simp [compareNnf]
  | .var _ _, .var _ _, .or _ => by intro _ _; simp [compareNnf]
  | .var _ _, .and _, .var _ _ => by intro _ h; simp [compareNnf] at h
  | .var _ _, .and xs, .and ys => by intro _ _; simp [compareNnf]
  | .var _ _, .and _, .or _ => by intro _ _; simp [compareNnf]
  | .var _ _, .or _, .var _ _ => by intro _ h; simp [compareNnf] at h
  | .var _ _, .or _, .and _ => by intro _ h; simp [compareNnf] at h
  | .var _ _, .or _, .or _ => by intro _ _; simp [compareNnf]
  | .and _, .var _ _, _ => by intro h _; simp [compareNnf] at h
  | .and _, .and _, .var _ _ => by intro _ h; simp [compareNnf] at h
  | .and xs, .and ys, .and zs => by
    simp only [compareNnf]
    exact compareNnfList_trans
  | .and _, .and _, .or _ => by intro _ _; simp [compareNnf]
  | .and _, .or _, .var _ _ => by intro _ h; simp [compareNnf] at h
  | .and _, .or _, .and _ => by intro _ h; simp [compareNnf] at h
  | .and _, .or _, .or _ => by intro _ _; simp [compareNnf]
  | .or _, .var _ _, _ => by intro h _; simp [compareNnf] at h
  | .or _, .and _, _ => by intro h _; simp [compareNnf] at h
  | .or _, .or _, .var _ _ => by intro _ h; simp [compareNnf] at h
  | .or _, .or _, .and _ => by intro _ h; simp [compareNnf] at h
  | .or xs, .or ys, .or zs => by
    simp only [compareNnf]
    exact compareNnfList_trans

theorem compareNnfList_trans : ∀ {xs ys zs : List Nnf},
    compareNnfList xs ys = .lt → compareNnfList ys zs = .lt →
    compareNnfList xs zs = .lt
  | [], [], _ :: _ => by intro _ _; simp [compareNnfList]
  | [], _ :: _, _ :: _ => by intro _ _; simp [compareNnfList]
  | [], [], [] => by intro h _; simp [compareNnfList] at h
  | [], _ :: _, [] => by intro _ h; simp [compareNnfList] at h
  | _ :: _, [], _ => by intro h _; simp [compareNnfList] at h
  | _ :: _, _ :: _, [] => by intro _ h; simp [compareNnfList] at h
  | x :: xs, y :: ys, z :: zs => by
    simp only [compareNnfList, Ordering.then_eq_lt]
    rintro (h1 | ⟨h1, h1t⟩) (h2 | ⟨h2, h2t⟩)
    · exact Or.inl (compareNnf_trans h1 h2)
    · exact Or.inl (compareNnf_eq_iff.mp h2 ▸ h1)
    · exact Or.inl (compareNnf_eq_iff.mp h1 ▸ h2)
    · exact Or.inr ⟨compareNnf_eq_iff.mp h1 ▸ h2,
        compareNnfList_trans h1t h2t⟩

end

end Fgr

/-- C9 counterexample: the claim says every real variable (`Var`) compares
strictly less than every auxiliary (`Aux`), but in the code `Var` compares
`Greater` than `Aux` (the source's own `test_ord` asserts `Aux < Var`). -/
theorem C9_counterexample_var_aux_order :
    Fgr.FilterVar.cmp (.var 0 1) (.aux 0) = .gt ∧
    Fgr.FilterVar.cmp (.aux 0) (.var 0 1) = .lt :=
  ⟨rfl, rfl⟩

/-- C9 (amended): in the total order on `FilterVar`, every auxiliary
compares strictly less than every real variable, auxiliaries are ordered by
id (and real variables by `(weight, id)`), so sorted CNF clauses list
auxiliary literals before real-filter literals. -/
theorem C9_aux_before_var_order :
    (∀ i w j : Nat, Fgr.FilterVar.cmp (.aux j) (.var i w) = .lt ∧
      Fgr.FilterVar.cmp (.var i w) (.aux j) = .gt) ∧
    (∀ i j : Nat, Fgr.FilterVar.cmp (.aux i) (.aux j) = compare i j) ∧
    (∀ li lw ri rw : Nat, Fgr.FilterVar.cmp (.var li lw) (.var ri rw) =
      (compare lw rw).then (compare li ri)) ∧
    (∀ (i : Nat) (b : Bool) (j w : Nat) (c : Bool),
      Fgr.compareNnf (.var (.aux i) b) (.var (.var j w) c) = .lt) :=
  ⟨fun _ _ _ => ⟨rfl, rfl⟩, fun _ _ => rfl, fun _ _ _ _ => rfl,
    fun _ _ _ _ _ => rfl⟩

/-- C1: for every expression tree and every assignment of operand values to
its leaf filters, the tree and its negation normal form evaluate to the same
boolean; `to_nnf` is idempotent; and the NNF result contains no `Not` node
(negation survives only inside leaf filters' comparisons). -/
theorem C1_to_nnf_equiv_idem_notfree (e : Fgr.ExpressionNode)
    (σ : Nat → Nat × Nat) :
    e.to_nnf.evaluate σ = e.evaluate σ ∧
    e.to_nnf.to_nnf = e.to_nnf ∧
    e.to_nnf.notFree = true :=
  ⟨Fgr.ExpressionNode.evaluate_to_nnf σ e, Fgr.ExpressionNode.to_nnf_idem e,
    Fgr.ExpressionNode.notFree_to_nnf e⟩

namespace Fgr

/-- `BTreeSet::insert` on the sorted element list: position by `compareNnf`;
an element comparing equal leaves the set unchanged. -/
def insertSorted (x : Nnf) : List Nnf → List Nnf
  | [] => [x]
  | y :: ys =>
    match compareNnf x y with
    | .lt => x :: y :: ys
    | .eq => y :: ys
    | .gt => y :: insertSorted x ys

/-- `BTreeSet::from_iter` (and the `or!`/`and!` macros of
`src/evaluate/nnf.rs`): insert the elements in iteration order. -/
def setOfList (l : List Nnf) : List Nnf :=
  l.foldl (fun s x => insertSorted x s) []

/-- `Nnf::or(iter)` from `src/evaluate/nnf.rs`. -/
def Nnf.orSet (l : List Nnf) : Nnf := .or (setOfList l)

/-- `Nnf::and(iter)` from `src/evaluate/nnf.rs`. -/
def Nnf.andSet (l : List Nnf) : Nnf := .and (setOfList l)

/-- Children lists of well-formed `Nnf` values are strictly sorted. -/
def SortedLt (l : List Nnf) : Prop :=
  List.Pairwise (fun a b => compareNnf a b = .lt) l

theorem mem_insertSorted {x z : Nnf} {l : List Nnf} :
    z ∈ insertSorted x l ↔ z = x ∨ z ∈ l := by
  induction l with
  | nil => simp [insertSorted]
  | cons y ys ih =>
    simp only [insertSorted]
    cases hc : compareNnf x y with
    | lt => simp
    | eq =>
      have hxy : x = y := compareNnf_eq_iff.mp hc
      subst hxy
      simp only [List.mem_cons]
      tauto
    | gt =>
      simp only [List.mem_cons, ih]
      tauto

theorem insertSorted_pairwise {x : Nnf} {l : List Nnf} (h : SortedLt l) :
    SortedLt (insertSorted x l) := by
  induction l with
  | nil => simp [insertSorted, SortedLt]
  | cons y ys ih =>
    simp only [insertSorted]
    rcases List.pairwise_cons.mp h with ⟨hy, hys⟩
    cases hc : compareNnf x y with
    | lt =>
      refine List.pairwise_cons.mpr ⟨?_, h⟩
      intro z hz
      rcases List.mem_cons.mp hz with rfl | hz
      · exact hc
      · exact compareNnf_trans hc (hy z hz)
    | eq => exact h
    | gt =>
      refine List.pairwise_cons.mpr ⟨?_, ih hys⟩
      intro z hz
      rcases mem_insertSorted.mp hz with rfl | hz
      · have := compareNnf_swap y z
        rw [hc] at this
        exact this
      · exact hy z hz

theorem insertSorted_append {x : Nnf} {l : List Nnf}
    (h : ∀ y ∈ l, compareNnf y x = .lt) : insertSorted x l = l ++ [x] := by
  induction l with
  | nil => rfl
  | cons y ys ih =>
    have hx : compareNnf x y = .gt := by
      have := compareNnf_swap x y
      rw [h y (by simp)] at this
      exact this
    simp only [insertSorted, hx, List.cons_append, List.cons.injEq, true_and]
    exact ih (fun z hz => h z (by simp [hz]))

theorem foldl_insertSorted_sorted (l acc : List Nnf)
    (h : SortedLt (acc ++ l)) :
    List.foldl (fun s x => insertSorted x s) acc l = acc ++ l := by
  induction l generalizing acc with
  | nil => simp
  | cons x xs ih =>
    have hacc : ∀ y ∈ acc, compareNnf y x = .lt := by
      intro y hy
      have := (List.pairwise_append.mp h).2.2
      exact this y hy x (by simp)
    have hstep : insertSorted x acc = acc ++ [x] := insertSorted_append hacc
    simp only [List.foldl_cons, hstep]
    have hre : (acc ++ [x]) ++ xs = acc ++ x :: xs := by
      simp [List.append_assoc]
    rw [ih (acc ++ [x]) (by rw [hre]; exact h), hre]

theorem setOfList_sorted_id {l : List Nnf} (h : SortedLt l) :
    setOfList l = l := by
  simpa using foldl_insertSorted_sorted l [] (by simpa using h)

theorem setOfList_pairwise (l : List Nnf) : SortedLt (setOfList l) := by
  have haux : ∀ acc, SortedLt acc →
      SortedLt (List.foldl (fun s x => insertSorted x s) acc l) := by
    induction l with
    | nil => intro acc h; simpa using h
    | cons x xs ih =>
      intro acc h
      exact ih _ (insertSorted_pairwise h)
  exact haux [] (by simp [SortedLt])

theorem mem_foldl_insertSorted {z : Nnf} (l acc : List Nnf) :
    z ∈ List.foldl (fun s x => insertSorted x s) acc l ↔
      z ∈ acc ∨ z ∈ l := by
  induction l generalizing acc with
  | nil => simp
  | cons x xs ih =>
    simp only [List.foldl_cons, ih, mem_insertSorted, List.mem_cons]
    tauto

theorem mem_setOfList {z : Nnf} {l : List Nnf} :
    z ∈ setOfList l ↔ z ∈ l := by
  simpa using mem_foldl_insertSorted l []

mutual

/-- Truth of an `Nnf` formula under an assignment of the propositional
variables (spec §4.2/§8: `E` is true under `σ`): `Var(v, polarity)` is the
literal `v` or `¬v` — matching the solver encoding in
`extract_clause_vars`, where a `false` polarity becomes a negated solver
literal — and `And`/`Or` are conjunction/disjunction over the children. -/
def evalNnf (σ : FilterVar → Bool) : Nnf → Bool
  | .var v b => σ v == b
  | .and xs => evalAll σ xs
  | .or xs => evalAny σ xs

def evalAll (σ : FilterVar → Bool) : List Nnf → Bool
  | [] => true
  | x :: xs => evalNnf σ x && evalAll σ xs

def evalAny (σ : FilterVar → Bool) : List Nnf → Bool
  | [] => false
  | x :: xs => evalNnf σ x || evalAny σ xs

end

theorem evalAll_iff {σ : FilterVar → Bool} {l : List Nnf} :
    evalAll σ l = true ↔ ∀ x ∈ l, evalNnf σ x = true := by
  induction l with
  | nil => simp [evalAll]
  | cons x xs ih => simp [evalAll, ih]

theorem evalAny_iff {σ : FilterVar → Bool} {l : List Nnf} :
    evalAny σ l = true ↔ ∃ x ∈ l, evalNnf σ x = true := by
  induction l with
  | nil => simp [evalAny]
  | cons x xs ih => simp [evalAny, ih]

theorem evalAll_congr_mem {σ : FilterVar → Bool} {l1 l2 : List Nnf}
    (h : ∀ z, z ∈ l1 ↔ z ∈ l2) : evalAll σ l1 = evalAll σ l2 := by
  rw [Bool.eq_iff_iff, evalAll_iff, evalAll_iff]
  constructor <;> intro ha x hx
  · exact ha x ((h x).mpr hx)
  · exact ha x ((h x).mp hx)

theorem evalAny_congr_mem {σ : FilterVar → Bool} {l1 l2 : List Nnf}
    (h : ∀ z, z ∈ l1 ↔ z ∈ l2) : evalAny σ l1 = evalAny σ l2 := by
  rw [Bool.eq_iff_iff, evalAny_iff, evalAny_iff]
  constructor <;> rintro ⟨x, hx, he⟩
  · exact ⟨x, (h x).mp hx, he⟩
  · exact ⟨x, (h x).mpr hx, he⟩

theorem evalAll_setOfList {σ : FilterVar → Bool} {l : List Nnf} :
    evalAll σ (setOfList l) = evalAll σ l :=
  evalAll_congr_mem (fun _ => mem_setOfList)

theorem evalAny_setOfList {σ : FilterVar → Bool} {l : List Nnf} :
    evalAny σ (setOfList l) = evalAny σ l :=
  evalAny_congr_mem (fun _ => mem_setOfList)

end Fgr

namespace Fgr

/-- Is this node a literal (`Nnf::Var`)? -/
def isLit : Nnf → Bool
  | .var _ _ => true
  | _ => false

/-- The `Not` impl for `Nnf<V>` in `src/evaluate/nnf.rs`: defined only on
`Var` (flips the polarity); on `And`/`Or` the source panics
(`unimplemented!`), modelled as `none`. -/
def negLitM : Nnf → Option Nnf
  | .var v b => some (.var v (!b))
  | _ => none

/-- `BTreeSet::contains`, by `Ord`-equality. -/
def containsNnf (l : List Nnf) (x : Nnf) : Bool :=
  l.any (fun y => decide (compareNnf x y = .eq))

/-- The scanning loop of `Nnf::has_inversions`: for each child in order,
panic (`none`) if negating it is impossible (a compound child), return
`true` at the first child whose negation is in the set. -/
def hasInvAux (all : List Nnf) : List Nnf → Option Bool
  | [] => some false
  | c :: rest =>
    match c with
    | .var v b =>
      if containsNnf all (.var v (!b)) then some true else hasInvAux all rest
    | _ => none

/-- `Nnf::has_inversions` from `src/evaluate/nnf.rs`. -/
def hasInversions : Nnf → Option Bool
  | .var _ _ => some false
  | .and cs => hasInvAux cs cs
  | .or cs => hasInvAux cs cs

/-- The loop of `Nnf::is_simple`: children must all be `Var` with previously
unseen underlying names. -/
def isSimpleAux : List FilterVar → List Nnf → Bool
  | _, [] => true
  | seen, c :: rest =>
    match c with
    | .var v _ => if v ∈ seen then false else isSimpleAux (v :: seen) rest
    | _ => false

/-- `Nnf::is_simple` from `src/evaluate/nnf.rs`. -/
def isSimple : Nnf → Bool
  | .var _ _ => true
  | .and cs => isSimpleAux [] cs
  | .or cs => isSimpleAux [] cs

/-- `Nnf::is_clause` from `src/evaluate/nnf.rs`: an `Or` that is simple. -/
def isClause : Nnf → Bool
  | .or cs => isSimpleAux [] cs
  | _ => false

/-- `Nnf::is_cnf` from `src/evaluate/nnf.rs`: an `And` whose children are
all clauses. -/
def isCnf : Nnf → Bool
  | .and cs => cs.all isClause
  | _ => false

/-- Auxiliary ids of a variable are below `k` (real variables trivially). -/
def fvBelow (k : Nat) : FilterVar → Bool
  | .var _ _ => true
  | .aux i => decide (i < k)

mutual

/-- Every auxiliary id occurring in the formula is below `k`. -/
def auxBelow (k : Nat) : Nnf → Bool
  | .var v _ => fvBelow k v
  | .and xs => auxBelowList k xs
  | .or xs => auxBelowList k xs

def auxBelowList (k : Nat) : List Nnf → Bool
  | [] => true
  | x :: xs => auxBelow k x && auxBelowList k xs

end

/-- Strict sortedness of adjacent elements in `compareNnf` order. -/
def chainSorted : List Nnf → Bool
  | [] => true
  | [_] => true
  | x :: y :: rest => decide (compareNnf x y = .lt) && chainSorted (y :: rest)

mutual

/-- Well-formedness of an `Nnf` value: every `And`/`Or` children list is the
sorted duplicate-free element sequence of a `BTreeSet` (which holds for
every value the source can construct). -/
def wfNnf : Nnf → Bool
  | .var _ _ => true
  | .and xs => chainSorted xs && wfList xs
  | .or xs => chainSorted xs && wfList xs

def wfList : List Nnf → Bool
  | [] => true
  | x :: xs => wfNnf x && wfList xs

end

/-- `TseitinTransform::process_node` helper: after the children of a
compound node have been processed into literals and the node rebuilt, draw a
fresh auxiliary from the factory and emit the defining (or inversion)
clauses, as in `src/evaluate/tseitin.rs` lines 58-95.  `none` models the
panics (`!` on a compound child, the unreachable `Var` arm). -/
def mapNegLits : List Nnf → Option (List Nnf)
  | [] => some []
  | x :: xs =>
    match negLitM x with
    | none => none
    | some nx => (mapNegLits xs).map (nx :: ·)

def andBinaries (c : Nat) (children : List Nnf) (acc : List Nnf) :
    List Nnf :=
  children.foldl
    (fun acc child =>
      insertSorted (Nnf.orSet [.var (.aux c) false, child]) acc) acc

def orBinaries (c : Nat) : List Nnf → List Nnf → Option (List Nnf)
  | [], acc => some acc
  | child :: rest, acc =>
    match negLitM child with
    | none => none
    | some nc =>
      orBinaries c rest (insertSorted (Nnf.orSet [nc, .var (.aux c) true]) acc)

def finishNode (node : Nnf) (c : Nat) (cl : List Nnf) :
    Option (Nnf × Nat × List Nnf) :=
  match node with
  | .var _ _ => none
  | .and children =>
    match hasInversions (.and children) with
    | none => none
    | some true =>
      some (.var (.aux c) true, c + 1,
        insertSorted (Nnf.orSet [.var (.aux c) false]) cl)
    | some false =>
      match mapNegLits children with
      | none => none
      | some negs =>
        some (.var (.aux c) true, c + 1,
          andBinaries c children
            (insertSorted (Nnf.orSet (negs ++ [.var (.aux c) true])) cl))
  | .or children =>
    match hasInversions (.or children) with
    | none => none
    | some true =>
      some (.var (.aux c) true, c + 1,
        insertSorted (Nnf.orSet [.var (.aux c) true]) cl)
    | some false =>
      match orBinaries c children
          (insertSorted (Nnf.orSet (children ++ [.var (.aux c) false])) cl)
        with
      | none => none
      | some cl3 => some (.var (.aux c) true, c + 1, cl3)

mutual

/-- `TseitinTransform::process_node` from `src/evaluate/tseitin.rs`: a
literal is returned as is (early `return`); a compound node has its
children processed in set order (threading the auxiliary counter and the
clause set), is rebuilt, and is replaced by a fresh auxiliary defined by
emitted clauses.  The singleton `And`/`Or` arm has no `return`: it binds
the recursive result (always a `Var` — `process_node` returns either the
input literal or the auxiliary) to `processed_node`, falls through to draw
an auxiliary, and matches `processed_node` into the
`Nnf::Var(_, _) => unsafe { unreachable_unchecked() }` arm — undefined
behaviour, modelled `none` like the other panic arms. -/
def processNode : Nnf → Nat → List Nnf → Option (Nnf × Nat × List Nnf)
  | .var v b, c, cl => some (.var v b, c, cl)
  | .and [_], _, _ => none
  | .or [_], _, _ => none
  | .and xs, c, cl =>
    match processList xs c cl with
    | none => none
    | some (ls, c1, cl1) => finishNode (Nnf.andSet ls) c1 cl1
  | .or xs, c, cl =>
    match processList xs c cl with
    | none => none
    | some (ls, c1, cl1) => finishNode (Nnf.orSet ls) c1 cl1

def processList : List Nnf → Nat → List Nnf →
    Option (List Nnf × Nat × List Nnf)
  | [], c, cl => some ([], c, cl)
  | x :: xs, c, cl =>
    match processNode x c cl with
    | none => none
    | some (lit, c1, cl1) =>
      match processList xs c1 cl1 with
      | none => none
      | some (ls, c2, cl2) => some (lit :: ls, c2, cl2)

end

mutual

/-- `TseitinTransform::process_required` from `src/evaluate/tseitin.rs`: a
literal becomes a unit clause; a singleton `And`/`Or` recurses; an `Or`
becomes one clause over the Tseitin-substituted children (skipped when it
has inversions, i.e. is a tautology); an `And` recurses into each child. -/
def processRequired : Nnf → Nat → List Nnf → Option (Nat × List Nnf)
  | .var v b, c, cl => some (c, insertSorted (Nnf.orSet [.var v b]) cl)
  | .and [x], c, cl => processRequired x c cl
  | .or [x], c, cl => processRequired x c cl
  | .and xs, c, cl => processRequiredList xs c cl
  | .or xs, c, cl =>
    match processList xs c cl with
    | none => none
    | some (ls, c1, cl1) =>
      match hasInversions (Nnf.orSet ls) with
      | none => none
      | some true => some (c1, cl1)
      | some false => some (c1, insertSorted (Nnf.orSet ls) cl1)

def processRequiredList : List Nnf → Nat → List Nnf →
    Option (Nat × List Nnf)
  | [], c, cl => some (c, cl)
  | x :: xs, c, cl =>
    match processRequired x c cl with
    | none => none
    | some (c1, cl1) => processRequiredList xs c1 cl1

end

/-- `TseitinTransform::transform` from `src/evaluate/tseitin.rs`, driven by
the counter-based auxiliary factory of
`ExecutionManager::tseitin_transform` (`src/evaluate/execution_manager.rs`):
each factory call yields `Var(Aux(counter), true)` and increments the
counter, starting from `c0`. -/
def transform (root : Nnf) (c0 : Nat) : Option Nnf :=
  match processRequired root c0 [] with
  | none => none
  | some (_, cl) => some (.and cl)

end Fgr

namespace Fgr

theorem chainSorted_iff {l : List Nnf} : chainSorted l = true ↔ SortedLt l := by
  induction l with
  | nil => simp [chainSorted, SortedLt]
  | cons x xs ih =>
    cases xs with
    | nil => simp [chainSorted, SortedLt]
    | cons y ys =>
      rw [SortedLt, List.pairwise_cons]
      simp only [chainSorted, Bool.and_eq_true, decide_eq_true_eq]
      rw [ih]
      constructor
      · rintro ⟨h1, h2⟩
        refine ⟨?_, h2⟩
        intro z hz
        rcases List.mem_cons.mp hz with rfl | hz
        · exact h1
        · rcases List.pairwise_cons.mp h2 with ⟨hy, _⟩
          exact compareNnf_trans h1 (hy z hz)
      · rintro ⟨h1, h2⟩
        exact ⟨h1 y (by simp), h2⟩

theorem sortedLt_nodup {l : List Nnf} (h : SortedLt l) : l.Nodup := by
  refine List.Pairwise.imp ?_ h
  intro a b hab
  intro he
  subst he
  rw [compareNnf_eq_iff.mpr rfl] at hab
  cases hab

theorem containsNnf_iff {l : List Nnf} {x : Nnf} :
    containsNnf l x = true ↔ x ∈ l := by
  simp only [containsNnf, List.any_eq_true, decide_eq_true_eq]
  constructor
  · rintro ⟨y, hy, he⟩
    exact (compareNnf_eq_iff.mp he) ▸ hy
  · intro hx
    exact ⟨x, hx, compareNnf_eq_iff.mpr rfl⟩

theorem hasInvAux_isSome {all part : List Nnf}
    (h : ∀ x ∈ part, isLit x = true) : ∃ b, hasInvAux all part = some b := by
  induction part with
  | nil => exact ⟨false, rfl⟩
  | cons c rest ih =>
    cases c with
    | var v b =>
      simp only [hasInvAux]
      by_cases hc : containsNnf all (.var v (!b)) = true
      · exact ⟨true, by simp [hc]⟩
      · simpa [hc] using ih (fun x hx => h x (by simp [hx]))
    | and cs =>
      have := h (Nnf.and cs) (by simp)
      simp [isLit] at this
    | or cs =>
      have := h (Nnf.or cs) (by simp)
      simp [isLit] at this

theorem hasInvAux_true {all part : List Nnf}
    (h : hasInvAux all part = some true) :
    ∃ v b, (Nnf.var v b) ∈ part ∧ (Nnf.var v (!b)) ∈ all := by
  induction part with
  | nil => simp [hasInvAux] at h
  | cons c rest ih =>
    cases c with
    | var v b =>
      simp only [hasInvAux] at h
      by_cases hc : containsNnf all (.var v (!b)) = true
      · exact ⟨v, b, by simp, containsNnf_iff.mp hc⟩
      · simp only [hc, if_false] at h
        obtain ⟨w, p, hw, ha⟩ := ih h
        exact ⟨w, p, by simp [hw], ha⟩
    | and cs => simp [hasInvAux] at h
    | or cs => simp [hasInvAux] at h

theorem hasInvAux_false {all part : List Nnf}
    (h : hasInvAux all part = some false) :
    ∀ v b, (Nnf.var v b) ∈ part → (Nnf.var v (!b)) ∉ all := by
  induction part with
  | nil => simp
  | cons c rest ih =>
    cases c with
    | var v b =>
      simp only [hasInvAux] at h
      by_cases hc : containsNnf all (.var v (!b)) = true
      · simp [hc] at h
      · simp only [hc, if_false] at h
        intro w p hw ha
        rcases List.mem_cons.mp hw with he | hw
        · cases he
          exact hc (containsNnf_iff.mpr ha)
        · exact ih h w p hw ha
    | and cs => simp [hasInvAux] at h
    | or cs => simp [hasInvAux] at h

/-- The underlying names of a list of literals. -/
def litNames : List Nnf → List FilterVar
  | [] => []
  | .var v _ :: rest => v :: litNames rest
  | _ :: rest => litNames rest

theorem mem_litNames {l : List Nnf} {v : FilterVar} :
    v ∈ litNames l ↔ ∃ b, (Nnf.var v b) ∈ l := by
  induction l with
  | nil => simp [litNames]
  | cons c rest ih =>
    cases c with
    | var w p =>
      simp only [litNames, List.mem_cons, ih]
      constructor
      · rintro (rfl | ⟨b, hb⟩)
        · exact ⟨p, Or.inl rfl⟩
        · exact ⟨b, Or.inr hb⟩
      · rintro ⟨b, (he | hb)⟩
        · cases he; exact Or.inl rfl
        · exact Or.inr ⟨b, hb⟩
    | and cs =>
      simp only [litNames, ih, List.mem_cons]
      constructor
      · rintro ⟨b, hb⟩; exact ⟨b, Or.inr hb⟩
      · rintro ⟨b, (he | hb)⟩
        · cases he
        · exact ⟨b, hb⟩
    | or cs =>
      simp only [litNames, ih, List.mem_cons]
      constructor
      · rintro ⟨b, hb⟩; exact ⟨b, Or.inr hb⟩
      · rintro ⟨b, (he | hb)⟩
        · cases he
        · exact ⟨b, hb⟩

theorem isSimpleAux_of_nodup : ∀ {cs : List Nnf} {seen : List FilterVar},
    (∀ x ∈ cs, isLit x = true) → (litNames cs).Nodup →
    (∀ v ∈ litNames cs, v ∉ seen) → isSimpleAux seen cs = true := by
  intro cs
  induction cs with
  | nil => intro seen _ _ _; rfl
  | cons c rest ih =>
    intro seen hlit hnd hseen
    cases c with
    | var v b =>
      simp only [litNames] at hnd hseen
      simp only [isSimpleAux]
      have hv : v ∉ seen := hseen v (by simp)
      rw [if_neg hv]
      refine ih (fun x hx => hlit x (by simp [hx])) (List.Nodup.of_cons hnd)
        ?_
      intro w hw
      simp only [List.mem_cons]
      rintro (rfl | hws)
      · exact (List.nodup_cons.mp hnd).1 hw
      · exact hseen w (by simp [hw]) hws
    | and cs2 =>
      have := hlit (Nnf.and cs2) (by simp)
      simp [isLit] at this
    | or cs2 =>
      have := hlit (Nnf.or cs2) (by simp)
      simp [isLit] at this

theorem isSimpleAux_nodup_names : ∀ {cs : List Nnf} {seen : List FilterVar},
    isSimpleAux seen cs = true →
    (litNames cs).Nodup ∧ (∀ v ∈ litNames cs, v ∉ seen) ∧
      (∀ x ∈ cs, isLit x = true) := by
  intro cs
  induction cs with
  | nil => intro seen _; simp [litNames]
  | cons c rest ih =>
    intro seen h
    cases c with
    | var v b =>
      simp only [isSimpleAux] at h
      by_cases hv : v ∈ seen
      · simp [hv] at h
      · rw [if_neg hv] at h
        obtain ⟨hnd, hdisj, hlit⟩ := ih h
        refine ⟨?_, ?_, ?_⟩
        · simp only [litNames, List.nodup_cons]
          exact ⟨fun hmem => hdisj v hmem (by simp), hnd⟩
        · simp only [litNames, List.mem_cons]
          rintro w (rfl | hw)
          · exact hv
          · intro hws
            exact hdisj w hw (by simp [hws])
        · intro x hx
          rcases List.mem_cons.mp hx with rfl | hx
          · rfl
          · exact hlit x hx
    | and cs2 => simp [isSimpleAux] at h
    | or cs2 => simp [isSimpleAux] at h

theorem names_nodup_of_noinv : ∀ {cs : List Nnf},
    (∀ x ∈ cs, isLit x = true) → cs.Nodup →
    (∀ v p, (Nnf.var v p) ∈ cs → (Nnf.var v (!p)) ∉ cs) →
    (litNames cs).Nodup := by
  intro cs
  induction cs with
  | nil => simp [litNames]
  | cons c rest ih =>
    intro hlit hnd hinv
    cases c with
    | var v p =>
      simp only [litNames, List.nodup_cons]
      constructor
      · intro hmem
        obtain ⟨q, hq⟩ := mem_litNames.mp hmem
        by_cases hpq : q = p
        · subst hpq
          exact (List.nodup_cons.mp hnd).1 hq
        · have hq2 : q = !p := by cases p <;> cases q <;> simp_all
          subst hq2
          exact hinv v p (by simp) (by simp [hq])
      · exact ih (fun x hx => hlit x (by simp [hx]))
          (List.Nodup.of_cons hnd)
          (fun w q hw hnw => hinv w q (by simp [hw]) (by simp [hnw]))
    | and cs2 =>
      have := hlit (Nnf.and cs2) (by simp)
      simp [isLit] at this
    | or cs2 =>
      have := hlit (Nnf.or cs2) (by simp)
      simp [isLit] at this

end Fgr

namespace Fgr

theorem negLitM_lit {x nx : Nnf} (h : negLitM x = some nx) :
    ∃ v b, x = .var v b ∧ nx = .var v (!b) := by
  cases x with
  | var v b =>
    simp only [negLitM, Option.some.injEq] at h
    exact ⟨v, b, rfl, h.symm⟩
  | and cs => simp [negLitM] at h
  | or cs => simp [negLitM] at h

theorem evalNnf_negLit (σ : FilterVar → Bool) {x nx : Nnf}
    (h : negLitM x = some nx) : evalNnf σ nx = !(evalNnf σ x) := by
  obtain ⟨v, b, rfl, rfl⟩ := negLitM_lit h
  simp only [evalNnf]
  cases σ v <;> cases b <;> rfl

theorem mapNegLits_isSome {l : List Nnf} (h : ∀ x ∈ l, isLit x = true) :
    ∃ negs, mapNegLits l = some negs := by
  induction l with
  | nil => exact ⟨[], rfl⟩
  | cons x xs ih =>
    obtain ⟨negs, hn⟩ := ih (fun y hy => h y (by simp [hy]))
    cases x with
    | var v b =>
      exact ⟨Nnf.var v (!b) :: negs, by simp [mapNegLits, negLitM, hn]⟩
    | and cs =>
      have := h (Nnf.and cs) (by simp)
      simp [isLit] at this
    | or cs =>
      have := h (Nnf.or cs) (by simp)
      simp [isLit] at this

theorem mapNegLits_forall₂ : ∀ {l negs : List Nnf},
    mapNegLits l = some negs →
    List.Forall₂ (fun x nx => negLitM x = some nx) l negs := by
  intro l
  induction l with
  | nil =>
    intro negs h
    simp only [mapNegLits, Option.some.injEq] at h
    subst h
    exact List.Forall₂.nil
  | cons x xs ih =>
    intro negs h
    simp only [mapNegLits] at h
    cases hx : negLitM x with
    | none => rw [hx] at h; cases h
    | some nx =>
      rw [hx] at h
      cases hxs : mapNegLits xs with
      | none => rw [hxs] at h; cases h
      | some ns =>
        rw [hxs] at h
        simp only [Option.map_some', Option.some.injEq] at h
        subst h
        exact List.Forall₂.cons hx (ih hxs)

theorem fvBelow_mono {k k' : Nat} (h : k ≤ k') {v : FilterVar} :
    fvBelow k v = true → fvBelow k' v = true := by
  cases v with
  | var i w => simp [fvBelow]
  | aux i => simp only [fvBelow, decide_eq_true_eq]; omega

mutual

theorem auxBelow_mono {k k' : Nat} (h : k ≤ k') : ∀ {n : Nnf},
    auxBelow k n = true → auxBelow k' n = true
  | .var v b => by
    simp only [auxBelow]
    exact fvBelow_mono h
  | .and xs => by
    simp only [auxBelow]
    exact auxBelowList_mono h
  | .or xs => by
    simp only [auxBelow]
    exact auxBelowList_mono h

theorem auxBelowList_mono {k k' : Nat} (h : k ≤ k') : ∀ {l : List Nnf},
    auxBelowList k l = true → auxBelowList k' l = true
  | [] => by simp [auxBelowList]
  | x :: xs => by
    simp only [auxBelowList, Bool.and_eq_true]
    rintro ⟨h1, h2⟩
    exact ⟨auxBelow_mono h h1, auxBelowList_mono h h2⟩

end

theorem auxBelowList_iff {k : Nat} {l : List Nnf} :
    auxBelowList k l = true ↔ ∀ x ∈ l, auxBelow k x = true := by
  induction l with
  | nil => simp [auxBelowList]
  | cons x xs ih => simp [auxBelowList, ih]

mutual

theorem evalNnf_congr {τ ρ : FilterVar → Bool} {k : Nat}
    (ha : ∀ v, fvBelow k v = true → τ v = ρ v) : ∀ {n : Nnf},
    auxBelow k n = true → evalNnf τ n = evalNnf ρ n
  | .var v b => by
    simp only [auxBelow, evalNnf]
    intro h
    rw [ha v h]
  | .and xs => by
    simp only [auxBelow, evalNnf]
    exact evalAll_congr_assign ha
  | .or xs => by
    simp only [auxBelow, evalNnf]
    exact evalAny_congr_assign ha

theorem evalAll_congr_assign {τ ρ : FilterVar → Bool} {k : Nat}
    (ha : ∀ v, fvBelow k v = true → τ v = ρ v) : ∀ {l : List Nnf},
    auxBelowList k l = true → evalAll τ l = evalAll ρ l
  | [] => by simp [evalAll]
  | x :: xs => by
    simp only [auxBelowList, Bool.and_eq_true, evalAll]
    rintro ⟨h1, h2⟩
    rw [evalNnf_congr ha h1, evalAll_congr_assign ha h2]

theorem evalAny_congr_assign {τ ρ : FilterVar → Bool} {k : Nat}
    (ha : ∀ v, fvBelow k v = true → τ v = ρ v) : ∀ {l : List Nnf},
    auxBelowList k l = true → evalAny τ l = evalAny ρ l
  | [] => by simp [evalAny]
  | x :: xs => by
    simp only [auxBelowList, Bool.and_eq_true, evalAny]
    rintro ⟨h1, h2⟩
    rw [evalNnf_congr ha h1, evalAny_congr_assign ha h2]

end

/-- An auxiliary id in the freshly allocated range `[c, c')`. -/
def fvNew (c c' : Nat) : FilterVar → Bool
  | .var _ _ => false
  | .aux i => decide (c ≤ i ∧ i < c')

theorem agree_below {τ σ : FilterVar → Bool} {c c' : Nat}
    (h : ∀ v, fvNew c c' v = false → τ v = σ v) :
    ∀ v, fvBelow c v = true → τ v = σ v := by
  intro v hv
  refine h v ?_
  cases v with
  | var i w => rfl
  | aux i =>
    simp only [fvBelow, decide_eq_true_eq] at hv
    simp only [fvNew, decide_eq_false_iff_not]
    omega

theorem agree_chain {σ τ₁ τ₂ : FilterVar → Bool} {c c1 c2 : Nat}
    (hc : c ≤ c1) (hc2 : c1 ≤ c2)
    (h1 : ∀ v, fvNew c c1 v = false → τ₁ v = σ v)
    (h2 : ∀ v, fvNew c1 c2 v = false → τ₂ v = τ₁ v) :
    ∀ v, fvNew c c2 v = false → τ₂ v = σ v := by
  intro v hv
  cases v with
  | var i w => rw [h2 (FilterVar.var i w) rfl, h1 (FilterVar.var i w) rfl]
  | aux i =>
    simp only [fvNew, decide_eq_false_iff_not] at hv ⊢
    rw [h2 (.aux i) (by simp only [fvNew, decide_eq_false_iff_not]; omega),
      h1 (.aux i) (by simp only [fvNew, decide_eq_false_iff_not]; omega)]

/-- Update an assignment at one auxiliary id. -/
def updAux (τ : FilterVar → Bool) (k : Nat) (val : Bool) :
    FilterVar → Bool :=
  fun v => if v = .aux k then val else τ v

theorem updAux_agree {τ : FilterVar → Bool} {k : Nat} {val : Bool} :
    ∀ v, fvNew k (k + 1) v = false → updAux τ k val v = τ v := by
  intro v hv
  cases v with
  | var i w => simp [updAux]
  | aux i =>
    simp only [fvNew, decide_eq_false_iff_not] at hv
    have hik : i ≠ k := by omega
    simp [updAux, hik]

end Fgr

namespace Fgr

theorem evalNnf_orSet (σ : FilterVar → Bool) (l : List Nnf) :
    evalNnf σ (Nnf.orSet l) = evalAny σ l := by
  simp only [Nnf.orSet, evalNnf]
  exact evalAny_setOfList

theorem evalNnf_andSet (σ : FilterVar → Bool) (l : List Nnf) :
    evalNnf σ (Nnf.andSet l) = evalAll σ l := by
  simp only [Nnf.andSet, evalNnf]
  exact evalAll_setOfList

theorem auxBelow_orSet {k : Nat} {l : List Nnf} :
    auxBelow k (Nnf.orSet l) = true ↔ ∀ x ∈ l, auxBelow k x = true := by
  simp only [Nnf.orSet, auxBelow, auxBelowList_iff]
  constructor <;> intro h x hx
  · exact h x (mem_setOfList.mpr hx)
  · exact h x (mem_setOfList.mp hx)

theorem auxBelow_andSet {k : Nat} {l : List Nnf} :
    auxBelow k (Nnf.andSet l) = true ↔ ∀ x ∈ l, auxBelow k x = true := by
  simp only [Nnf.andSet, auxBelow, auxBelowList_iff]
  constructor <;> intro h x hx
  · exact h x (mem_setOfList.mpr hx)
  · exact h x (mem_setOfList.mp hx)

theorem wfList_iff {l : List Nnf} :
    wfList l = true ↔ ∀ x ∈ l, wfNnf x = true := by
  induction l with
  | nil => simp [wfList]
  | cons x xs ih => simp [wfList, ih]

theorem wf_orSet {l : List Nnf} (h : ∀ x ∈ l, wfNnf x = true) :
    wfNnf (Nnf.orSet l) = true := by
  simp only [Nnf.orSet, wfNnf, Bool.and_eq_true]
  refine ⟨chainSorted_iff.mpr (setOfList_pairwise l), wfList_iff.mpr ?_⟩
  intro x hx
  exact h x (mem_setOfList.mp hx)

theorem wf_andSet {l : List Nnf} (h : ∀ x ∈ l, wfNnf x = true) :
    wfNnf (Nnf.andSet l) = true := by
  simp only [Nnf.andSet, wfNnf, Bool.and_eq_true]
  refine ⟨chainSorted_iff.mpr (setOfList_pairwise l), wfList_iff.mpr ?_⟩
  intro x hx
  exact h x (mem_setOfList.mp hx)

theorem wf_lit {v : FilterVar} {b : Bool} : wfNnf (.var v b) = true := rfl

theorem hasInvSet_isSome {l : List Nnf} (h : ∀ x ∈ l, isLit x = true) :
    ∃ b, hasInvAux (setOfList l) (setOfList l) = some b :=
  hasInvAux_isSome (fun x hx => h x (mem_setOfList.mp hx))

theorem hasInvSet_true {l : List Nnf}
    (h : hasInvAux (setOfList l) (setOfList l) = some true) :
    ∃ v p, (Nnf.var v p) ∈ l ∧ (Nnf.var v (!p)) ∈ l := by
  obtain ⟨v, p, h1, h2⟩ := hasInvAux_true h
  exact ⟨v, p, mem_setOfList.mp h1, mem_setOfList.mp h2⟩

theorem hasInvSet_false {l : List Nnf}
    (h : hasInvAux (setOfList l) (setOfList l) = some false) :
    ∀ v p, (Nnf.var v p) ∈ l → (Nnf.var v (!p)) ∉ l := by
  intro v p h1 h2
  exact hasInvAux_false h v p (mem_setOfList.mpr h1) (mem_setOfList.mpr h2)

theorem isClause_orSet' {l : List Nnf}
    (hlit : ∀ x ∈ l, isLit x = true)
    (hinv : ∀ v p, (Nnf.var v p) ∈ l → (Nnf.var v (!p)) ∉ l) :
    isClause (Nnf.orSet l) = true := by
  simp only [Nnf.orSet, isClause]
  have hlit' : ∀ x ∈ setOfList l, isLit x = true :=
    fun x hx => hlit x (mem_setOfList.mp hx)
  have hnd : (setOfList l).Nodup := sortedLt_nodup (setOfList_pairwise l)
  have hinv' : ∀ v p, (Nnf.var v p) ∈ setOfList l →
      (Nnf.var v (!p)) ∉ setOfList l := by
    intro v p h1 h2
    exact hinv v p (mem_setOfList.mp h1) (mem_setOfList.mp h2)
  exact isSimpleAux_of_nodup hlit'
    (names_nodup_of_noinv hlit' hnd hinv') (by simp)

theorem evalAll_false_of_inv {σ : FilterVar → Bool} {cs : List Nnf}
    {v : FilterVar} {p : Bool} (h1 : (Nnf.var v p) ∈ cs)
    (h2 : (Nnf.var v (!p)) ∈ cs) : evalAll σ cs = false := by
  cases hev : evalAll σ cs with
  | false => rfl
  | true =>
    have hall := evalAll_iff.mp hev
    have e1 := hall _ h1
    have e2 := hall _ h2
    simp only [evalNnf] at e1 e2
    cases hσ : σ v <;> cases p <;> rw [hσ] at e1 e2 <;> simp_all

theorem evalAny_true_of_inv {σ : FilterVar → Bool} {cs : List Nnf}
    {v : FilterVar} {p : Bool} (h1 : (Nnf.var v p) ∈ cs)
    (h2 : (Nnf.var v (!p)) ∈ cs) : evalAny σ cs = true := by
  cases hσ : σ v
  · cases hp : p
    · subst hp; exact evalAny_iff.mpr ⟨_, h1, by simp [evalNnf, hσ]⟩
    · subst hp; exact evalAny_iff.mpr ⟨_, h2, by simp [evalNnf, hσ]⟩
  · cases hp : p
    · subst hp; exact evalAny_iff.mpr ⟨_, h2, by simp [evalNnf, hσ]⟩
    · subst hp; exact evalAny_iff.mpr ⟨_, h1, by simp [evalNnf, hσ]⟩

end Fgr

namespace Fgr

theorem forall₂_mem_right {α β : Type} {R : α → β → Prop} :
    ∀ {l1 : List α} {l2 : List β}, List.Forall₂ R l1 l2 →
    ∀ {y}, y ∈ l2 → ∃ x ∈ l1, R x y := by
  intro l1 l2 h
  induction h with
  | nil => intro y hy; cases hy
  | cons hR hrest ih =>
    intro y hy
    rcases List.mem_cons.mp hy with rfl | hy
    · exact ⟨_, by simp, hR⟩
    · obtain ⟨x, hx, hxy⟩ := ih hy
      exact ⟨x, by simp [hx], hxy⟩

theorem forall₂_mem_left {α β : Type} {R : α → β → Prop} :
    ∀ {l1 : List α} {l2 : List β}, List.Forall₂ R l1 l2 →
    ∀ {x}, x ∈ l1 → ∃ y ∈ l2, R x y := by
  intro l1 l2 h
  induction h with
  | nil => intro x hx; cases hx
  | cons hR hrest ih =>
    intro x hx
    rcases List.mem_cons.mp hx with rfl | hx
    · exact ⟨_, by simp, hR⟩
    · obtain ⟨y, hy, hxy⟩ := ih hx
      exact ⟨y, by simp [hy], hxy⟩

theorem evalAll_false_iff {σ : FilterVar → Bool} {l : List Nnf} :
    evalAll σ l = false ↔ ∃ x ∈ l, evalNnf σ x = false := by
  rw [← Bool.not_eq_true, evalAll_iff]
  push_neg
  simp only [Bool.not_eq_true]

theorem evalAny_false_iff {σ : FilterVar → Bool} {l : List Nnf} :
    evalAny σ l = false ↔ ∀ x ∈ l, evalNnf σ x = false := by
  rw [← Bool.not_eq_true, evalAny_iff]
  push_neg
  simp only [Bool.not_eq_true]

theorem updAux_eval_below {τ : FilterVar → Bool} {c : Nat} {val : Bool}
    {x : Nnf} (h : auxBelow c x = true) :
    evalNnf (updAux τ c val) x = evalNnf τ x := by
  refine evalNnf_congr ?_ h
  intro v hv
  cases v with
  | var i w => simp [updAux]
  | aux i =>
    simp only [fvBelow, decide_eq_true_eq] at hv
    have : i ≠ c := by omega
    simp [updAux, this]

theorem updAux_evalAll_below {τ : FilterVar → Bool} {c : Nat} {val : Bool}
    {l : List Nnf} (h : ∀ x ∈ l, auxBelow c x = true) :
    evalAll (updAux τ c val) l = evalAll τ l := by
  refine evalAll_congr_assign ?_ (auxBelowList_iff.mpr h)
  intro v hv
  cases v with
  | var i w => simp [updAux]
  | aux i =>
    simp only [fvBelow, decide_eq_true_eq] at hv
    have : i ≠ c := by omega
    simp [updAux, this]

theorem updAux_evalAny_below {τ : FilterVar → Bool} {c : Nat} {val : Bool}
    {l : List Nnf} (h : ∀ x ∈ l, auxBelow c x = true) :
    evalAny (updAux τ c val) l = evalAny τ l := by
  refine evalAny_congr_assign ?_ (auxBelowList_iff.mpr h)
  intro v hv
  cases v with
  | var i w => simp [updAux]
  | aux i =>
    simp only [fvBelow, decide_eq_true_eq] at hv
    have : i ≠ c := by omega
    simp [updAux, this]

theorem updAux_self {τ : FilterVar → Bool} {c : Nat} {val : Bool} :
    updAux τ c val (.aux c) = val := by
  simp [updAux]

theorem mem_andBinaries {c : Nat} {children : List Nnf} :
    ∀ {acc : List Nnf} {C : Nnf}, C ∈ andBinaries c children acc ↔
      C ∈ acc ∨ ∃ child ∈ children,
        C = Nnf.orSet [.var (.aux c) false, child] := by
  induction children with
  | nil => intro acc C; simp [andBinaries]
  | cons x xs ih =>
    intro acc C
    simp only [andBinaries, List.foldl_cons] at *
    rw [ih]
    simp only [mem_insertSorted, List.mem_cons]
    constructor
    · rintro ((rfl | hC) | ⟨child, hc, rfl⟩)
      · exact Or.inr ⟨x, Or.inl rfl, rfl⟩
      · exact Or.inl hC
      · exact Or.inr ⟨child, Or.inr hc, rfl⟩
    · rintro (hC | ⟨child, (rfl | hc), rfl⟩)
      · exact Or.inl (Or.inr hC)
      · exact Or.inl (Or.inl rfl)
      · exact Or.inr ⟨child, hc, rfl⟩

theorem andBinaries_sorted {c : Nat} {children : List Nnf} :
    ∀ {acc : List Nnf}, SortedLt acc → SortedLt (andBinaries c children acc) := by
  induction children with
  | nil => intro acc h; simpa [andBinaries] using h
  | cons x xs ih =>
    intro acc h
    simp only [andBinaries, List.foldl_cons] at *
    exact ih (insertSorted_pairwise h)

theorem orBinaries_isSome {c : Nat} {children : List Nnf}
    (hlit : ∀ x ∈ children, isLit x = true) :
    ∀ {acc : List Nnf}, ∃ out, orBinaries c children acc = some out := by
  induction children with
  | nil => intro acc; exact ⟨acc, rfl⟩
  | cons x xs ih =>
    intro acc
    cases x with
    | var v b =>
      simp only [orBinaries, negLitM]
      exact ih (fun y hy => hlit y (by simp [hy]))
    | and cs =>
      have := hlit (Nnf.and cs) (by simp)
      simp [isLit] at this
    | or cs =>
      have := hlit (Nnf.or cs) (by simp)
      simp [isLit] at this

theorem mem_orBinaries {c : Nat} {children : List Nnf} :
    ∀ {acc out : List Nnf}, orBinaries c children acc = some out →
    ∀ C, C ∈ out ↔ C ∈ acc ∨ ∃ child nc, child ∈ children ∧
      negLitM child = some nc ∧ C = Nnf.orSet [nc, .var (.aux c) true] := by
  induction children with
  | nil =>
    intro acc out h C
    simp only [orBinaries, Option.some.injEq] at h
    subst h
    simp
  | cons x xs ih =>
    intro acc out h C
    cases hx : negLitM x with
    | none => simp [orBinaries, hx] at h
    | some nx =>
      simp only [orBinaries, hx] at h
      rw [ih h]
      simp only [mem_insertSorted, List.mem_cons]
      constructor
      · rintro ((rfl | hC) | ⟨child, nc, hc, hnc, rfl⟩)
        · exact Or.inr ⟨x, nx, Or.inl rfl, hx, rfl⟩
        · exact Or.inl hC
        · exact Or.inr ⟨child, nc, Or.inr hc, hnc, rfl⟩
      · rintro (hC | ⟨child, nc, (rfl | hc), hnc, rfl⟩)
        · exact Or.inl (Or.inr hC)
        · rw [hnc] at hx
          cases hx
          exact Or.inl (Or.inl rfl)
        · exact Or.inr ⟨child, nc, hc, hnc, rfl⟩

theorem orBinaries_sorted {c : Nat} {children : List Nnf} :
    ∀ {acc out : List Nnf}, orBinaries c children acc = some out →
    SortedLt acc → SortedLt out := by
  induction children with
  | nil =>
    intro acc out h hs
    simp only [orBinaries, Option.some.injEq] at h
    subst h
    exact hs
  | cons x xs ih =>
    intro acc out h hs
    cases hx : negLitM x with
    | none => simp [orBinaries, hx] at h
    | some nx =>
      simp only [orBinaries, hx] at h
      exact ih h (insertSorted_pairwise hs)

end Fgr

namespace Fgr

theorem wf_lit_of_isLit {x : Nnf} (h : isLit x = true) : wfNnf x = true := by
  cases x with
  | var v b => rfl
  | and l => simp [isLit] at h
  | or l => simp [isLit] at h

theorem isClause_unit {v : FilterVar} {b : Bool} :
    isClause (Nnf.orSet [.var v b]) = true := by
  refine isClause_orSet' (by simp [isLit]) ?_
  intro w p h1 h2
  simp only [List.mem_singleton, Nnf.var.injEq] at h1 h2
  obtain ⟨rfl, rfl⟩ := h1
  cases p <;> simp_all

theorem auxBelow_unit {c k : Nat} {b : Bool} (h : c < k) :
    auxBelow k (Nnf.orSet [.var (.aux c) b]) = true := by
  rw [auxBelow_orSet]
  intro x hx
  simp only [List.mem_singleton] at hx
  subst hx
  simp only [auxBelow, fvBelow, decide_eq_true_eq]
  omega

theorem evalNnf_orSet_unit {σ : FilterVar → Bool} {x : Nnf} :
    evalNnf σ (Nnf.orSet [x]) = evalNnf σ x := by
  rw [evalNnf_orSet]
  simp [evalAny]

theorem evalNnf_orSet_pair {σ : FilterVar → Bool} {x y : Nnf} :
    evalNnf σ (Nnf.orSet [x, y]) = (evalNnf σ x || evalNnf σ y) := by
  rw [evalNnf_orSet]
  simp [evalAny]

theorem finishNode_and_spec {cs : List Nnf} {c : Nat} {cl : List Nnf}
    (hlit : ∀ x ∈ cs, isLit x = true) :
    ∃ cl', finishNode (.and cs) c cl = some (.var (.aux c) true, c + 1, cl') ∧
    (∀ C ∈ cl, C ∈ cl') ∧
    (SortedLt cl → SortedLt cl') ∧
    ((∀ x ∈ cs, auxBelow c x = true) →
      ∀ C ∈ cl', C ∈ cl ∨
        (isClause C = true ∧ wfNnf C = true ∧ auxBelow (c + 1) C = true)) ∧
    (∀ τ : FilterVar → Bool, (∀ C ∈ cl', evalNnf τ C = true) →
      (τ (.aux c) == true) = evalAll τ cs) ∧
    ((∀ x ∈ cs, auxBelow c x = true) →
      ∀ (τ : FilterVar → Bool) C, C ∈ cl' →
        C ∈ cl ∨ evalNnf (updAux τ c (evalAll τ cs)) C = true) := by
  obtain ⟨binv, hbinv⟩ := @hasInvAux_isSome cs cs hlit
  cases binv with
  | true =>
    obtain ⟨v, p, hp1, hp2⟩ := hasInvAux_true hbinv
    refine ⟨insertSorted (Nnf.orSet [.var (.aux c) false]) cl, ?_, ?_, ?_,
      ?_, ?_, ?_⟩
    · simp [finishNode, hasInversions, hbinv]
    · intro C hC
      exact mem_insertSorted.mpr (Or.inr hC)
    · exact insertSorted_pairwise
    · intro _ C hC
      rcases mem_insertSorted.mp hC with rfl | hC
      · exact Or.inr ⟨isClause_unit, wf_orSet (by simp [wfNnf]),
          auxBelow_unit (by omega)⟩
      · exact Or.inl hC
    · intro τ hτ
      have hunit := hτ _ (mem_insertSorted.mpr (Or.inl rfl))
      rw [evalNnf_orSet_unit] at hunit
      simp only [evalNnf] at hunit
      have hfa : τ (.aux c) = false := by
        cases h : τ (.aux c) <;> rw [h] at hunit <;> simp_all
      rw [hfa, evalAll_false_of_inv hp1 hp2]
      rfl
    · intro _ τ C hC
      rcases mem_insertSorted.mp hC with rfl | hC
      · refine Or.inr ?_
        rw [evalNnf_orSet_unit]
        simp only [evalNnf, updAux_self, evalAll_false_of_inv hp1 hp2]
        rfl
      · exact Or.inl hC
  | false =>
    obtain ⟨negs, hnegs⟩ := mapNegLits_isSome hlit
    have hf2 := mapNegLits_forall₂ hnegs
    have hnoinv := hasInvAux_false hbinv
    have hneglit : ∀ nx ∈ negs, isLit nx = true := by
      intro nx hnx
      obtain ⟨x, _, hx⟩ := forall₂_mem_right hf2 hnx
      obtain ⟨w, b, _, rfl⟩ := negLitM_lit hx
      rfl
    refine ⟨andBinaries c cs
      (insertSorted (Nnf.orSet (negs ++ [.var (.aux c) true])) cl),
      ?_, ?_, ?_, ?_, ?_, ?_⟩
    · simp [finishNode, hasInversions, hbinv, hnegs]
    · intro C hC
      exact mem_andBinaries.mpr
        (Or.inl (mem_insertSorted.mpr (Or.inr hC)))
    · intro hs
      exact andBinaries_sorted (insertSorted_pairwise hs)
    · intro haux C hC
      have hnegbelow : ∀ nx ∈ negs, auxBelow c nx = true := by
        intro nx hnx
        obtain ⟨x, hxcs, hx⟩ := forall₂_mem_right hf2 hnx
        obtain ⟨w, b, rfl, rfl⟩ := negLitM_lit hx
        have := haux _ hxcs
        simpa [auxBelow] using this
      rcases mem_andBinaries.mp hC with hC | ⟨child, hchild, rfl⟩
      · rcases mem_insertSorted.mp hC with rfl | hC
        · refine Or.inr ⟨?_, ?_, ?_⟩
          · refine isClause_orSet' ?_ ?_
            · intro x hx
              rcases List.mem_append.mp hx with hx | hx
              · exact hneglit x hx
              · simp only [List.mem_singleton] at hx
                subst hx
                rfl
            · intro w q h1 h2
              rcases List.mem_append.mp h1 with h1 | h1 <;>
                rcases List.mem_append.mp h2 with h2 | h2
              · obtain ⟨x1, hx1, hnx1⟩ := forall₂_mem_right hf2 h1
                obtain ⟨x2, hx2, hnx2⟩ := forall₂_mem_right hf2 h2
                obtain ⟨w1, b1, rfl, he1⟩ := negLitM_lit hnx1
                obtain ⟨w2, b2, rfl, he2⟩ := negLitM_lit hnx2
                simp only [Nnf.var.injEq] at he1 he2
                obtain ⟨rfl, hb1⟩ := he1
                obtain ⟨rfl, hb2⟩ := he2
                have hb : b2 = !b1 := by
                  cases b1 <;> cases b2 <;> simp_all
                rw [hb] at hx2
                exact hnoinv _ _ hx1 hx2
              · simp only [List.mem_singleton, Nnf.var.injEq] at h2
                obtain ⟨rfl, hq⟩ := h2
                obtain ⟨x1, hx1, hnx1⟩ := forall₂_mem_right hf2 h1
                obtain ⟨w1, b1, rfl, he1⟩ := negLitM_lit hnx1
                simp only [Nnf.var.injEq] at he1
                obtain ⟨rfl, _⟩ := he1
                have := haux _ hx1
                simp [auxBelow, fvBelow] at this
              · simp only [List.mem_singleton, Nnf.var.injEq] at h1
                obtain ⟨rfl, hq⟩ := h1
                obtain ⟨x2, hx2, hnx2⟩ := forall₂_mem_right hf2 h2
                obtain ⟨w2, b2, rfl, he2⟩ := negLitM_lit hnx2
                simp only [Nnf.var.injEq] at he2
                obtain ⟨rfl, _⟩ := he2
                have := haux _ hx2
                simp [auxBelow, fvBelow] at this
              · simp only [List.mem_singleton, Nnf.var.injEq] at h1 h2
                obtain ⟨_, hq1⟩ := h1
                obtain ⟨_, hq2⟩ := h2
                cases q <;> simp_all
          · refine wf_orSet ?_
            intro x hx
            rcases List.mem_append.mp hx with hx | hx
            · obtain ⟨x1, _, hnx1⟩ := forall₂_mem_right hf2 hx
              obtain ⟨w1, b1, rfl, rfl⟩ := negLitM_lit hnx1
              rfl
            · simp only [List.mem_singleton] at hx
              subst hx
              rfl
          · rw [auxBelow_orSet]
            intro x hx
            rcases List.mem_append.mp hx with hx | hx
            · exact auxBelow_mono (by omega) (hnegbelow x hx)
            · simp only [List.mem_singleton] at hx
              subst hx
              simp only [auxBelow, fvBelow, decide_eq_true_eq]
              omega
        · exact Or.inl hC
      · refine Or.inr ⟨?_, ?_, ?_⟩
        · refine isClause_orSet' ?_ ?_
          · intro x hx
            rcases List.mem_cons.mp hx with rfl | hx
            · rfl
            · simp only [List.mem_singleton] at hx
              subst hx
              exact hlit _ hchild
          · intro w q h1 h2
            have hch := haux _ hchild
            rcases List.mem_cons.mp h1 with he1 | h1 <;>
              rcases List.mem_cons.mp h2 with he2 | h2
            · injection he1 with hw hq
              injection he2 with hw2 hq2
              subst hq
              simp at hq2
            · simp only [List.mem_singleton] at h2
              injection he1 with hw hq
              subst hw
              rw [← h2] at hch
              simp [auxBelow, fvBelow] at hch
            · simp only [List.mem_singleton] at h1
              injection he2 with hw hq
              subst hw
              rw [← h1] at hch
              simp [auxBelow, fvBelow] at hch
            · simp only [List.mem_singleton] at h1 h2
              rw [← h1] at h2
              simp only [Nnf.var.injEq] at h2
              cases q <;> simp_all
        · refine wf_orSet ?_
          intro x hx
          rcases List.mem_cons.mp hx with rfl | hx
          · rfl
          · simp only [List.mem_singleton] at hx
            subst hx
            exact wf_lit_of_isLit (hlit _ hchild)
        · rw [auxBelow_orSet]
          intro x hx
          rcases List.mem_cons.mp hx with rfl | hx
          · simp only [auxBelow, fvBelow, decide_eq_true_eq]
            omega
          · simp only [List.mem_singleton] at hx
            subst hx
            exact auxBelow_mono (by omega) (haux _ hchild)
    · intro τ hτ
      have hbig := hτ _ (mem_andBinaries.mpr
        (Or.inl (mem_insertSorted.mpr (Or.inl rfl))))
      have hbin : ∀ child ∈ cs,
          evalNnf τ (Nnf.orSet [.var (.aux c) false, child]) = true := by
        intro child hc
        exact hτ _ (mem_andBinaries.mpr (Or.inr ⟨child, hc, rfl⟩))
      cases ha : τ (.aux c) with
      | true =>
        have : evalAll τ cs = true := by
          rw [evalAll_iff]
          intro child hc
          have := hbin child hc
          rw [evalNnf_orSet_pair] at this
          simp only [evalNnf, ha] at this
          simpa using this
        rw [this]
        rfl
      | false =>
        have : evalAll τ cs = false := by
          rw [evalNnf_orSet] at hbig
          obtain ⟨x, hx, hxe⟩ := evalAny_iff.mp hbig
          rcases List.mem_append.mp hx with hx | hx
          · obtain ⟨x1, hx1, hnx1⟩ := forall₂_mem_right hf2 hx
            rw [evalAll_false_iff]
            refine ⟨x1, hx1, ?_⟩
            have := evalNnf_negLit τ hnx1
            rw [hxe] at this
            cases h : evalNnf τ x1
            · rfl
            · rw [h] at this; cases this
          · simp only [List.mem_singleton] at hx
            subst hx
            simp only [evalNnf, ha] at hxe
            cases hxe
        rw [this]
        rfl
    · intro haux τ C hC
      have hnegbelow : ∀ nx ∈ negs, auxBelow c nx = true := by
        intro nx hnx
        obtain ⟨x, hxcs, hx⟩ := forall₂_mem_right hf2 hnx
        obtain ⟨w, b, rfl, rfl⟩ := negLitM_lit hx
        have := haux _ hxcs
        simpa [auxBelow] using this
      rcases mem_andBinaries.mp hC with hC | ⟨child, hchild, rfl⟩
      · rcases mem_insertSorted.mp hC with rfl | hC
        · refine Or.inr ?_
          rw [evalNnf_orSet, evalAny_iff]
          cases hval : evalAll τ cs with
          | true =>
            refine ⟨.var (.aux c) true, by simp, ?_⟩
            simp [evalNnf, updAux_self, hval]
          | false =>
            obtain ⟨x, hxcs, hxe⟩ := evalAll_false_iff.mp hval
            obtain ⟨nx, hnx, hnegx⟩ := forall₂_mem_left hf2 hxcs
            refine ⟨nx, by simp [hnx], ?_⟩
            obtain ⟨w, b, rfl, rfl⟩ := negLitM_lit hnegx
            have hb : auxBelow c (Nnf.var w !b) = true := by
              have := haux _ hxcs
              simpa [auxBelow] using this
            rw [updAux_eval_below hb]
            simp only [evalNnf] at hxe ⊢
            cases h : τ w <;> cases b <;> simp_all
        · exact Or.inl hC
      · refine Or.inr ?_
        rw [evalNnf_orSet_pair]
        cases hval : evalAll τ cs with
        | true =>
          have := evalAll_iff.mp hval _ hchild
          rw [updAux_eval_below (haux _ hchild), this]
          simp
        | false =>
          simp [evalNnf, updAux_self, hval]
end Fgr

namespace Fgr

theorem finishNode_or_spec {cs : List Nnf} {c : Nat} {cl : List Nnf}
    (hlit : ∀ x ∈ cs, isLit x = true) :
    ∃ cl', finishNode (.or cs) c cl = some (.var (.aux c) true, c + 1, cl') ∧
    (∀ C ∈ cl, C ∈ cl') ∧
    (SortedLt cl → SortedLt cl') ∧
    ((∀ x ∈ cs, auxBelow c x = true) →
      ∀ C ∈ cl', C ∈ cl ∨
        (isClause C = true ∧ wfNnf C = true ∧ auxBelow (c + 1) C = true)) ∧
    (∀ τ : FilterVar → Bool, (∀ C ∈ cl', evalNnf τ C = true) →
      (τ (.aux c) == true) = evalAny τ cs) ∧
    ((∀ x ∈ cs, auxBelow c x = true) →
      ∀ (τ : FilterVar → Bool) C, C ∈ cl' →
        C ∈ cl ∨ evalNnf (updAux τ c (evalAny τ cs)) C = true) := by
  obtain ⟨binv, hbinv⟩ := @hasInvAux_isSome cs cs hlit
  cases binv with
  | true =>
    obtain ⟨v, p, hp1, hp2⟩ := hasInvAux_true hbinv
    refine ⟨insertSorted (Nnf.orSet [.var (.aux c) true]) cl, ?_, ?_, ?_,
      ?_, ?_, ?_⟩
    · simp [finishNode, hasInversions, hbinv]
    · intro C hC
      exact mem_insertSorted.mpr (Or.inr hC)
    · exact insertSorted_pairwise
    · intro _ C hC
      rcases mem_insertSorted.mp hC with rfl | hC
      · exact Or.inr ⟨isClause_unit, wf_orSet (by simp [wfNnf]),
          auxBelow_unit (by omega)⟩
      · exact Or.inl hC
    · intro τ hτ
      have hunit := hτ _ (mem_insertSorted.mpr (Or.inl rfl))
      rw [evalNnf_orSet_unit] at hunit
      simp only [evalNnf] at hunit
      have hfa : τ (.aux c) = true := by
        cases h : τ (.aux c) <;> rw [h] at hunit <;> simp_all
      rw [hfa, evalAny_true_of_inv hp1 hp2]
      have h2 : evalNnf τ (Nnf.var v p) = evalNnf τ (Nnf.var v p) := rfl
      rfl
    · intro _ τ C hC
      rcases mem_insertSorted.mp hC with rfl | hC
      · refine Or.inr ?_
        rw [evalNnf_orSet_unit]
        simp only [evalNnf, updAux_self, evalAny_true_of_inv hp1 hp2]
        rfl
      · exact Or.inl hC
  | false =>
    have hnoinv := hasInvAux_false hbinv
    obtain ⟨cl', hbo⟩ := @orBinaries_isSome c cs hlit
      (insertSorted (Nnf.orSet (cs ++ [.var (.aux c) false])) cl)
    have hmem := mem_orBinaries hbo
    refine ⟨cl', ?_, ?_, ?_, ?_, ?_, ?_⟩
    · simp [finishNode, hasInversions, hbinv, hbo]
    · intro C hC
      exact (hmem C).mpr (Or.inl (mem_insertSorted.mpr (Or.inr hC)))
    · intro hs
      exact orBinaries_sorted hbo (insertSorted_pairwise hs)
    · intro haux C hC
      rcases (hmem C).mp hC with hC | ⟨child, nc, hchild, hnc, rfl⟩
      · rcases mem_insertSorted.mp hC with rfl | hC
        · refine Or.inr ⟨?_, ?_, ?_⟩
          · refine isClause_orSet' ?_ ?_
            · intro x hx
              rcases List.mem_append.mp hx with hx | hx
              · exact hlit x hx
              · simp only [List.mem_singleton] at hx
                subst hx
                rfl
            · intro w q h1 h2
              rcases List.mem_append.mp h1 with h1 | h1 <;>
                rcases List.mem_append.mp h2 with h2 | h2
              · exact hnoinv _ _ h1 h2
              · simp only [List.mem_singleton, Nnf.var.injEq] at h2
                obtain ⟨rfl, _⟩ := h2
                have := haux _ h1
                simp [auxBelow, fvBelow] at this
              · simp only [List.mem_singleton, Nnf.var.injEq] at h1
                obtain ⟨rfl, _⟩ := h1
                have := haux _ h2
                simp [auxBelow, fvBelow] at this
              · simp only [List.mem_singleton, Nnf.var.injEq] at h1 h2
                obtain ⟨-, hq1⟩ := h1
                obtain ⟨-, hq2⟩ := h2
                cases q <;> simp_all
          · refine wf_orSet ?_
            intro x hx
            rcases List.mem_append.mp hx with hx | hx
            · exact wf_lit_of_isLit (hlit _ hx)
            · simp only [List.mem_singleton] at hx
              subst hx
              rfl
          · rw [auxBelow_orSet]
            intro x hx
            rcases List.mem_append.mp hx with hx | hx
            · exact auxBelow_mono (by omega) (haux _ hx)
            · simp only [List.mem_singleton] at hx
              subst hx
              simp only [auxBelow, fvBelow, decide_eq_true_eq]
              omega
        · exact Or.inl hC
      · obtain ⟨w, b, rfl, rfl⟩ := negLitM_lit hnc
        refine Or.inr ⟨?_, ?_, ?_⟩
        · refine isClause_orSet' ?_ ?_
          · intro x hx
            rcases List.mem_cons.mp hx with rfl | hx
            · rfl
            · simp only [List.mem_singleton] at hx
              subst hx
              rfl
          · intro u q h1 h2
            have hch := haux _ hchild
            simp only [List.mem_cons, List.mem_singleton,
              List.not_mem_nil, or_false] at h1 h2
            rcases h1 with h1 | h1 <;> rcases h2 with h2 | h2
            · injection h1 with e1 e2
              injection h2 with e3 e4
              cases b <;> simp_all
            · injection h1 with e1 e2
              injection h2 with e3 e4
              subst e1
              rw [e3] at hch
              simp [auxBelow, fvBelow] at hch
            · injection h1 with e1 e2
              injection h2 with e3 e4
              subst e3
              rw [e1] at hch
              simp [auxBelow, fvBelow] at hch
            · injection h1 with e1 e2
              injection h2 with e3 e4
              cases q <;> simp_all
        · refine wf_orSet ?_
          intro x hx
          rcases List.mem_cons.mp hx with rfl | hx
          · rfl
          · simp only [List.mem_singleton] at hx
            subst hx
            rfl
        · rw [auxBelow_orSet]
          intro x hx
          rcases List.mem_cons.mp hx with rfl | hx
          · have h0 := haux _ hchild
            have h1 := auxBelow_mono (show c ≤ c + 1 by omega) h0
            simpa [auxBelow] using h1
          · simp only [List.mem_singleton] at hx
            subst hx
            simp only [auxBelow, fvBelow, decide_eq_true_eq]
            omega
    · intro τ hτ
      have hbig := hτ _ ((hmem _).mpr
        (Or.inl (mem_insertSorted.mpr (Or.inl rfl))))
      have hbin : ∀ child ∈ cs, ∀ nc, negLitM child = some nc →
          evalNnf τ (Nnf.orSet [nc, .var (.aux c) true]) = true := by
        intro child hc nc hnc
        exact hτ _ ((hmem _).mpr (Or.inr ⟨child, nc, hc, hnc, rfl⟩))
      cases ha : τ (.aux c) with
      | false =>
        have : evalAny τ cs = false := by
          rw [evalAny_false_iff]
          intro x hx
          obtain ⟨w, b, rfl⟩ : ∃ w b, x = Nnf.var w b := by
            have := hlit _ hx
            cases x with
            | var w b => exact ⟨w, b, rfl⟩
            | and l => simp [isLit] at this
            | or l => simp [isLit] at this
          have hb := hbin _ hx (Nnf.var w (!b)) rfl
          rw [evalNnf_orSet_pair] at hb
          simp only [evalNnf, ha] at hb
          have : (τ w == !b) = true := by simpa using hb
          simp only [evalNnf]
          cases hw : τ w <;> cases b <;> simp_all
        rw [this]
        rfl
      | true =>
        have : evalAny τ cs = true := by
          rw [evalNnf_orSet] at hbig
          obtain ⟨x, hx, hxe⟩ := evalAny_iff.mp hbig
          rcases List.mem_append.mp hx with hx | hx
          · exact evalAny_iff.mpr ⟨x, hx, hxe⟩
          · simp only [List.mem_singleton] at hx
            subst hx
            simp only [evalNnf, ha] at hxe
            cases hxe
        rw [this]
        rfl
    · intro haux τ C hC
      rcases (hmem C).mp hC with hC | ⟨child, nc, hchild, hnc, rfl⟩
      · rcases mem_insertSorted.mp hC with rfl | hC
        · refine Or.inr ?_
          rw [evalNnf_orSet, evalAny_iff]
          cases hval : evalAny τ cs with
          | false =>
            refine ⟨.var (.aux c) false, by simp, ?_⟩
            simp [evalNnf, updAux_self, hval]
          | true =>
            obtain ⟨x, hxcs, hxe⟩ := evalAny_iff.mp hval
            refine ⟨x, by simp [hxcs], ?_⟩
            rw [updAux_eval_below (haux _ hxcs)]
            exact hxe
        · exact Or.inl hC
      · refine Or.inr ?_
        obtain ⟨w, b, rfl, rfl⟩ := negLitM_lit hnc
        rw [evalNnf_orSet_pair]
        cases hce : evalNnf τ (Nnf.var w b) with
        | true =>
          have hval : evalAny τ cs = true := evalAny_iff.mpr ⟨_, hchild, hce⟩
          simp [evalNnf, updAux_self, hval]
        | false =>
          have hb : auxBelow c (Nnf.var w !b) = true := by
            have := haux _ hchild
            simpa [auxBelow] using this
          rw [updAux_eval_below hb]
          simp only [evalNnf] at hce ⊢
          cases hw : τ w <;> cases b <;> simp_all
end Fgr

namespace Fgr

/-- Everything `processNode` guarantees about one call: counter growth, the
returned literal, clause-list monotonicity and sortedness, the shape of the
new clauses, soundness (any model of the final clause list gives the literal
the node's value) and completeness (any model of the incoming clause list
extends, on the fresh auxiliaries only, to a model of the final list in
which the literal takes the node's value). -/
def NodeSpec (n : Nnf) (c : Nat) (cl : List Nnf) : Prop :=
  ∀ lit c' cl', processNode n c cl = some (lit, c', cl') →
    auxBelow c n = true →
    (∀ C ∈ cl, auxBelow c C = true) →
    c ≤ c' ∧ isLit lit = true ∧ auxBelow c' lit = true ∧
    (∀ C ∈ cl, C ∈ cl') ∧
    (SortedLt cl → SortedLt cl') ∧
    (∀ C ∈ cl', auxBelow c' C = true) ∧
    (∀ C ∈ cl', C ∈ cl ∨ (isClause C = true ∧ wfNnf C = true)) ∧
    (∀ τ : FilterVar → Bool, (∀ C ∈ cl', evalNnf τ C = true) →
      evalNnf τ lit = evalNnf τ n) ∧
    (∀ τ : FilterVar → Bool, (∀ C ∈ cl, evalNnf τ C = true) →
      ∃ τ' : FilterVar → Bool,
        (∀ v, fvNew c c' v = false → τ' v = τ v) ∧
        (∀ C ∈ cl', evalNnf τ' C = true) ∧
        evalNnf τ' lit = evalNnf τ n)

/-- The same guarantees for `processList` over a whole children list, with
the produced literals matched pointwise to the children. -/
def ListSpec (xs : List Nnf) (c : Nat) (cl : List Nnf) : Prop :=
  ∀ ls c' cl', processList xs c cl = some (ls, c', cl') →
    (∀ x ∈ xs, auxBelow c x = true) →
    (∀ C ∈ cl, auxBelow c C = true) →
    c ≤ c' ∧ (∀ l ∈ ls, isLit l = true ∧ auxBelow c' l = true) ∧
    (∀ C ∈ cl, C ∈ cl') ∧
    (SortedLt cl → SortedLt cl') ∧
    (∀ C ∈ cl', auxBelow c' C = true) ∧
    (∀ C ∈ cl', C ∈ cl ∨ (isClause C = true ∧ wfNnf C = true)) ∧
    (∀ τ : FilterVar → Bool, (∀ C ∈ cl', evalNnf τ C = true) →
      List.Forall₂ (fun x l => evalNnf τ l = evalNnf τ x) xs ls) ∧
    (∀ τ : FilterVar → Bool, (∀ C ∈ cl, evalNnf τ C = true) →
      ∃ τ' : FilterVar → Bool,
        (∀ v, fvNew c c' v = false → τ' v = τ v) ∧
        (∀ C ∈ cl', evalNnf τ' C = true) ∧
        List.Forall₂ (fun x l => evalNnf τ' l = evalNnf τ x) xs ls)

theorem NodeSpec_var {v : FilterVar} {b : Bool} {c : Nat} {cl : List Nnf} :
    NodeSpec (.var v b) c cl := by
  intro lit c' cl' heq hb hclb
  simp only [processNode, Option.some.injEq, Prod.mk.injEq] at heq
  obtain ⟨rfl, rfl, rfl⟩ := heq
  refine ⟨le_refl c, rfl, hb, fun C hC => hC, fun h => h, hclb,
    fun C hC => Or.inl hC, fun τ _ => rfl, fun τ hτ => ⟨τ, ?_, hτ, rfl⟩⟩
  intro u _
  rfl

theorem ListSpec_nil {c : Nat} {cl : List Nnf} : ListSpec [] c cl := by
  intro ls c' cl' heq _ hclb
  simp only [processList, Option.some.injEq, Prod.mk.injEq] at heq
  obtain ⟨rfl, rfl, rfl⟩ := heq
  refine ⟨le_refl c, by simp, fun C hC => hC, fun h => h, hclb,
    fun C hC => Or.inl hC, fun τ _ => List.Forall₂.nil,
    fun τ hτ => ⟨τ, fun u _ => rfl, hτ, List.Forall₂.nil⟩⟩

theorem NodeSpec_single_and {x : Nnf} {c : Nat} {cl : List Nnf} :
    NodeSpec (.and [x]) c cl := by
  intro lit c' cl' heq hb hclb
  rw [show processNode (Nnf.and [x]) c cl = none from by
    simp [processNode]] at heq
  cases heq

theorem NodeSpec_single_or {x : Nnf} {c : Nat} {cl : List Nnf} :
    NodeSpec (.or [x]) c cl := by
  intro lit c' cl' heq hb hclb
  rw [show processNode (Nnf.or [x]) c cl = none from by
    simp [processNode]] at heq
  cases heq
end Fgr

namespace Fgr

theorem forall₂_imp_mem {α β : Type} {R S : α → β → Prop} :
    ∀ {l1 : List α} {l2 : List β}, List.Forall₂ R l1 l2 →
    (∀ a ∈ l1, ∀ b ∈ l2, R a b → S a b) → List.Forall₂ S l1 l2 := by
  intro l1 l2 h
  induction h with
  | nil => intro _; exact List.Forall₂.nil
  | cons hR hrest ih =>
    intro himp
    refine List.Forall₂.cons (himp _ (by simp) _ (by simp) hR) ?_
    exact ih fun a ha b hb hr => himp a (by simp [ha]) b (by simp [hb]) hr

theorem ListSpec_cons_err {x : Nnf} {xs : List Nnf} {c : Nat}
    {cl : List Nnf} (heq0 : processNode x c cl = none) :
    ListSpec (x :: xs) c cl := by
  intro ls c' cl' heq
  rw [processList.eq_2, heq0] at heq
  cases heq

theorem ListSpec_cons {x : Nnf} {xs : List Nnf} {c : Nat} {cl : List Nnf}
    {lit0 : Nnf} {c1 : Nat} {cl1 : List Nnf}
    (heq0 : processNode x c cl = some (lit0, c1, cl1))
    (h1 : NodeSpec x c cl) (h2 : ListSpec xs c1 cl1) :
    ListSpec (x :: xs) c cl := by
  intro ls c' cl' heq hxb hclb
  rw [processList.eq_2, heq0] at heq
  have heq2 : (match processList xs c1 cl1 with
      | none => none
      | some (ls, c2, cl2) => some (lit0 :: ls, c2, cl2)) =
      some (ls, c', cl') := heq
  clear heq
  cases htl : processList xs c1 cl1 with
  | none => rw [htl] at heq2; cases heq2
  | some r =>
    obtain ⟨ls2, c2, cl2⟩ := r
    rw [htl] at heq2
    simp only [Option.some.injEq, Prod.mk.injEq] at heq2
    obtain ⟨rfl, rfl, rfl⟩ := heq2
    obtain ⟨n1, n2, n3, n4, n5, n6, n7, n8, n9⟩ :=
      h1 lit0 c1 cl1 heq0 (hxb x (by simp)) hclb
    obtain ⟨t1, t2, t3, t4, t5, t6, t7, t8⟩ :=
      h2 ls2 c2 cl2 htl
        (fun y hy => auxBelow_mono n1 (hxb y (by simp [hy]))) n6
    refine ⟨le_trans n1 t1, ?_, fun C hC => t3 C (n4 C hC),
      fun hs => t4 (n5 hs), t5, ?_, ?_, ?_⟩
    · intro l hl
      rcases List.mem_cons.mp hl with rfl | hl
      · exact ⟨n2, auxBelow_mono t1 n3⟩
      · exact t2 l hl
    · intro C hC
      rcases t6 C hC with hC1 | hprops
      · exact n7 C hC1
      · exact Or.inr hprops
    · intro τ hτ
      have hτ1 : ∀ C ∈ cl1, evalNnf τ C = true := fun C hC => hτ C (t3 C hC)
      exact List.Forall₂.cons (n8 τ hτ1) (t7 τ hτ)
    · intro τ hτ
      obtain ⟨τ₁, a1, m1, e1⟩ := n9 τ hτ
      obtain ⟨τ₂, a2, m2, e2⟩ := t8 τ₁ m1
      refine ⟨τ₂, agree_chain n1 t1 a1 a2, m2, ?_⟩
      refine List.Forall₂.cons ?_ ?_
      · rw [evalNnf_congr (agree_below a2) n3, e1]
      · refine forall₂_imp_mem e2 ?_
        intro a ha b _ hr
        rw [hr, evalNnf_congr (agree_below a1)
          (hxb a (by simp [ha]))]
end Fgr

namespace Fgr

theorem evalAll_forall₂ {τ σ : FilterVar → Bool} :
    ∀ {xs ls : List Nnf},
    List.Forall₂ (fun x l => evalNnf τ l = evalNnf σ x) xs ls →
    evalAll τ ls = evalAll σ xs := by
  intro xs ls h
  induction h with
  | nil => rfl
  | cons hR hrest ih => simp [evalAll, hR, ih]

theorem evalAny_forall₂ {τ σ : FilterVar → Bool} :
    ∀ {xs ls : List Nnf},
    List.Forall₂ (fun x l => evalNnf τ l = evalNnf σ x) xs ls →
    evalAny τ ls = evalAny σ xs := by
  intro xs ls h
  induction h with
  | nil => rfl
  | cons hR hrest ih => simp [evalAny, hR, ih]

theorem NodeSpec_and {xs : List Nnf} {c : Nat} {cl : List Nnf}
    (hns : ∀ y : Nnf, xs = [y] → False) (h2 : ListSpec xs c cl) :
    NodeSpec (.and xs) c cl := by
  intro lit c' cl' heq hb hclb
  rw [processNode.eq_4 c cl xs hns] at heq
  have heq2 : (match processList xs c cl with
      | none => none
      | some (ls, c1, cl1) => finishNode (Nnf.andSet ls) c1 cl1) =
      some (lit, c', cl') := heq
  clear heq
  cases hpl : processList xs c cl with
  | none => rw [hpl] at heq2; cases heq2
  | some r =>
    obtain ⟨ls, c1, cl1⟩ := r
    rw [hpl] at heq2
    have heq3 : finishNode (Nnf.and (setOfList ls)) c1 cl1 =
        some (lit, c', cl') := heq2
    clear heq2
    have hxb : ∀ x ∈ xs, auxBelow c x = true := by
      simp only [auxBelow] at hb
      exact fun x hx => (auxBelowList_iff.mp hb) x hx
    obtain ⟨t1, t2, t3, t4, t5, t6, t7, t8⟩ := h2 ls c1 cl1 hpl hxb hclb
    have hlit : ∀ x ∈ setOfList ls, isLit x = true :=
      fun x hx => (t2 x (mem_setOfList.mp hx)).1
    have haux : ∀ x ∈ setOfList ls, auxBelow c1 x = true :=
      fun x hx => (t2 x (mem_setOfList.mp hx)).2
    obtain ⟨cl2, f1, f2, f3, f4, f5, f6⟩ :=
      @finishNode_and_spec (setOfList ls) c1 cl1 hlit
    rw [f1] at heq3
    simp only [Option.some.injEq, Prod.mk.injEq] at heq3
    obtain ⟨rfl, rfl, rfl⟩ := heq3
    refine ⟨by omega, rfl, by simp [auxBelow, fvBelow], ?_, ?_, ?_, ?_,
      ?_, ?_⟩
    · exact fun C hC => f2 C (t3 C hC)
    · exact fun hs => f3 (t4 hs)
    · intro C hC
      rcases f4 haux C hC with hC1 | ⟨_, _, hab⟩
      · exact auxBelow_mono (by omega) (t5 C hC1)
      · exact hab
    · intro C hC
      rcases f4 haux C hC with hC1 | ⟨hcls, hwf, _⟩
      · exact t6 C hC1
      · exact Or.inr ⟨hcls, hwf⟩
    · intro τ hτ
      have hτ1 : ∀ C ∈ cl1, evalNnf τ C = true := fun C hC => hτ C (f2 C hC)
      have hs := f5 τ hτ
      have he : evalAll τ (setOfList ls) = evalAll τ xs := by
        rw [evalAll_setOfList]
        exact evalAll_forall₂ (t7 τ hτ1)
      simp only [evalNnf]
      rw [hs, he]
    · intro τ hτ
      obtain ⟨τ₁, a1, m1, e1⟩ := t8 τ hτ
      have hval : evalAll τ₁ (setOfList ls) = evalAll τ xs := by
        rw [evalAll_setOfList]
        exact evalAll_forall₂ e1
      refine ⟨updAux τ₁ c1 (evalAll τ₁ (setOfList ls)),
        agree_chain t1 (by omega) a1 updAux_agree, ?_, ?_⟩
      · intro C hC
        rcases f6 haux τ₁ C hC with hC1 | hev
        · rw [updAux_eval_below (t5 C hC1)]
          exact m1 C hC1
        · exact hev
      · simp only [evalNnf, updAux_self, hval]
        cases evalAll τ xs <;> rfl

theorem NodeSpec_or {xs : List Nnf} {c : Nat} {cl : List Nnf}
    (hns : ∀ y : Nnf, xs = [y] → False) (h2 : ListSpec xs c cl) :
    NodeSpec (.or xs) c cl := by
  intro lit c' cl' heq hb hclb
  rw [processNode.eq_5 c cl xs hns] at heq
  have heq2 : (match processList xs c cl with
      | none => none
      | some (ls, c1, cl1) => finishNode (Nnf.orSet ls) c1 cl1) =
      some (lit, c', cl') := heq
  clear heq
  cases hpl : processList xs c cl with
  | none => rw [hpl] at heq2; cases heq2
  | some r =>
    obtain ⟨ls, c1, cl1⟩ := r
    rw [hpl] at heq2
    have heq3 : finishNode (Nnf.or (setOfList ls)) c1 cl1 =
        some (lit, c', cl') := heq2
    clear heq2
    have hxb : ∀ x ∈ xs, auxBelow c x = true := by
      simp only [auxBelow] at hb
      exact fun x hx => (auxBelowList_iff.mp hb) x hx
    obtain ⟨t1, t2, t3, t4, t5, t6, t7, t8⟩ := h2 ls c1 cl1 hpl hxb hclb
    have hlit : ∀ x ∈ setOfList ls, isLit x = true :=
      fun x hx => (t2 x (mem_setOfList.mp hx)).1
    have haux : ∀ x ∈ setOfList ls, auxBelow c1 x = true :=
      fun x hx => (t2 x (mem_setOfList.mp hx)).2
    obtain ⟨cl2, f1, f2, f3, f4, f5, f6⟩ :=
      @finishNode_or_spec (setOfList ls) c1 cl1 hlit
    rw [f1] at heq3
    simp only [Option.some.injEq, Prod.mk.injEq] at heq3
    obtain ⟨rfl, rfl, rfl⟩ := heq3
    refine ⟨by omega, rfl, by simp [auxBelow, fvBelow], ?_, ?_, ?_, ?_,
      ?_, ?_⟩
    · exact fun C hC => f2 C (t3 C hC)
    · exact fun hs => f3 (t4 hs)
    · intro C hC
      rcases f4 haux C hC with hC1 | ⟨_, _, hab⟩
      · exact auxBelow_mono (by omega) (t5 C hC1)
      · exact hab
    · intro C hC
      rcases f4 haux C hC with hC1 | ⟨hcls, hwf, _⟩
      · exact t6 C hC1
      · exact Or.inr ⟨hcls, hwf⟩
    · intro τ hτ
      have hτ1 : ∀ C ∈ cl1, evalNnf τ C = true := fun C hC => hτ C (f2 C hC)
      have hs := f5 τ hτ
      have he : evalAny τ (setOfList ls) = evalAny τ xs := by
        rw [evalAny_setOfList]
        exact evalAny_forall₂ (t7 τ hτ1)
      simp only [evalNnf]
      rw [hs, he]
    · intro τ hτ
      obtain ⟨τ₁, a1, m1, e1⟩ := t8 τ hτ
      have hval : evalAny τ₁ (setOfList ls) = evalAny τ xs := by
        rw [evalAny_setOfList]
        exact evalAny_forall₂ e1
      refine ⟨updAux τ₁ c1 (evalAny τ₁ (setOfList ls)),
        agree_chain t1 (by omega) a1 updAux_agree, ?_, ?_⟩
      · intro C hC
        rcases f6 haux τ₁ C hC with hC1 | hev
        · rw [updAux_eval_below (t5 C hC1)]
          exact m1 C hC1
        · exact hev
      · simp only [evalNnf, updAux_self, hval]
        cases evalAny τ xs <;> rfl
end Fgr

namespace Fgr

theorem nodeSpec_all : ∀ (n : Nnf) (c : Nat) (cl : List Nnf),
    NodeSpec n c cl :=
  processNode.induct NodeSpec ListSpec
    (fun _ _ _ _ => NodeSpec_var)
    (fun _ _ _ => NodeSpec_single_and)
    (fun _ _ _ => NodeSpec_single_or)
    (fun _ _ _ hns _ ih => NodeSpec_and hns ih)
    (fun _ _ _ hns _ _ _ _ ih => NodeSpec_and hns ih)
    (fun _ _ _ hns _ ih => NodeSpec_or hns ih)
    (fun _ _ _ hns _ _ _ _ ih => NodeSpec_or hns ih)
    (fun _ _ => ListSpec_nil)
    (fun _ _ _ _ herr _ => ListSpec_cons_err herr)
    (fun _ _ _ _ _ _ _ heq _ ih1 ih2 => ListSpec_cons heq ih1 ih2)
    (fun _ _ _ _ _ _ _ heq _ _ _ _ ih1 ih2 => ListSpec_cons heq ih1 ih2)

theorem listSpec_all : ∀ (xs : List Nnf) (c : Nat) (cl : List Nnf),
    ListSpec xs c cl := by
  intro xs
  induction xs with
  | nil => intro c cl; exact ListSpec_nil
  | cons x xs ih =>
    intro c cl
    cases heq : processNode x c cl with
    | none => exact ListSpec_cons_err heq
    | some r =>
      obtain ⟨lit, c1, cl1⟩ := r
      exact ListSpec_cons heq (nodeSpec_all x c cl) (ih c1 cl1)
end Fgr

namespace Fgr

/-- What `processRequired` guarantees: it only ever adds well-formed clauses,
any model of the output clause list makes the required node true, and any
model of the input clause list under which the node is true extends on the
fresh auxiliaries to a model of the output list. -/
def ReqSpec (n : Nnf) (c : Nat) (cl : List Nnf) : Prop :=
  ∀ c' cl', processRequired n c cl = some (c', cl') →
    auxBelow c n = true →
    (∀ C ∈ cl, auxBelow c C = true) →
    c ≤ c' ∧
    (∀ C ∈ cl, C ∈ cl') ∧
    (SortedLt cl → SortedLt cl') ∧
    (∀ C ∈ cl', auxBelow c' C = true) ∧
    (∀ C ∈ cl', C ∈ cl ∨ (isClause C = true ∧ wfNnf C = true)) ∧
    (∀ τ : FilterVar → Bool, (∀ C ∈ cl', evalNnf τ C = true) →
      evalNnf τ n = true) ∧
    (∀ τ : FilterVar → Bool, (∀ C ∈ cl, evalNnf τ C = true) →
      evalNnf τ n = true →
      ∃ τ' : FilterVar → Bool,
        (∀ v, fvNew c c' v = false → τ' v = τ v) ∧
        (∀ C ∈ cl', evalNnf τ' C = true))

/-- The same guarantees for `processRequiredList` over a conjunction of
required nodes. -/
def ReqListSpec (xs : List Nnf) (c : Nat) (cl : List Nnf) : Prop :=
  ∀ c' cl', processRequiredList xs c cl = some (c', cl') →
    (∀ x ∈ xs, auxBelow c x = true) →
    (∀ C ∈ cl, auxBelow c C = true) →
    c ≤ c' ∧
    (∀ C ∈ cl, C ∈ cl') ∧
    (SortedLt cl → SortedLt cl') ∧
    (∀ C ∈ cl', auxBelow c' C = true) ∧
    (∀ C ∈ cl', C ∈ cl ∨ (isClause C = true ∧ wfNnf C = true)) ∧
    (∀ τ : FilterVar → Bool, (∀ C ∈ cl', evalNnf τ C = true) →
      ∀ x ∈ xs, evalNnf τ x = true) ∧
    (∀ τ : FilterVar → Bool, (∀ C ∈ cl, evalNnf τ C = true) →
      (∀ x ∈ xs, evalNnf τ x = true) →
      ∃ τ' : FilterVar → Bool,
        (∀ v, fvNew c c' v = false → τ' v = τ v) ∧
        (∀ C ∈ cl', evalNnf τ' C = true))

theorem ReqSpec_var {v : FilterVar} {b : Bool} {c : Nat} {cl : List Nnf} :
    ReqSpec (.var v b) c cl := by
  intro c' cl' heq hb hclb
  simp only [processRequired, Option.some.injEq, Prod.mk.injEq] at heq
  obtain ⟨rfl, rfl⟩ := heq
  refine ⟨le_refl c, fun C hC => mem_insertSorted.mpr (Or.inr hC),
    insertSorted_pairwise, ?_, ?_, ?_, ?_⟩
  · intro C hC
    rcases mem_insertSorted.mp hC with rfl | hC
    · rw [auxBelow_orSet]
      intro x hx
      simp only [List.mem_singleton] at hx
      subst hx
      exact hb
    · exact hclb C hC
  · intro C hC
    rcases mem_insertSorted.mp hC with rfl | hC
    · exact Or.inr ⟨isClause_unit, wf_orSet (by simp [wfNnf])⟩
    · exact Or.inl hC
  · intro τ hτ
    have := hτ _ (mem_insertSorted.mpr (Or.inl rfl))
    rw [evalNnf_orSet_unit] at this
    exact this
  · intro τ hτ hn
    refine ⟨τ, fun u _ => rfl, ?_⟩
    intro C hC
    rcases mem_insertSorted.mp hC with rfl | hC
    · rw [evalNnf_orSet_unit]
      exact hn
    · exact hτ C hC

theorem ReqSpec_single_and {x : Nnf} {c : Nat} {cl : List Nnf}
    (h : ReqSpec x c cl) : ReqSpec (.and [x]) c cl := by
  intro c' cl' heq hb hclb
  rw [show processRequired (Nnf.and [x]) c cl = processRequired x c cl from
    by simp [processRequired]] at heq
  have hb' : auxBelow c x = true := by
    simp only [auxBelow, auxBelowList, Bool.and_eq_true] at hb
    exact hb.1
  obtain ⟨h1, h2, h3, h4, h5, h6, h7⟩ := h c' cl' heq hb' hclb
  refine ⟨h1, h2, h3, h4, h5, ?_, ?_⟩
  · intro τ hτ
    have := h6 τ hτ
    simp [evalNnf, evalAll, this]
  · intro τ hτ hn
    refine h7 τ hτ ?_
    simp only [evalNnf, evalAll, Bool.and_true] at hn
    exact hn

theorem ReqSpec_single_or {x : Nnf} {c : Nat} {cl : List Nnf}
    (h : ReqSpec x c cl) : ReqSpec (.or [x]) c cl := by
  intro c' cl' heq hb hclb
  rw [show processRequired (Nnf.or [x]) c cl = processRequired x c cl from
    by simp [processRequired]] at heq
  have hb' : auxBelow c x = true := by
    simp only [auxBelow, auxBelowList, Bool.and_eq_true] at hb
    exact hb.1
  obtain ⟨h1, h2, h3, h4, h5, h6, h7⟩ := h c' cl' heq hb' hclb
  refine ⟨h1, h2, h3, h4, h5, ?_, ?_⟩
  · intro τ hτ
    have := h6 τ hτ
    simp [evalNnf, evalAny, this]
  · intro τ hτ hn
    refine h7 τ hτ ?_
    simp only [evalNnf, evalAny, Bool.or_false] at hn
    exact hn

theorem ReqListSpec_nil {c : Nat} {cl : List Nnf} : ReqListSpec [] c cl := by
  intro c' cl' heq _ hclb
  simp only [processRequiredList, Option.some.injEq, Prod.mk.injEq] at heq
  obtain ⟨rfl, rfl⟩ := heq
  exact ⟨le_refl c, fun C hC => hC, fun h => h, hclb,
    fun C hC => Or.inl hC, fun τ hτ x hx => absurd hx (by simp),
    fun τ hτ _ => ⟨τ, fun u _ => rfl, hτ⟩⟩

theorem ReqListSpec_cons_err {x : Nnf} {xs : List Nnf} {c : Nat}
    {cl : List Nnf} (heq0 : processRequired x c cl = none) :
    ReqListSpec (x :: xs) c cl := by
  intro c' cl' heq
  rw [processRequiredList.eq_2, heq0] at heq
  cases heq

theorem ReqListSpec_cons {x : Nnf} {xs : List Nnf} {c : Nat}
    {cl : List Nnf} {c1 : Nat} {cl1 : List Nnf}
    (heq0 : processRequired x c cl = some (c1, cl1))
    (h1 : ReqSpec x c cl) (h2 : ReqListSpec xs c1 cl1) :
    ReqListSpec (x :: xs) c cl := by
  intro c' cl' heq hxb hclb
  rw [processRequiredList.eq_2, heq0] at heq
  have heq2 : processRequiredList xs c1 cl1 = some (c', cl') := heq
  clear heq
  obtain ⟨n1, n2, n3, n4, n5, n6, n7⟩ :=
    h1 c1 cl1 heq0 (hxb x (by simp)) hclb
  obtain ⟨t1, t2, t3, t4, t5, t6, t7⟩ :=
    h2 c' cl' heq2 (fun y hy => auxBelow_mono n1 (hxb y (by simp [hy]))) n4
  refine ⟨le_trans n1 t1, fun C hC => t2 C (n2 C hC),
    fun hs => t3 (n3 hs), t4, ?_, ?_, ?_⟩
  · intro C hC
    rcases t5 C hC with hC1 | hprops
    · exact n5 C hC1
    · exact Or.inr hprops
  · intro τ hτ y hy
    have hτ1 : ∀ C ∈ cl1, evalNnf τ C = true := fun C hC => hτ C (t2 C hC)
    rcases List.mem_cons.mp hy with rfl | hy
    · exact n6 τ hτ1
    · exact t6 τ hτ y hy
  · intro τ hτ hall
    obtain ⟨τ₁, a1, m1⟩ := n7 τ hτ (hall x (by simp))
    have hall1 : ∀ y ∈ xs, evalNnf τ₁ y = true := by
      intro y hy
      rw [evalNnf_congr (agree_below a1) (hxb y (by simp [hy]))]
      exact hall y (by simp [hy])
    obtain ⟨τ₂, a2, m2⟩ := h2 c' cl' heq2
      (fun y hy => auxBelow_mono n1 (hxb y (by simp [hy]))) n4
      |>.2.2.2.2.2.2 τ₁ m1 hall1
    exact ⟨τ₂, agree_chain n1 t1 a1 a2, m2⟩
end Fgr

namespace Fgr

theorem ReqSpec_and {xs : List Nnf} {c : Nat} {cl : List Nnf}
    (hns : ∀ y : Nnf, xs = [y] → False) (h2 : ReqListSpec xs c cl) :
    ReqSpec (.and xs) c cl := by
  intro c' cl' heq hb hclb
  rw [processRequired.eq_4 c cl xs hns] at heq
  have hxb : ∀ x ∈ xs, auxBelow c x = true := by
    simp only [auxBelow] at hb
    exact fun x hx => (auxBelowList_iff.mp hb) x hx
  obtain ⟨t1, t2, t3, t4, t5, t6, t7⟩ := h2 c' cl' heq hxb hclb
  refine ⟨t1, t2, t3, t4, t5, ?_, ?_⟩
  · intro τ hτ
    simp only [evalNnf]
    rw [evalAll_iff]
    exact t6 τ hτ
  · intro τ hτ hn
    refine t7 τ hτ ?_
    simp only [evalNnf] at hn
    exact evalAll_iff.mp hn

theorem ReqSpec_or {xs : List Nnf} {c : Nat} {cl : List Nnf}
    (hns : ∀ y : Nnf, xs = [y] → False) :
    ReqSpec (.or xs) c cl := by
  intro c' cl' heq hb hclb
  rw [processRequired.eq_5 c cl xs hns] at heq
  have heq2 : (match processList xs c cl with
      | none => none
      | some (ls, c1, cl1) =>
        match hasInversions (Nnf.orSet ls) with
        | none => none
        | some true => some (c1, cl1)
        | some false => some (c1, insertSorted (Nnf.orSet ls) cl1)) =
      some (c', cl') := heq
  clear heq
  cases hpl : processList xs c cl with
  | none => rw [hpl] at heq2; cases heq2
  | some r =>
    obtain ⟨ls, c1, cl1⟩ := r
    rw [hpl] at heq2
    have heq3 : (match hasInversions (Nnf.orSet ls) with
        | none => none
        | some true => some (c1, cl1)
        | some false => some (c1, insertSorted (Nnf.orSet ls) cl1)) =
        some (c', cl') := heq2
    clear heq2
    have hxb : ∀ x ∈ xs, auxBelow c x = true := by
      simp only [auxBelow] at hb
      exact fun x hx => (auxBelowList_iff.mp hb) x hx
    obtain ⟨t1, t2, t3, t4, t5, t6, t7, t8⟩ :=
      listSpec_all xs c cl ls c1 cl1 hpl hxb hclb
    cases hinv : hasInversions (Nnf.orSet ls) with
    | none => rw [hinv] at heq3; cases heq3
    | some binv =>
      rw [hinv] at heq3
      have hinv' : hasInvAux (setOfList ls) (setOfList ls) = some binv :=
        hinv
      cases binv with
      | true =>
        simp only [Option.some.injEq, Prod.mk.injEq] at heq3
        obtain ⟨rfl, rfl⟩ := heq3
        obtain ⟨v, p, hp1, hp2⟩ := hasInvSet_true hinv'
        refine ⟨t1, t3, t4, t5, t6, ?_, ?_⟩
        · intro τ hτ
          simp only [evalNnf]
          cases hq : evalNnf τ (Nnf.var v p) with
          | true =>
            obtain ⟨x, hx, hxe⟩ := forall₂_mem_right (t7 τ hτ) hp1
            exact evalAny_iff.mpr ⟨x, hx, by rw [← hxe]; exact hq⟩
          | false =>
            have hq2 : evalNnf τ (Nnf.var v (!p)) = true := by
              simp only [evalNnf] at hq ⊢
              cases hv : τ v <;> cases p <;> simp_all
            obtain ⟨x, hx, hxe⟩ := forall₂_mem_right (t7 τ hτ) hp2
            exact evalAny_iff.mpr ⟨x, hx, by rw [← hxe]; exact hq2⟩
        · intro τ hτ _
          obtain ⟨τ₁, a1, m1, _⟩ := t8 τ hτ
          exact ⟨τ₁, a1, m1⟩
      | false =>
        simp only [Option.some.injEq, Prod.mk.injEq] at heq3
        obtain ⟨rfl, rfl⟩ := heq3
        have hnoinv := hasInvSet_false hinv'
        refine ⟨t1, fun C hC => mem_insertSorted.mpr (Or.inr (t3 C hC)),
          fun hs => insertSorted_pairwise (t4 hs), ?_, ?_, ?_, ?_⟩
        · intro C hC
          rcases mem_insertSorted.mp hC with rfl | hC
          · rw [auxBelow_orSet]
            exact fun x hx => (t2 x hx).2
          · exact t5 C hC
        · intro C hC
          rcases mem_insertSorted.mp hC with rfl | hC
          · exact Or.inr ⟨isClause_orSet' (fun x hx => (t2 x hx).1) hnoinv,
              wf_orSet (fun x hx => wf_lit_of_isLit ((t2 x hx).1))⟩
          · exact t6 C hC
        · intro τ hτ
          have hτ1 : ∀ C ∈ cl1, evalNnf τ C = true :=
            fun C hC => hτ C (mem_insertSorted.mpr (Or.inr hC))
          have hcl := hτ _ (mem_insertSorted.mpr (Or.inl rfl))
          rw [evalNnf_orSet] at hcl
          obtain ⟨l, hl, hle⟩ := evalAny_iff.mp hcl
          obtain ⟨x, hx, hxe⟩ := forall₂_mem_right (t7 τ hτ1) hl
          simp only [evalNnf]
          exact evalAny_iff.mpr ⟨x, hx, by rw [← hxe]; exact hle⟩
        · intro τ hτ hn
          obtain ⟨τ₁, a1, m1, e1⟩ := t8 τ hτ
          refine ⟨τ₁, a1, ?_⟩
          intro C hC
          rcases mem_insertSorted.mp hC with rfl | hC
          · rw [evalNnf_orSet, evalAny_forall₂ e1]
            simpa [evalNnf] using hn
          · exact m1 C hC
end Fgr

namespace Fgr

theorem reqSpec_all : ∀ (n : Nnf) (c : Nat) (cl : List Nnf),
    ReqSpec n c cl :=
  processRequired.induct ReqSpec ReqListSpec
    (fun _ _ _ _ => ReqSpec_var)
    (fun _ _ _ ih => ReqSpec_single_and ih)
    (fun _ _ _ ih => ReqSpec_single_or ih)
    (fun _ _ _ hns ih => ReqSpec_and hns ih)
    (fun _ _ _ hns _ => ReqSpec_or hns)
    (fun _ _ _ hns _ _ _ _ _ => ReqSpec_or hns)
    (fun _ _ _ hns _ _ _ _ _ => ReqSpec_or hns)
    (fun _ _ _ hns _ _ _ _ _ => ReqSpec_or hns)
    (fun _ _ => ReqListSpec_nil)
    (fun _ _ _ _ herr _ => ReqListSpec_cons_err herr)
    (fun _ _ _ _ _ _ heq ih1 ih2 => ReqListSpec_cons heq ih1 ih2)

theorem nodup_names_no_pair : ∀ {lits : List Nnf},
    (litNames lits).Nodup →
    ∀ v p, (Nnf.var v p) ∈ lits → (Nnf.var v (!p)) ∉ lits := by
  intro lits
  induction lits with
  | nil => intro _ v p h1; cases h1
  | cons c rest ih =>
    intro hnd v p h1 h2
    cases c with
    | var w q =>
      simp only [litNames, List.nodup_cons] at hnd
      by_cases hv : v = w
      · subst hv
        rcases List.mem_cons.mp h1 with he1 | h1
        · rcases List.mem_cons.mp h2 with he2 | h2
          · injection he1 with hw1 hq1
            injection he2 with hw2 hq2
            subst hq1
            simp at hq2
          · exact hnd.1 (mem_litNames.mpr ⟨!p, h2⟩)
        · exact hnd.1 (mem_litNames.mpr ⟨p, h1⟩)
      · have h1r : (Nnf.var v p) ∈ rest := by
          rcases List.mem_cons.mp h1 with he | hr
          · injection he with hw _
            exact absurd hw hv
          · exact hr
        have h2r : (Nnf.var v (!p)) ∈ rest := by
          rcases List.mem_cons.mp h2 with he | hr
          · injection he with hw _
            exact absurd hw hv
          · exact hr
        exact ih hnd.2 v p h1r h2r
    | and cs =>
      simp only [litNames] at hnd
      rcases List.mem_cons.mp h1 with he1 | h1
      · cases he1
      rcases List.mem_cons.mp h2 with he2 | h2
      · cases he2
      exact ih hnd v p h1 h2
    | or cs =>
      simp only [litNames] at hnd
      rcases List.mem_cons.mp h1 with he1 | h1
      · cases he1
      rcases List.mem_cons.mp h2 with he2 | h2
      · cases he2
      exact ih hnd v p h1 h2

theorem clause_no_inv {lits : List Nnf} (h : isSimpleAux [] lits = true) :
    hasInvAux lits lits = some false := by
  obtain ⟨hnd, -, hlit⟩ := isSimpleAux_nodup_names h
  obtain ⟨b, hb⟩ := @hasInvAux_isSome lits lits hlit
  cases b with
  | false => exact hb
  | true =>
    obtain ⟨v, p, h1, h2⟩ := hasInvAux_true hb
    exact absurd h2 (nodup_names_no_pair hnd v p h1)

theorem processList_vars : ∀ {lits : List Nnf},
    (∀ l ∈ lits, isLit l = true) →
    ∀ (c : Nat) (acc : List Nnf),
    processList lits c acc = some (lits, c, acc) := by
  intro lits
  induction lits with
  | nil => intro _ c acc; rfl
  | cons l ls ih =>
    intro h c acc
    obtain ⟨v, b, rfl⟩ : ∃ v b, l = Nnf.var v b := by
      have := h l (by simp)
      cases l with
      | var v b => exact ⟨v, b, rfl⟩
      | and cs => simp [isLit] at this
      | or cs => simp [isLit] at this
    have htl := ih (fun x hx => h x (by simp [hx])) c acc
    rw [processList.eq_2]
    have h1 : processNode (Nnf.var v b) c acc =
        some (Nnf.var v b, c, acc) := rfl
    rw [h1]
    have h2 : (match processList ls c acc with
        | none => none
        | some (ls2, c2, cl2) => some (Nnf.var v b :: ls2, c2, cl2)) =
        some (Nnf.var v b :: ls, c, acc) := by
      rw [htl]
    exact h2

theorem processRequired_clause {C : Nnf} (hcl : isClause C = true)
    (hwf : wfNnf C = true) :
    ∀ (c : Nat) (acc : List Nnf),
    processRequired C c acc = some (c, insertSorted C acc) := by
  cases C with
  | var v b => simp [isClause] at hcl
  | and cs => simp [isClause] at hcl
  | or lits =>
    have hsimple : isSimpleAux [] lits = true := hcl
    obtain ⟨hnd, -, hlit⟩ := isSimpleAux_nodup_names hsimple
    intro c acc
    cases lits with
    | nil =>
      rw [processRequired.eq_5 c acc [] (by intro y hy; cases hy)]
      rfl
    | cons l0 rest =>
      cases rest with
      | nil =>
        rw [show processRequired (Nnf.or [l0]) c acc =
          processRequired l0 c acc from by simp [processRequired]]
        obtain ⟨v, b, rfl⟩ : ∃ v b, l0 = Nnf.var v b := by
          have := hlit l0 (by simp)
          cases l0 with
          | var v b => exact ⟨v, b, rfl⟩
          | and cs => simp [isLit] at this
          | or cs => simp [isLit] at this
        rfl
      | cons l1 rest2 =>
        have hns : ∀ y : Nnf, l0 :: l1 :: rest2 = [y] → False := by
          intro y hy
          simp at hy
        have hsorted : SortedLt (l0 :: l1 :: rest2) := by
          simp only [wfNnf, Bool.and_eq_true] at hwf
          exact chainSorted_iff.mp hwf.1
        have hset : setOfList (l0 :: l1 :: rest2) = l0 :: l1 :: rest2 :=
          setOfList_sorted_id hsorted
        have hinv : hasInversions (Nnf.orSet (l0 :: l1 :: rest2)) =
            some false := by
          show hasInvAux (setOfList (l0 :: l1 :: rest2))
            (setOfList (l0 :: l1 :: rest2)) = some false
          rw [hset]
          exact clause_no_inv hsimple
        rw [processRequired.eq_5 c acc _ hns, processList_vars hlit c acc]
        have h2 : (match hasInversions (Nnf.orSet (l0 :: l1 :: rest2)) with
            | none => none
            | some true => some (c, acc)
            | some false =>
              some (c, insertSorted (Nnf.orSet (l0 :: l1 :: rest2)) acc)) =
            some (c, insertSorted (Nnf.or (l0 :: l1 :: rest2)) acc) := by
          rw [hinv]
          simp only [Nnf.orSet, hset]
        exact h2

theorem processRequiredList_clauses : ∀ {cl : List Nnf},
    (∀ C ∈ cl, isClause C = true ∧ wfNnf C = true) →
    ∀ (c : Nat) (acc : List Nnf),
    processRequiredList cl c acc =
      some (c, cl.foldl (fun s x => insertSorted x s) acc) := by
  intro cl
  induction cl with
  | nil => intro _ c acc; rfl
  | cons C rest ih =>
    intro h c acc
    rw [processRequiredList.eq_2,
      processRequired_clause (h C (by simp)).1 (h C (by simp)).2 c acc]
    have h2 := ih (fun D hD => h D (by simp [hD])) c (insertSorted C acc)
    exact h2

theorem transform_of_cnf {cl : List Nnf} (hs : SortedLt cl)
    (h : ∀ C ∈ cl, isClause C = true ∧ wfNnf C = true) :
    ∀ c1 : Nat, transform (.and cl) c1 = some (.and cl) := by
  intro c1
  have hrq : processRequired (Nnf.and cl) c1 [] = some (c1, cl) := by
    cases cl with
    | nil =>
      rw [processRequired.eq_4 c1 [] [] (by intro y hy; cases hy)]
      exact processRequiredList_clauses (by simp) c1 []
    | cons C rest =>
      cases rest with
      | nil =>
        rw [show processRequired (Nnf.and [C]) c1 [] =
          processRequired C c1 [] from by simp [processRequired]]
        rw [processRequired_clause (h C (by simp)).1 (h C (by simp)).2 c1 []]
        rfl
      | cons D rest2 =>
        rw [processRequired.eq_4 c1 [] _ (by intro y hy; simp at hy)]
        rw [processRequiredList_clauses h c1 []]
        have h3 : setOfList (C :: D :: rest2) = C :: D :: rest2 :=
          setOfList_sorted_id hs
        exact congrArg some (congrArg (Prod.mk c1) h3)
  simp only [transform, hrq]
end Fgr

namespace Fgr

mutual

/-- No `And`/`Or` anywhere in the tree has exactly one child: exactly the
values on which `process_node` never reaches the `unreachable_unchecked`
singleton fall-through.  (Every tree `ExecutionManager::map` builds
satisfies this: each leaf gets a fresh id, so no child set collapses to a
single element.) -/
def noSingle : Nnf → Bool
  | .var _ _ => true
  | .and xs => decide (xs.length ≠ 1) && noSingleList xs
  | .or xs => decide (xs.length ≠ 1) && noSingleList xs

def noSingleList : List Nnf → Bool
  | [] => true
  | x :: xs => noSingle x && noSingleList xs

end

mutual

/-- The inputs on which `process_required` triggers no `process_node`
singleton fall-through: a singleton `And`/`Or` is harmless on the required
spine (that arm of `process_required` genuinely recurses and returns), a
compound `And` recurses into each child, and the children of a compound
`Or` go through `process_node`, so they must be singleton-free
throughout. -/
def reqSafe : Nnf → Bool
  | .var _ _ => true
  | .and [x] => reqSafe x
  | .or [x] => reqSafe x
  | .and xs => reqSafeList xs
  | .or xs => noSingleList xs

def reqSafeList : List Nnf → Bool
  | [] => true
  | x :: xs => reqSafe x && reqSafeList xs

end

/-- `process_node` panics on none of the other arms: on singleton-free,
auxiliary-clean input it returns a result. -/
def NodeTot (n : Nnf) (c : Nat) (cl : List Nnf) : Prop :=
  noSingle n = true → auxBelow c n = true →
  (∀ C ∈ cl, auxBelow c C = true) →
  ∃ r, processNode n c cl = some r

def ListTot (xs : List Nnf) (c : Nat) (cl : List Nnf) : Prop :=
  noSingleList xs = true → (∀ x ∈ xs, auxBelow c x = true) →
  (∀ C ∈ cl, auxBelow c C = true) →
  ∃ r, processList xs c cl = some r

theorem nodeTot_all : ∀ (n : Nnf) (c : Nat) (cl : List Nnf),
    NodeTot n c cl :=
  processNode.induct NodeTot ListTot
    (fun v b c cl => fun _ _ _ => ⟨(.var v b, c, cl), rfl⟩)
    (fun x c cl => by
      intro hsg _ _
      simp [noSingle] at hsg)
    (fun x c cl => by
      intro hsg _ _
      simp [noSingle] at hsg)
    (fun xs c cl hns hpl ih => by
      intro hsg hb hclb
      have hsg' : noSingleList xs = true := by
        simp only [noSingle, Bool.and_eq_true] at hsg
        exact hsg.2
      have hxb : ∀ x ∈ xs, auxBelow c x = true := by
        simp only [auxBelow] at hb
        exact fun x hx => (auxBelowList_iff.mp hb) x hx
      obtain ⟨r, hr⟩ := ih hsg' hxb hclb
      rw [hpl] at hr
      cases hr)
    (fun xs c cl hns ls c1 cl1 hpl ih => by
      intro hsg hb hclb
      have hxb : ∀ x ∈ xs, auxBelow c x = true := by
        simp only [auxBelow] at hb
        exact fun x hx => (auxBelowList_iff.mp hb) x hx
      obtain ⟨t1, t2, t3, t4, t5, t6, t7, t8⟩ :=
        listSpec_all xs c cl ls c1 cl1 hpl hxb hclb
      obtain ⟨cl2, f1, -⟩ := @finishNode_and_spec (setOfList ls) c1 cl1
        (fun x hx => (t2 x (mem_setOfList.mp hx)).1)
      refine ⟨(.var (.aux c1) true, c1 + 1, cl2), ?_⟩
      rw [processNode.eq_4 c cl xs hns, hpl]
      exact f1)
    (fun xs c cl hns hpl ih => by
      intro hsg hb hclb
      have hsg' : noSingleList xs = true := by
        simp only [noSingle, Bool.and_eq_true] at hsg
        exact hsg.2
      have hxb : ∀ x ∈ xs, auxBelow c x = true := by
        simp only [auxBelow] at hb
        exact fun x hx => (auxBelowList_iff.mp hb) x hx
      obtain ⟨r, hr⟩ := ih hsg' hxb hclb
      rw [hpl] at hr
      cases hr)
    (fun xs c cl hns ls c1 cl1 hpl ih => by
      intro hsg hb hclb
      have hxb : ∀ x ∈ xs, auxBelow c x = true := by
        simp only [auxBelow] at hb
        exact fun x hx => (auxBelowList_iff.mp hb) x hx
      obtain ⟨t1, t2, t3, t4, t5, t6, t7, t8⟩ :=
        listSpec_all xs c cl ls c1 cl1 hpl hxb hclb
      obtain ⟨cl2, f1, -⟩ := @finishNode_or_spec (setOfList ls) c1 cl1
        (fun x hx => (t2 x (mem_setOfList.mp hx)).1)
      refine ⟨(.var (.aux c1) true, c1 + 1, cl2), ?_⟩
      rw [processNode.eq_5 c cl xs hns, hpl]
      exact f1)
    (fun c cl => fun _ _ _ => ⟨([], c, cl), rfl⟩)
    (fun x xs c cl herr ih => by
      intro hsg hxb hclb
      have hsg' : noSingle x = true ∧ noSingleList xs = true := by
        simpa [noSingleList, Bool.and_eq_true] using hsg
      obtain ⟨r, hr⟩ := ih hsg'.1 (hxb x (by simp)) hclb
      rw [herr] at hr
      cases hr)
    (fun x xs c cl lit c1 cl1 heq htl ih1 ih2 => by
      intro hsg hxb hclb
      have hsg' : noSingle x = true ∧ noSingleList xs = true := by
        simpa [noSingleList, Bool.and_eq_true] using hsg
      obtain ⟨n1, n2, n3, n4, n5, n6, n7, n8, n9⟩ :=
        nodeSpec_all x c cl lit c1 cl1 heq (hxb x (by simp)) hclb
      obtain ⟨r, hr⟩ := ih2 hsg'.2
        (fun y hy => auxBelow_mono n1 (hxb y (by simp [hy]))) n6
      rw [htl] at hr
      cases hr)
    (fun x xs c cl lit c1 cl1 heq ls c2 cl2 htl ih1 ih2 => by
      intro hsg hxb hclb
      refine ⟨(lit :: ls, c2, cl2), ?_⟩
      rw [processList.eq_2, heq]
      have h2 : (match processList xs c1 cl1 with
          | none => none
          | some (ls2, c2', cl2') => some (lit :: ls2, c2', cl2')) =
          some (lit :: ls, c2, cl2) := by
        rw [htl]
      exact h2)

theorem listTot_all : ∀ (xs : List Nnf) (c : Nat) (cl : List Nnf),
    ListTot xs c cl := by
  intro xs
  induction xs with
  | nil => intro c cl _ _ _; exact ⟨([], c, cl), rfl⟩
  | cons x xs ih =>
    intro c cl hsg hxb hclb
    have hsg' : noSingle x = true ∧ noSingleList xs = true := by
      simpa [noSingleList, Bool.and_eq_true] using hsg
    obtain ⟨⟨lit, c1, cl1⟩, heq⟩ :=
      nodeTot_all x c cl hsg'.1 (hxb x (by simp)) hclb
    obtain ⟨n1, n2, n3, n4, n5, n6, n7, n8, n9⟩ :=
      nodeSpec_all x c cl lit c1 cl1 heq (hxb x (by simp)) hclb
    obtain ⟨⟨ls, c2, cl2⟩, htl⟩ := ih c1 cl1 hsg'.2
      (fun y hy => auxBelow_mono n1 (hxb y (by simp [hy]))) n6
    refine ⟨(lit :: ls, c2, cl2), ?_⟩
    rw [processList.eq_2, heq]
    have h2 : (match processList xs c1 cl1 with
        | none => none
        | some (ls2, c2', cl2') => some (lit :: ls2, c2', cl2')) =
        some (lit :: ls, c2, cl2) := by
      rw [htl]
    exact h2
end Fgr

namespace Fgr

def ReqTot (n : Nnf) (c : Nat) (cl : List Nnf) : Prop :=
  reqSafe n = true → auxBelow c n = true →
  (∀ C ∈ cl, auxBelow c C = true) →
  ∃ r, processRequired n c cl = some r

def ReqListTot (xs : List Nnf) (c : Nat) (cl : List Nnf) : Prop :=
  reqSafeList xs = true → (∀ x ∈ xs, auxBelow c x = true) →
  (∀ C ∈ cl, auxBelow c C = true) →
  ∃ r, processRequiredList xs c cl = some r

theorem reqTot_all : ∀ (n : Nnf) (c : Nat) (cl : List Nnf),
    ReqTot n c cl :=
  processRequired.induct ReqTot ReqListTot
    (fun v b c cl => fun _ _ _ =>
      ⟨(c, insertSorted (Nnf.orSet [.var v b]) cl), rfl⟩)
    (fun x c cl ih => by
      intro hsf hb hclb
      have hsf' : reqSafe x = true := by
        simpa [reqSafe] using hsf
      have hb' : auxBelow c x = true := by
        simp only [auxBelow, auxBelowList, Bool.and_eq_true] at hb
        exact hb.1
      obtain ⟨r, hr⟩ := ih hsf' hb' hclb
      exact ⟨r, by
        rw [show processRequired (Nnf.and [x]) c cl =
          processRequired x c cl from by simp [processRequired]]
        exact hr⟩)
    (fun x c cl ih => by
      intro hsf hb hclb
      have hsf' : reqSafe x = true := by
        simpa [reqSafe] using hsf
      have hb' : auxBelow c x = true := by
        simp only [auxBelow, auxBelowList, Bool.and_eq_true] at hb
        exact hb.1
      obtain ⟨r, hr⟩ := ih hsf' hb' hclb
      exact ⟨r, by
        rw [show processRequired (Nnf.or [x]) c cl =
          processRequired x c cl from by simp [processRequired]]
        exact hr⟩)
    (fun xs c cl hns ih => by
      intro hsf hb hclb
      rw [reqSafe.eq_4 xs hns] at hsf
      have hxb : ∀ x ∈ xs, auxBelow c x = true := by
        simp only [auxBelow] at hb
        exact fun x hx => (auxBelowList_iff.mp hb) x hx
      obtain ⟨r, hr⟩ := ih hsf hxb hclb
      exact ⟨r, by rw [processRequired.eq_4 c cl xs hns]; exact hr⟩)
    (fun xs c cl hns hpl => by
      intro hsf hb hclb
      rw [reqSafe.eq_5 xs hns] at hsf
      have hxb : ∀ x ∈ xs, auxBelow c x = true := by
        simp only [auxBelow] at hb
        exact fun x hx => (auxBelowList_iff.mp hb) x hx
      obtain ⟨r, hr⟩ := listTot_all xs c cl hsf hxb hclb
      rw [hpl] at hr
      cases hr)
    (fun xs c cl hns ls c1 cl1 hpl hinv => by
      intro hsf hb hclb
      have hxb : ∀ x ∈ xs, auxBelow c x = true := by
        simp only [auxBelow] at hb
        exact fun x hx => (auxBelowList_iff.mp hb) x hx
      obtain ⟨t1, t2, t3, t4, t5, t6, t7, t8⟩ :=
        listSpec_all xs c cl ls c1 cl1 hpl hxb hclb
      obtain ⟨b, hbx⟩ := @hasInvAux_isSome (setOfList ls) (setOfList ls)
        (fun x hx => (t2 x (mem_setOfList.mp hx)).1)
      have hco : hasInvAux (setOfList ls) (setOfList ls) = none := hinv
      rw [hbx] at hco
      cases hco)
    (fun xs c cl hns ls c1 cl1 hpl hinv => by
      intro hsf hb hclb
      refine ⟨(c1, cl1), ?_⟩
      rw [processRequired.eq_5 c cl xs hns, hpl]
      have h2 : (match hasInversions (Nnf.orSet ls) with
          | none => none
          | some true => some (c1, cl1)
          | some false =>
            some (c1, insertSorted (Nnf.orSet ls) cl1)) =
          some (c1, cl1) := by
        rw [hinv]
      exact h2)
    (fun xs c cl hns ls c1 cl1 hpl hinv => by
      intro hsf hb hclb
      refine ⟨(c1, insertSorted (Nnf.orSet ls) cl1), ?_⟩
      rw [processRequired.eq_5 c cl xs hns, hpl]
      have h2 : (match hasInversions (Nnf.orSet ls) with
          | none => none
          | some true => some (c1, cl1)
          | some false =>
            some (c1, insertSorted (Nnf.orSet ls) cl1)) =
          some (c1, insertSorted (Nnf.orSet ls) cl1) := by
        rw [hinv]
      exact h2)
    (fun c cl => fun _ _ _ => ⟨(c, cl), rfl⟩)
    (fun x xs c cl herr ih => by
      intro hsf hxb hclb
      have hsf' : reqSafe x = true ∧ reqSafeList xs = true := by
        simpa [reqSafeList, Bool.and_eq_true] using hsf
      obtain ⟨r, hr⟩ := ih hsf'.1 (hxb x (by simp)) hclb
      rw [herr] at hr
      cases hr)
    (fun x xs c cl c1 cl1 heq ih1 ih2 => by
      intro hsf hxb hclb
      have hsf' : reqSafe x = true ∧ reqSafeList xs = true := by
        simpa [reqSafeList, Bool.and_eq_true] using hsf
      obtain ⟨n1, n2, n3, n4, n5, n6, n7⟩ :=
        reqSpec_all x c cl c1 cl1 heq (hxb x (by simp)) hclb
      obtain ⟨r, hr⟩ := ih2 hsf'.2
        (fun y hy => auxBelow_mono n1 (hxb y (by simp [hy]))) n4
      refine ⟨r, ?_⟩
      rw [processRequiredList.eq_2, heq]
      exact hr)
end Fgr

namespace Fgr

/-- C2 (amended): on any well-formed, auxiliary-clean NNF input `E` that
triggers no `process_node` singleton fall-through (`reqSafe` — in
particular every tree `ExecutionManager::map` builds, whose child sets
never collapse to one element), the Tseitin transform (counter-based
auxiliary factory starting at `c0`) succeeds and returns a CNF formula
`And cl`; for every assignment `σ`, `E` is true under `σ` iff some
extension of `σ` on the freshly created auxiliary variables makes `And cl`
true; and running the transform again on `And cl` (any counter) returns
`And cl` unchanged.  Without `reqSafe` the claim fails: see the
counterexample with a singleton `And` below an `Or`. -/
theorem C2_tseitin_equisat_cnf_idempotent (E : Nnf) (c0 : Nat)
    (hwf : wfNnf E = true) (hb : auxBelow c0 E = true)
    (hsafe : reqSafe E = true) :
    ∃ (c' : Nat) (cl : List Nnf),
      processRequired E c0 [] = some (c', cl) ∧
      transform E c0 = some (.and cl) ∧
      isCnf (.and cl) = true ∧
      (∀ σ : FilterVar → Bool,
        evalNnf σ E = true ↔
        ∃ σ' : FilterVar → Bool,
          (∀ v, fvNew c0 c' v = false → σ' v = σ v) ∧
          evalNnf σ' (.and cl) = true) ∧
      (∀ c1 : Nat, transform (.and cl) c1 = some (.and cl)) := by
  obtain ⟨⟨c', cl⟩, hrq⟩ := reqTot_all E c0 [] hsafe hb (by simp)
  obtain ⟨t1, t2, t3, t4, t5, t6, t7⟩ :=
    reqSpec_all E c0 [] c' cl hrq hb (by simp)
  refine ⟨c', cl, hrq, by simp [transform, hrq], ?_, ?_, ?_⟩
  · simp only [isCnf, List.all_eq_true]
    intro C hC
    rcases t5 C hC with h0 | ⟨hcl, _⟩
    · cases h0
    · exact hcl
  · intro σ
    constructor
    · intro hE
      obtain ⟨σ', ha, hm⟩ := t7 σ (by simp) hE
      refine ⟨σ', ha, ?_⟩
      simp only [evalNnf]
      rw [evalAll_iff]
      exact hm
    · rintro ⟨σ', ha, hm⟩
      have hm' : ∀ C ∈ cl, evalNnf σ' C = true := by
        simp only [evalNnf] at hm
        exact evalAll_iff.mp hm
      have hE' := t6 σ' hm'
      rw [evalNnf_congr (agree_below ha) hb] at hE'
      exact hE'
  · refine transform_of_cnf (t3 List.Pairwise.nil) ?_
    intro C hC
    rcases t5 C hC with h0 | hpr
    · cases h0
    · exact hpr
end Fgr

namespace Fgr

theorem C2_tseitin_witness :
    reqSafe (Nnf.or [Nnf.var (FilterVar.var 0 1) true,
      Nnf.var (FilterVar.var 1 1) false]) = true ∧
    ∃ (c' : Nat) (cl : List Nnf),
      processRequired (Nnf.or [Nnf.var (FilterVar.var 0 1) true,
        Nnf.var (FilterVar.var 1 1) false]) 2 [] = some (c', cl) ∧
      transform (Nnf.or [Nnf.var (FilterVar.var 0 1) true,
        Nnf.var (FilterVar.var 1 1) false]) 2 = some (.and cl) ∧
      isCnf (.and cl) = true ∧
      (∀ σ : FilterVar → Bool,
        evalNnf σ (Nnf.or [Nnf.var (FilterVar.var 0 1) true,
          Nnf.var (FilterVar.var 1 1) false]) = true ↔
        ∃ σ' : FilterVar → Bool,
          (∀ v, fvNew 2 c' v = false → σ' v = σ v) ∧
          evalNnf σ' (.and cl) = true) ∧
      (∀ c1 : Nat, transform (.and cl) c1 = some (.and cl)) :=
  ⟨by decide,
    C2_tseitin_equisat_cnf_idempotent
      (Nnf.or [Nnf.var (FilterVar.var 0 1) true,
        Nnf.var (FilterVar.var 1 1) false]) 2
      (by decide) (by decide) (by decide)⟩
end Fgr

namespace Fgr

/-- `ExpressionNode<Filter>` as produced by the parser of
`src/parse/mod.rs`, with the leaves carrying the parsed filters. -/
inductive ExprTree where
  | leaf (filter : ParsedFilter)
  | and (left right : ExprTree)
  | or (left right : ExprTree)
  | not (node : ExprTree)

/-- `parse_attribute` from `src/parse/mod.rs`. -/
def parseAttribute (env : ParserEnv) (input : List Char) : PRes ExprTree :=
  match parseAttributeName input with
  | .ok rem tok =>
    match parseAttrValue env tok rem with
    | .ok rem2 f => .ok rem2 (.leaf f)
    | .err => .err
    | .fail => .fail
  | .err => .err
  | .fail => .fail

mutual

/-- `parse_parens` from `src/parse/mod.rs`:
`ws(delimited(ws(char '('), parse_or, ws(char ')')))`.  The `Nat` argument
is recursion fuel (the source recurses on the shrinking input); running out
of fuel yields a recoverable error. -/
def parseParens (env : ParserEnv) : Nat → List Char → PRes ExprTree
  | 0, _ => .err
  | fuel + 1, input =>
    match dropMultispace input with
    | '(' :: rest =>
      match parseOr env fuel (dropMultispace rest) with
      | .ok rem e =>
        match dropMultispace rem with
        | ')' :: rest2 => .ok (dropMultispace rest2) e
        | _ => .err
      | .err => .err
      | .fail => .fail
    | _ => .err

/-- `parse_not` from `src/parse/mod.rs`: `ws(tag "not")` then
`alt((parse_attribute, parse_parens_or_attribute))`, wrapped in `Not`. -/
def parseNot (env : ParserEnv) : Nat → List Char → PRes ExprTree
  | 0, _ => .err
  | fuel + 1, input =>
    match stripPrefixChars ['n', 'o', 't'] (dropMultispace input) with
    | some rest =>
      match parseAttribute env (dropMultispace rest) with
      | .ok rem e => .ok rem (.not e)
      | .fail => .fail
      | .err =>
        match parseParensOrAttribute env fuel (dropMultispace rest) with
        | .ok rem e => .ok rem (.not e)
        | .err => .err
        | .fail => .fail
    | none => .err

/-- `parse_parens_or_attribute` from `src/parse/mod.rs`:
`alt((parse_parens, parse_attribute, parse_not))`; `alt` moves on after a
recoverable `Error` and aborts on `Failure`. -/
def parseParensOrAttribute (env : ParserEnv) :
    Nat → List Char → PRes ExprTree
  | 0, _ => .err
  | fuel + 1, input =>
    match parseParens env fuel input with
    | .ok rem e => .ok rem e
    | .fail => .fail
    | .err =>
      match parseAttribute env input with
      | .ok rem e => .ok rem e
      | .fail => .fail
      | .err => parseNot env fuel input

/-- `parse_and` from `src/parse/mod.rs`: a `parse_parens_or_attribute`
followed by `many0(tuple(ws(tag "and"), parse_and))`, folded left. -/
def parseAnd (env : ParserEnv) : Nat → List Char → PRes ExprTree
  | 0, _ => .err
  | fuel + 1, input =>
    match parseParensOrAttribute env fuel input with
    | .ok rem left => parseAndMany env fuel rem left
    | .err => .err
    | .fail => .fail

/-- The `many0` loop of `parse_and`: stop (keeping the accumulator and the
input from before the operator) when the element errors; abort on
`Failure`. -/
def parseAndMany (env : ParserEnv) :
    Nat → List Char → ExprTree → PRes ExprTree
  | 0, _, _ => .err
  | fuel + 1, input, acc =>
    match stripPrefixChars ['a', 'n', 'd'] (dropMultispace input) with
    | some rest =>
      match parseAnd env fuel (dropMultispace rest) with
      | .ok rem right => parseAndMany env fuel rem (.and acc right)
      | .err => .ok input acc
      | .fail => .fail
    | none => .ok input acc

/-- `parse_or` from `src/parse/mod.rs`: a `parse_and` followed by
`many0(tuple(ws(tag "or"), parse_and))`, folded left. -/
def parseOr (env : ParserEnv) : Nat → List Char → PRes ExprTree
  | 0, _ => .err
  | fuel + 1, input =>
    match parseAnd env fuel input with
    | .ok rem left => parseOrMany env fuel rem left
    | .err => .err
    | .fail => .fail

/-- The `many0` loop of `parse_or`. -/
def parseOrMany (env : ParserEnv) :
    Nat → List Char → ExprTree → PRes ExprTree
  | 0, _, _ => .err
  | fuel + 1, input, acc =>
    match stripPrefixChars ['o', 'r'] (dropMultispace input) with
    | some rest =>
      match parseAnd env fuel (dropMultispace rest) with
      | .ok rem right => parseOrMany env fuel rem (.or acc right)
      | .err => .ok input acc
      | .fail => .fail
    | none => .ok input acc

end

/-- `parse_root` from `src/parse/mod.rs`: run `parse_or`; reject when the
trimmed remainder is nonempty (`SomeTokensWereNotParsed`); `none` is a
`GenericError` result. -/
def parseRoot (env : ParserEnv) (fuel : Nat) (input : List Char) :
    Option ExprTree :=
  match parseOr env fuel input with
  | .ok rem e => if rem.all Char.isWhitespace then some e else none
  | .err => none
  | .fail => none
end Fgr

namespace Fgr

theorem stripPrefixChars_append : ∀ {p input suf : List Char},
    stripPrefixChars p input = some suf → input = p ++ suf := by
  intro p
  induction p with
  | nil =>
    intro input suf h
    simp only [stripPrefixChars, Option.some.injEq] at h
    simp [h]
  | cons c cs ih =>
    intro input suf h
    cases input with
    | nil => simp [stripPrefixChars] at h
    | cons d ds =>
      simp only [stripPrefixChars] at h
      by_cases hcd : c = d
      · subst hcd
        simp only [if_pos rfl] at h
        simp [ih h]
      · simp [hcd] at h

theorem splitByLongestAlias_mem : ∀ {table : List (String × String)}
    {input suf : List Char} {canon : String},
    splitByLongestAlias table input = some (suf, canon) →
    ∃ al : String, (al, canon) ∈ table ∧ input = al.toList ++ suf := by
  intro table
  induction table with
  | nil => intro input suf canon h; simp [splitByLongestAlias] at h
  | cons p rest ih =>
    intro input suf canon h
    obtain ⟨al, cn⟩ := p
    simp only [splitByLongestAlias] at h
    cases hsp : stripPrefixChars al.toList input with
    | some suffix =>
      rw [hsp] at h
      have heq := stripPrefixChars_append hsp
      cases suffix with
      | nil =>
        simp only [Option.some.injEq, Prod.mk.injEq] at h
        obtain ⟨rfl, rfl⟩ := h
        exact ⟨al, by simp, heq⟩
      | cons c cs =>
        by_cases hc : c.isAlphanum
        · simp [hc] at h
        · simp only [hc, Bool.false_eq_true, if_false, Option.some.injEq,
            Prod.mk.injEq] at h
          obtain ⟨rfl, rfl⟩ := h
          exact ⟨al, by simp, heq⟩
    | none =>
      rw [hsp] at h
      obtain ⟨al2, hmem, heq⟩ := ih h
      exact ⟨al2, by simp [hmem], heq⟩

theorem attr_start_shape {input rem : List Char} {tok : AttributeToken}
    (h1 : parseAttributeName input = .ok rem tok)
    (h2 : tok = .name ∨ tok = .extension ∨ tok = .contains) :
    ∃ a b t, dropMultispace input = a :: b :: t ∧ a ≠ '(' ∧
      stripPrefixChars ['n', 'o', 't'] (dropMultispace input) = none := by
  unfold parseAttributeName at h1
  cases hsp : splitByLongestAlias attrAliasTable (dropMultispace input) with
  | none => rw [hsp] at h1; cases h1
  | some pr =>
    obtain ⟨suf, canon⟩ := pr
    rw [hsp] at h1
    have h1' : (match attributeTokenFromStr canon with
        | some t => PRes.ok (dropMultispace suf) t
        | none => PRes.err) = PRes.ok rem tok := h1
    clear h1
    cases hct : attributeTokenFromStr canon with
    | none => rw [hct] at h1'; cases h1'
    | some t =>
      rw [hct] at h1'
      have ht : t = tok := by
        cases h1'
        rfl
      subst ht
      obtain ⟨al, hmem, heq⟩ := splitByLongestAlias_mem hsp
      rw [attrAliasTable] at hmem
      rcases h2 with rfl | rfl | rfl <;> fin_cases hmem <;>
        first
          | exact absurd hct (by decide)
          | exact ⟨'n', 'a', _, by rw [heq]; rfl, by decide,
              by rw [heq]; rfl⟩
          | exact ⟨'e', 'x', _, by rw [heq]; rfl, by decide,
              by rw [heq]; rfl⟩
          | exact ⟨'c', 'o', _, by rw [heq]; rfl, by decide,
              by rw [heq]; rfl⟩
end Fgr

namespace Fgr

theorem parseAttrValue_cases (env : ParserEnv) {rem rem2 : List Char}
    {cmp : Comparison} {tok : AttributeToken}
    (h2 : tok = .name ∨ tok = .extension ∨ tok = .contains)
    (h3 : parseComparison rem = .ok rem2 cmp)
    (h4 : cmp ≠ .eq) (h5 : cmp ≠ .neq) :
    parseAttrValue env tok rem = .err ∨
    parseAttrValue env tok rem = .fail := by
  have hfe : filterEqNeq cmp = .fail := by
    simp [filterEqNeq, h4, h5]
  rcases h2 with rfl | rfl | rfl <;>
    (cases hp : parsePattern env rem2 with
      | ok r p => right; simp only [parseAttrValue, h3, hp, hfe]
      | err => left; simp only [parseAttrValue, h3, hp]
      | fail => right; simp only [parseAttrValue, h3, hp])

theorem parseAttribute_cases (env : ParserEnv) {input rem rem2 : List Char}
    {tok : AttributeToken} {cmp : Comparison}
    (h1 : parseAttributeName input = .ok rem tok)
    (h2 : tok = .name ∨ tok = .extension ∨ tok = .contains)
    (h3 : parseComparison rem = .ok rem2 cmp)
    (h4 : cmp ≠ .eq) (h5 : cmp ≠ .neq) :
    parseAttribute env input = .err ∨ parseAttribute env input = .fail := by
  rcases parseAttrValue_cases env h2 h3 h4 h5 with hv | hv
  · left
    simp only [parseAttribute, h1, hv]
  · right
    simp only [parseAttribute, h1, hv]

theorem parseParens_err (env : ParserEnv) {input : List Char}
    {a b : Char} {t : List Char} (hd : dropMultispace input = a :: b :: t)
    (ha : a ≠ '(') : ∀ fuel, parseParens env fuel input = .err := by
  intro fuel
  cases fuel with
  | zero => rfl
  | succ f =>
    simp only [parseParens, hd]
    split
    · next rest heq =>
      injection heq with h1 h2
      exact absurd h1 ha
    · rfl

theorem parseNot_err (env : ParserEnv) {input : List Char}
    (hstrip : stripPrefixChars ['n', 'o', 't'] (dropMultispace input) =
      none) : ∀ fuel, parseNot env fuel input = .err := by
  intro fuel
  cases fuel with
  | zero => rfl
  | succ f => simp only [parseNot, hstrip]

theorem parsePOA_cases (env : ParserEnv) {input : List Char}
    {a b : Char} {t : List Char} (hd : dropMultispace input = a :: b :: t)
    (ha : a ≠ '(')
    (hstrip : stripPrefixChars ['n', 'o', 't'] (dropMultispace input) =
      none)
    (hattr : parseAttribute env input = .err ∨
      parseAttribute env input = .fail) :
    ∀ fuel, parseParensOrAttribute env fuel input = .err ∨
      parseParensOrAttribute env fuel input = .fail := by
  intro fuel
  cases fuel with
  | zero => left; rfl
  | succ f =>
    rcases hattr with hv | hv
    · left
      simp only [parseParensOrAttribute, parseParens_err env hd ha f, hv,
        parseNot_err env hstrip f]
    · right
      simp only [parseParensOrAttribute, parseParens_err env hd ha f, hv]

theorem parseAnd_cases (env : ParserEnv) {input : List Char}
    (hpoa : ∀ fuel, parseParensOrAttribute env fuel input = .err ∨
      parseParensOrAttribute env fuel input = .fail) :
    ∀ fuel, parseAnd env fuel input = .err ∨
      parseAnd env fuel input = .fail := by
  intro fuel
  cases fuel with
  | zero => left; rfl
  | succ f =>
    rcases hpoa f with hv | hv
    · left
      simp only [parseAnd, hv]
    · right
      simp only [parseAnd, hv]

theorem parseOr_cases (env : ParserEnv) {input : List Char}
    (hand : ∀ fuel, parseAnd env fuel input = .err ∨
      parseAnd env fuel input = .fail) :
    ∀ fuel, parseOr env fuel input = .err ∨
      parseOr env fuel input = .fail := by
  intro fuel
  cases fuel with
  | zero => left; rfl
  | succ f =>
    rcases hand f with hv | hv
    · left
      simp only [parseOr, hv]
    · right
      simp only [parseOr, hv]

/-- C8: when a `name`/`extension`/`contains` attribute is followed by a
comparison operator other than `=`/`!=` (as in `name > foo`), the whole
parse fails — `parse_root` returns an error and no expression tree — for
every recursion fuel and every pattern-compiler/name-service environment. -/
theorem C8_name_restriction_parse_error (env : ParserEnv)
    {input rem rem2 : List Char} {tok : AttributeToken} {cmp : Comparison}
    (h1 : parseAttributeName input = .ok rem tok)
    (h2 : tok = .name ∨ tok = .extension ∨ tok = .contains)
    (h3 : parseComparison rem = .ok rem2 cmp)
    (h4 : cmp ≠ .eq) (h5 : cmp ≠ .neq) :
    ∀ fuel, parseRoot env fuel input = none := by
  intro fuel
  obtain ⟨a, b, t, hd, ha, hstrip⟩ := attr_start_shape h1 h2
  have hattr := parseAttribute_cases env h1 h2 h3 h4 h5
  have hor := parseOr_cases env
    (parseAnd_cases env (parsePOA_cases env hd ha hstrip hattr)) fuel
  rcases hor with hv | hv <;> simp [parseRoot, hv]
end Fgr

namespace Fgr

theorem C8_name_restriction_witness :
    parseAttributeName ("name > foo".toList) =
      .ok ("> foo".toList) .name ∧
    parseComparison ("> foo".toList) = .ok ("foo".toList) .gt ∧
    Comparison.gt ≠ Comparison.eq ∧ Comparison.gt ≠ Comparison.neq ∧
    parseRoot noEnv 9 ("name > foo".toList) = none :=
  ⟨rfl, rfl, by decide, by decide,
    @C8_name_restriction_parse_error noEnv ("name > foo".toList)
      ("> foo".toList) ("foo".toList) .name .gt rfl (Or.inl rfl) rfl
      (by decide) (by decide) 9⟩
end Fgr

namespace Fgr

/-- C2 (counterexample to the original claim): `Or [Var a, And [Var b]]` is
a well-formed, auxiliary-clean NNF input, yet the Tseitin transform does
not return a formula for it — `process_node` on the singleton `And` binds
its recursive result (a `Var`) to `processed_node`, falls through to draw
an auxiliary and reaches `unreachable_unchecked` (undefined behaviour,
`none` in the model) — so "for every NNF input E the transform returns a
CNF formula" is false as stated. -/
theorem C2_counterexample_singleton_or :
    wfNnf (Nnf.or [Nnf.var (FilterVar.var 0 1) true,
      Nnf.and [Nnf.var (FilterVar.var 1 1) true]]) = true ∧
    auxBelow 2 (Nnf.or [Nnf.var (FilterVar.var 0 1) true,
      Nnf.and [Nnf.var (FilterVar.var 1 1) true]]) = true ∧
    transform (Nnf.or [Nnf.var (FilterVar.var 0 1) true,
      Nnf.and [Nnf.var (FilterVar.var 1 1) true]]) 2 = none :=
  ⟨by decide, by decide, rfl⟩
end Fgr
